import Mathlib

/-!
PNM header decoding (libavcodec/pnm.c)

A shallow embedding of `pnm_space`, `pnm_get` and `ff_pnm_decode_header`
from `libavcodec/pnm.c`, followed by theorems about them.

Modelling conventions.

* The byte memory that `sc->bytestream` points into is a list of bytes `mem`
  (values below 256); pointers are indices into it.  `bytestream_end` is the
  declared end of the packet; the memory may extend beyond it (padding).  A read
  at an index at or beyond the length of `mem` yields the byte 0.
* `char` arrays (`buf1`, `tuple_type`) are lists of bytes; a C string stored in
  one is the run of bytes before the first 0.
* `int` values are modelled in `Int`; results of `strtol`/`atoi` and the one
  multiplication of the source are wrapped to 32 bits.
* The loops of the source are modelled with a fuel argument; running out of
  fuel gives `none`.  The fuel supplied by the callers is computed from the
  cursor, and the totality theorems (`pnm_get_total`, `pam_loop_total`,
  `ff_pnm_decode_header_returns`) show that it is always enough.
* The size check `av_image_check_size` and the host endianness are not part of
  `pnm.c`; they are parameters of the decoder (`Externals`).
-/

namespace PNM

/-! ## Data model -/

/-- Pixel formats named in `pnm.c` (values of `enum PixelFormat`). -/
inductive PixelFormat where
  | NONE
  | YUV420P
  | RGB24
  | GRAY8
  | MONOWHITE
  | MONOBLACK
  | GRAY16BE
  | GRAY16LE
  | RGB48BE
  | RGBA
  | GRAY8A
  | RGBA64BE
  deriving DecidableEq, Repr

/-- Codec identifiers of the PNM family; `pnm.c` only distinguishes `PGMYUV`. -/
inductive CodecID where
  | PBM
  | PGM
  | PGMYUV
  | PPM
  | PAM
  deriving DecidableEq, Repr

/-- The fields of `AVCodecContext` read or written by the header decoder. -/
structure AVCodecContext where
  codec_id : CodecID
  pix_fmt : PixelFormat
  width : Int
  height : Int
  deriving DecidableEq, Repr

/-- The fields of `PNMContext` used by the header decoder: the cursor
(`bytestream`, `bytestream_end` as indices into `mem`), `type` and `maxval`. -/
structure PNMContext where
  mem : List Nat
  bytestream : Nat
  bytestream_end : Nat
  type : Int
  maxval : Int
  deriving DecidableEq, Repr

/-- What `pnm.c` takes from outside the file: the size check of
`libavutil/imgutils.h` (`av_image_check_size(w, h, 0, avctx)`, zero when the
size is accepted) and the endianness of the host, which decides what the
macro `PIX_FMT_GRAY16` stands for. -/
structure Externals where
  av_image_check_size : Int → Int → Int
  HAVE_BIGENDIAN : Bool

/-- The macro `PIX_FMT_GRAY16`, i.e. `PIX_FMT_NE(GRAY16BE, GRAY16LE)`. -/
def PIX_FMT_GRAY16 (ext : Externals) : PixelFormat :=
  if ext.HAVE_BIGENDIAN then PixelFormat.GRAY16BE else PixelFormat.GRAY16LE

/-! ## C library functions used by the decoder -/

/-- Wrap an integer to the range of a 32-bit `int`. -/
def to_int (x : Int) : Int := (x + 2147483648) % 4294967296 - 2147483648

/-- Value of a `char` holding byte `b`, promoted to `int` (`char` is signed). -/
def schar (b : Nat) : Int := if 128 ≤ b then (b : Int) - 256 else (b : Int)

/-- The C string held in a `char` array: the bytes before the first 0. -/
def cstr (b : List Nat) : List Nat := b.takeWhile (fun c => c != 0)

/-- The function `isspace` in the C locale. -/
def isspace (c : Nat) : Bool := c == 32 || (9 ≤ c && c ≤ 13)

/-- The function `isdigit`. -/
def isdigit (c : Nat) : Bool := 48 ≤ c && c ≤ 57

/-- Digit loop of `strtol` in base 10: the magnitude of the leading digits. -/
def strtol_digits : List Nat → Nat → Nat
  | [], acc => acc
  | c :: cs, acc => if isdigit c then strtol_digits cs (acc * 10 + (c - 48)) else acc

/-- The call `strtol(s, NULL, 10)` on a C string, for a 64-bit `long`: leading
white space, an optional sign, the digits, saturating at the `long` range. -/
def strtol (s : List Nat) : Int :=
  match s.dropWhile isspace with
  | 45 :: t => max (-(strtol_digits t 0 : Int)) (-9223372036854775808)
  | 43 :: t => min (strtol_digits t 0 : Int) 9223372036854775807
  | t => min (strtol_digits t 0 : Int) 9223372036854775807

/-- The call `atoi(s)`, which is `(int) strtol(s, NULL, 10)`. -/
def atoi (s : List Nat) : Int := to_int (strtol s)

/-- The keywords compared with `strcmp` in the P7 loop, as byte strings. -/
def kw_WIDTH : List Nat := [87, 73, 68, 84, 72]
/-- The bytes of `HEIGHT`. -/
def kw_HEIGHT : List Nat := [72, 69, 73, 71, 72, 84]
/-- The bytes of `DEPTH`. -/
def kw_DEPTH : List Nat := [68, 69, 80, 84, 72]
/-- The bytes of `MAXVAL`. -/
def kw_MAXVAL : List Nat := [77, 65, 88, 86, 65, 76]
/-- The bytes of `TUPLTYPE`. -/
def kw_TUPLTYPE : List Nat := [84, 85, 80, 76, 84, 89, 80, 69]
/-- The bytes of `TUPLETYPE`. -/
def kw_TUPLETYPE : List Nat := [84, 85, 80, 76, 69, 84, 89, 80, 69]
/-- The bytes of `ENDHDR`. -/
def kw_ENDHDR : List Nat := [69, 78, 68, 72, 68, 82]

/-! ## The tokenizer -/

/-- The function `pnm_space`: space, LF, CR or TAB. -/
def pnm_space (c : Nat) : Bool := c == 32 || c == 10 || c == 13 || c == 9

/-- The byte `*sc->bytestream`. -/
def peek (sc : PNMContext) : Nat := sc.mem.getD sc.bytestream 0

/-- The increment `sc->bytestream++`. -/
def advance (sc : PNMContext) : PNMContext := { sc with bytestream := sc.bytestream + 1 }

/-- The comment loop of `pnm_get`:
`do { c = *sc->bytestream++; } while (c != '\n' && sc->bytestream < sc->bytestream_end);` -/
def pnm_comment : Nat → PNMContext → Option (Nat × PNMContext)
  | 0, _ => none
  | fuel + 1, sc =>
    let c := peek sc
    let sc1 := advance sc
    if c ≠ 10 ∧ sc1.bytestream < sc1.bytestream_end then pnm_comment fuel sc1
    else some (c, sc1)

/-- The skip loop of `pnm_get` (`for (;;)`): returns the byte `c` that made the
loop `break`, with the cursor already past it. -/
def pnm_skip : Nat → PNMContext → Option (Nat × PNMContext)
  | 0, _ => none
  | fuel + 1, sc =>
    let c := peek sc
    let sc1 := advance sc
    if c = 35 then
      match pnm_comment (sc1.bytestream_end - sc1.bytestream + 1) sc1 with
      | none => none
      | some (_, sc2) => pnm_skip fuel sc2
    else if ¬ pnm_space c then some (c, sc1)
    else pnm_skip fuel sc1

/-- The accumulation loop of `pnm_get`:
`while (sc->bytestream < sc->bytestream_end && !pnm_space(c))`, storing `c`
when `(s - str) < buf_size - 1`.  `acc` holds the characters stored so far. -/
def pnm_accum : Nat → PNMContext → Nat → List Nat → Nat → Option (List Nat × PNMContext)
  | 0, _, _, _, _ => none
  | fuel + 1, sc, c, acc, buf_size =>
    if sc.bytestream < sc.bytestream_end ∧ ¬ pnm_space c then
      pnm_accum fuel (advance sc) (peek sc)
        (if acc.length + 1 < buf_size then acc ++ [c] else acc) buf_size
    else some (acc, sc)

/-- The array `str` after the stored characters `tok` and the final
`*s = 0` have been written over its beginning. -/
def store (str tok : List Nat) : List Nat := tok ++ 0 :: str.drop (tok.length + 1)

/-- The two loops of `pnm_get(sc, str, buf_size)`: the new cursor state and the
characters stored in `str` before the terminator. -/
def pnm_token (sc : PNMContext) (buf_size : Nat) : Option (PNMContext × List Nat) :=
  match pnm_skip (sc.mem.length - sc.bytestream + 1) sc with
  | none => none
  | some (c, sc1) =>
    match pnm_accum (sc1.bytestream_end - sc1.bytestream + 1) sc1 c [] buf_size with
    | none => none
    | some (tok, sc2) => some (sc2, tok)

/-- The function `pnm_get(sc, str, buf_size)`: the new cursor state and the new
contents of `str`. -/
def pnm_get (sc : PNMContext) (str : List Nat) (buf_size : Nat) :
    Option (PNMContext × List Nat) :=
  match pnm_token sc buf_size with
  | none => none
  | some (sc2, tok) => some (sc2, store str tok)

/-! ## The header decoder -/

/-- The tag variables of the P7 branch of `ff_pnm_decode_header`: the locals
`w`, `h`, `maxval`, `depth` and the array `tuple_type`. -/
structure PamTags where
  w : Int
  h : Int
  maxval : Int
  depth : Int
  tuple_type : List Nat
  deriving DecidableEq, Repr

/-- The key/value loop of the P7 branch (`for (;;)`, lines 82-105).  The
boolean is `true` when the loop was left by `break` at `ENDHDR` and `false`
when it was left by `return -1`. -/
def pam_loop : Nat → PNMContext → List Nat → PamTags → Option (Bool × PNMContext × PamTags)
  | 0, _, _, _ => none
  | fuel + 1, s, buf1, t =>
    match pnm_get s buf1 32 with
    | none => none
    | some (s1, b1) =>
      if cstr b1 = kw_WIDTH then
        match pnm_get s1 b1 32 with
        | none => none
        | some (s2, b2) => pam_loop fuel s2 b2 { t with w := to_int (strtol (cstr b2)) }
      else if cstr b1 = kw_HEIGHT then
        match pnm_get s1 b1 32 with
        | none => none
        | some (s2, b2) => pam_loop fuel s2 b2 { t with h := to_int (strtol (cstr b2)) }
      else if cstr b1 = kw_DEPTH then
        match pnm_get s1 b1 32 with
        | none => none
        | some (s2, b2) => pam_loop fuel s2 b2 { t with depth := to_int (strtol (cstr b2)) }
      else if cstr b1 = kw_MAXVAL then
        match pnm_get s1 b1 32 with
        | none => none
        | some (s2, b2) => pam_loop fuel s2 b2 { t with maxval := to_int (strtol (cstr b2)) }
      else if cstr b1 = kw_TUPLTYPE ∨ cstr b1 = kw_TUPLETYPE then
        match pnm_get s1 t.tuple_type 32 with
        | none => none
        | some (s2, t2) => pam_loop fuel s2 b1 { t with tuple_type := t2 }
      else if cstr b1 = kw_ENDHDR then some (true, s1, t)
      else some (false, s1, t)

/-- The P7 branch after the loop (lines 106-139): the presence check and the
depth/maxval table. -/
def pam_finish (ext : Externals) (avctx : AVCodecContext) (s : PNMContext) (t : PamTags) :
    Int × AVCodecContext × PNMContext :=
  if t.w ≤ 0 ∨ t.h ≤ 0 ∨ t.maxval ≤ 0 ∨ t.depth ≤ 0 ∨ t.tuple_type.getD 0 0 = 0
      ∨ ext.av_image_check_size t.w t.h ≠ 0 then (-1, avctx, s)
  else
    let avctx := { avctx with width := t.w, height := t.h }
    let s := { s with maxval := t.maxval }
    if t.depth = 1 then
      if t.maxval = 1 then (0, { avctx with pix_fmt := PixelFormat.MONOBLACK }, s)
      else if t.maxval = 255 then (0, { avctx with pix_fmt := PixelFormat.GRAY8 }, s)
      else (0, { avctx with pix_fmt := PixelFormat.GRAY16BE }, s)
    else if t.depth = 2 then
      if t.maxval = 255 then (0, { avctx with pix_fmt := PixelFormat.GRAY8A }, s)
      else (0, avctx, s)
    else if t.depth = 3 then
      if t.maxval < 256 then (0, { avctx with pix_fmt := PixelFormat.RGB24 }, s)
      else (0, { avctx with pix_fmt := PixelFormat.RGB48BE }, s)
    else if t.depth = 4 then
      if t.maxval < 256 then (0, { avctx with pix_fmt := PixelFormat.RGBA }, s)
      else (0, { avctx with pix_fmt := PixelFormat.RGBA64BE }, s)
    else (-1, avctx, s)

/-- The tag variables on entry to the loop (lines 77-81); only the first
element of `tuple_type` is initialised by the source. -/
def pam_init : PamTags :=
  { w := -1, h := -1, maxval := -1, depth := -1, tuple_type := List.replicate 32 0 }

/-- The end of the classic branch (lines 174-184): the checks made when the
pixel format is `YUV420P`. -/
def yuv_check (avctx : AVCodecContext) (s : PNMContext) : Int × AVCodecContext × PNMContext :=
  if avctx.pix_fmt = PixelFormat.YUV420P then
    if avctx.width % 2 ≠ 0 then (-1, avctx, s)
    else
      let h := to_int (avctx.height * 2)
      if Int.tmod h 3 ≠ 0 then (-1, avctx, s)
      else (0, { avctx with height := Int.tdiv h 3 }, s)
  else (0, avctx, s)

/-- The classic branch once `s->maxval = atoi(buf1)` has been read, `m0` being
the value of `atoi` (lines 154-171), followed by the YUV checks. -/
def maxval_resolve (ext : Externals) (avctx : AVCodecContext) (s : PNMContext) (m0 : Int) :
    Int × AVCodecContext × PNMContext :=
  let m := if m0 ≤ 0 then 255 else m0
  let s2 := { s with maxval := m }
  if m ≥ 256 then
    if avctx.pix_fmt = PixelFormat.GRAY8 then
      if m ≠ 65535 then yuv_check { avctx with pix_fmt := PIX_FMT_GRAY16 ext } s2
      else yuv_check { avctx with pix_fmt := PixelFormat.GRAY16BE } s2
    else if avctx.pix_fmt = PixelFormat.RGB24 then
      if m > 255 then yuv_check { avctx with pix_fmt := PixelFormat.RGB48BE } s2
      else yuv_check avctx s2
    else (-1, { avctx with pix_fmt := PixelFormat.NONE }, s2)
  else yuv_check avctx s2

/-- The maxval part of the classic branch (lines 151-173), followed by the
YUV checks. -/
def classic_maxval (ext : Externals) (avctx : AVCodecContext) (s : PNMContext)
    (buf1 : List Nat) : Option (Int × AVCodecContext × PNMContext) :=
  if avctx.pix_fmt ≠ PixelFormat.MONOWHITE ∧ avctx.pix_fmt ≠ PixelFormat.MONOBLACK then
    match pnm_get s buf1 32 with
    | none => none
    | some (s1, b1) => some (maxval_resolve ext avctx s1 (atoi (cstr b1)))
  else some (yuv_check avctx { s with maxval := 1 })

/-- The classic branch (lines 143-185): width, height, then maxval. -/
def classic (ext : Externals) (avctx : AVCodecContext) (s : PNMContext) (buf1 : List Nat) :
    Option (Int × AVCodecContext × PNMContext) :=
  match pnm_get s buf1 32 with
  | none => none
  | some (s1, b1) =>
    let avctx1 := { avctx with width := atoi (cstr b1) }
    if avctx1.width ≤ 0 then some (-1, avctx1, s1)
    else
      match pnm_get s1 b1 32 with
      | none => none
      | some (s2, b2) =>
        let avctx2 := { avctx1 with height := atoi (cstr b2) }
        if avctx2.height ≤ 0 ∨ ext.av_image_check_size avctx2.width avctx2.height ≠ 0 then
          some (-1, avctx2, s2)
        else classic_maxval ext avctx2 s2 b2

/-- The function `ff_pnm_decode_header(avctx, s)`.  `buf1` is the content of the
uninitialised local array `buf1` on entry.  The result is the returned `int`
with the final `*avctx` and `*s`. -/
def ff_pnm_decode_header (ext : Externals) (avctx : AVCodecContext) (s : PNMContext)
    (buf1 : List Nat) : Option (Int × AVCodecContext × PNMContext) :=
  match pnm_get s buf1 32 with
  | none => none
  | some (s0, b1) =>
    let s1 := { s0 with type := schar (b1.getD 1 0) - 48 }
    if b1.getD 0 0 ≠ 80 then some (-1, avctx, s1)
    else if s1.type = 1 ∨ s1.type = 4 then
      classic ext { avctx with pix_fmt := PixelFormat.MONOWHITE } s1 b1
    else if s1.type = 2 ∨ s1.type = 5 then
      if avctx.codec_id = CodecID.PGMYUV then
        classic ext { avctx with pix_fmt := PixelFormat.YUV420P } s1 b1
      else classic ext { avctx with pix_fmt := PixelFormat.GRAY8 } s1 b1
    else if s1.type = 3 ∨ s1.type = 6 then
      classic ext { avctx with pix_fmt := PixelFormat.RGB24 } s1 b1
    else if s1.type = 7 then
      match pam_loop (s1.bytestream_end - s1.bytestream + 1) s1 b1 pam_init with
      | none => none
      | some (false, s2, _) => some (-1, avctx, s2)
      | some (true, s2, t) => some (pam_finish ext avctx s2 t)
    else some (-1, avctx, s1)

/-! ## Definitions used to state the theorems -/

/-- The cursor `sc` moved to index `p`, everything else unchanged. -/
def at_pos (sc : PNMContext) (p : Nat) : PNMContext := { sc with bytestream := p }

/-- The decimal numeral of `n` as ASCII bytes, most significant digit first
(empty for 0). -/
def decimal (n : Nat) : List Nat := ((Nat.digits 10 n).reverse).map (fun d => d + 48)

/-- A separator between two header tokens: a non-empty run of white space. -/
def IsSep (l : List Nat) : Prop := l ≠ [] ∧ ∀ b ∈ l, pnm_space b = true

/-- The pixel format chosen from the variant digit `d` (an ASCII byte) for
the classic variants (lines 67-75). -/
def classic_default (codec : CodecID) (d : Nat) : PixelFormat :=
  if d = 49 ∨ d = 52 then PixelFormat.MONOWHITE
  else if d = 50 ∨ d = 53 then
    (if codec = CodecID.PGMYUV then PixelFormat.YUV420P else PixelFormat.GRAY8)
  else PixelFormat.RGB24

/-- One key/value line of a P7 header: the keyword, the white space after it,
the value token and the white space after the value. -/
structure PamEntry where
  key : List Nat
  sep : List Nat
  val : List Nat
  sep2 : List Nat
  deriving DecidableEq, Repr

/-- The bytes of a list of key/value lines. -/
def render_all : List PamEntry → List Nat
  | [] => []
  | e :: es => e.key ++ e.sep ++ e.val ++ e.sep2 ++ render_all es

/-- A key/value line the loop accepts: one of the six keywords, then white
space, a value token (non-empty, without white space, not starting a comment)
and white space. -/
def ValidEntry (e : PamEntry) : Prop :=
  (e.key = kw_WIDTH ∨ e.key = kw_HEIGHT ∨ e.key = kw_DEPTH ∨ e.key = kw_MAXVAL
    ∨ e.key = kw_TUPLTYPE ∨ e.key = kw_TUPLETYPE) ∧
  IsSep e.sep ∧ IsSep e.sep2 ∧ e.val ≠ [] ∧ (∀ b ∈ e.val, pnm_space b = false) ∧
  e.val.head? ≠ some 35

/-- What one key/value line does to the tag variables (lines 84-99). -/
def pam_apply (t : PamTags) (e : PamEntry) : PamTags :=
  if e.key = kw_WIDTH then { t with w := to_int (strtol (cstr (e.val.take 31))) }
  else if e.key = kw_HEIGHT then { t with h := to_int (strtol (cstr (e.val.take 31))) }
  else if e.key = kw_DEPTH then { t with depth := to_int (strtol (cstr (e.val.take 31))) }
  else if e.key = kw_MAXVAL then { t with maxval := to_int (strtol (cstr (e.val.take 31))) }
  else if e.key = kw_TUPLTYPE ∨ e.key = kw_TUPLETYPE then
    { t with tuple_type := store t.tuple_type (e.val.take 31) }
  else t

/-- A size check that accepts every size. -/
def ext_accept : Externals := { av_image_check_size := fun _ _ => 0, HAVE_BIGENDIAN := false }

/-- A codec context before decoding, for codec `c`. -/
def ctx0 (c : CodecID) : AVCodecContext :=
  { codec_id := c, pix_fmt := PixelFormat.NONE, width := 0, height := 0 }

/-- A decoder state whose packet is exactly `bytes`, the cursor at its start. -/
def packet (bytes : List Nat) : PNMContext :=
  { mem := bytes, bytestream := 0, bytestream_end := bytes.length, type := 0, maxval := 0 }

/-- An initial content for the local array `buf1`. -/
def buf0 : List Nat := List.replicate 32 0

/-- The returned `int` of a decoder result. -/
def ret (r : Option (Int × AVCodecContext × PNMContext)) : Option Int := r.map (fun x => x.1)

/-- The key/value lines `HEIGHT 4`, `WIDTH 4`, `DEPTH 3`, `MAXVAL 255`,
`TUPLTYPE RGB`, each closed by a line feed. -/
def rgb_lines : List PamEntry :=
  [{ key := kw_HEIGHT, sep := [32], val := [52], sep2 := [10] },
   { key := kw_WIDTH, sep := [32], val := [52], sep2 := [10] },
   { key := kw_DEPTH, sep := [32], val := [51], sep2 := [10] },
   { key := kw_MAXVAL, sep := [32], val := [50, 53, 53], sep2 := [10] },
   { key := kw_TUPLTYPE, sep := [32], val := [82, 71, 66], sep2 := [10] }]

/-- The bytes of `P7`, a line feed, the lines of `rgb_lines` and `ENDHDR`. -/
def rgb_header : List Nat :=
  [80, 55, 10, 72, 69, 73, 71, 72, 84, 32, 52, 10, 87, 73, 68, 84, 72, 32, 52, 10, 68, 69, 80,
   84, 72, 32, 51, 10, 77, 65, 88, 86, 65, 76, 32, 50, 53, 53, 10, 84, 85, 80, 76, 84, 89, 80,
   69, 32, 82, 71, 66, 10, 69, 78, 68, 72, 68, 82]

/-- The bytes of `P7 WIDTH 4 HEIGHT 4 DEPTH 2 MAXVAL 100 TUPLTYPE X ENDHDR`
and a line feed. -/
def depth2_header : List Nat :=
  [80, 55, 32, 87, 73, 68, 84, 72, 32, 52, 32, 72, 69, 73, 71, 72, 84, 32, 52, 32, 68, 69, 80,
   84, 72, 32, 50, 32, 77, 65, 88, 86, 65, 76, 32, 49, 48, 48, 32, 84, 85, 80, 76, 84, 89, 80,
   69, 32, 88, 32, 69, 78, 68, 72, 68, 82, 10]

/-- The bytes of `P5x 4 10 255` and a line feed. -/
def long_magic_header : List Nat := [80, 53, 120, 32, 52, 32, 49, 48, 32, 50, 53, 53, 10]

/-- The value token of the last key/value line that satisfies `P`, if any. -/
def last_val (P : PamEntry → Bool) (es : List PamEntry) : Option (List Nat) :=
  ((es.filter P).getLast?).map (fun e => e.val)

/-- The lines whose keyword is `k`. -/
def has_key (k : List Nat) (e : PamEntry) : Bool := decide (e.key = k)

/-- The lines whose keyword is `TUPLTYPE` or `TUPLETYPE`. -/
def has_tuple_key (e : PamEntry) : Bool :=
  decide (e.key = kw_TUPLTYPE ∨ e.key = kw_TUPLETYPE)

/-- The value `strtol` gives for a value token as stored in `buf1`, as an `int`. -/
def tag_value (v : List Nat) : Int := to_int (strtol (cstr (v.take 31)))

/-- The key/value lines `HEIGHT 4`, `DEPTH 3`, `MAXVAL 255`, `TUPLTYPE RGB`. -/
def no_width_lines : List PamEntry :=
  [{ key := kw_HEIGHT, sep := [32], val := [52], sep2 := [10] },
   { key := kw_DEPTH, sep := [32], val := [51], sep2 := [10] },
   { key := kw_MAXVAL, sep := [32], val := [50, 53, 53], sep2 := [10] },
   { key := kw_TUPLTYPE, sep := [32], val := [82, 71, 66], sep2 := [10] }]

/-- The bytes of `P7`, the lines of `no_width_lines`, `ENDHDR` and a line feed. -/
def no_width_header : List Nat :=
  [80, 55, 10, 72, 69, 73, 71, 72, 84, 32, 52, 10, 68, 69, 80, 84, 72, 32, 51, 10, 77, 65, 88,
   86, 65, 76, 32, 50, 53, 53, 10, 84, 85, 80, 76, 84, 89, 80, 69, 32, 82, 71, 66, 10, 69, 78,
   68, 72, 68, 82, 10]

/-- The tokens the key/value loop of the P7 branch reads in keyword position,
in order (as C strings): the loop of `pam_loop` with only the tokenizer calls
kept. -/
def pam_keywords : Nat → PNMContext → List (List Nat)
  | 0, _ => []
  | fuel + 1, s =>
    match pnm_token s 32 with
    | none => []
    | some (s1, k) =>
      cstr k ::
        (if cstr k = kw_WIDTH ∨ cstr k = kw_HEIGHT ∨ cstr k = kw_DEPTH ∨ cstr k = kw_MAXVAL
            ∨ cstr k = kw_TUPLTYPE ∨ cstr k = kw_TUPLETYPE then
          match pnm_token s1 32 with
          | none => []
          | some (s2, _) => pam_keywords fuel s2
        else [])

/-- The bytes of `P5` directly followed by forty `x`, then ` 4 10 255` and a
line feed: a header whose first token is 42 characters long. -/
def long_token_header : List Nat :=
  [80, 53] ++ List.replicate 40 120 ++ [32, 52, 32, 49, 48, 32, 50, 53, 53, 10]

/-- What the skip loop passes over: white-space bytes and complete comments
(a `#`, bytes other than LF, and the LF that closes the comment). -/
inductive SkipRun : List Nat → Prop where
  | nil : SkipRun []
  | space (b : Nat) (l : List Nat) : pnm_space b = true → SkipRun l → SkipRun (b :: l)
  | comment (body l : List Nat) : (∀ b ∈ body, b ≠ 10) → SkipRun l →
      SkipRun (35 :: (body ++ 10 :: l))

/-- The unread part of the buffer: the bytes from the cursor to the declared
end. -/
def unread (sc : PNMContext) : List Nat :=
  (sc.mem.drop sc.bytestream).take (sc.bytestream_end - sc.bytestream)

/-- A gap between two header tokens: the white-space byte that ends the first
token, followed by a run of white space and complete comments. -/
def IsGap (l : List Nat) : Prop :=
  ∃ w skip, l = w :: skip ∧ pnm_space w = true ∧ SkipRun skip

/-- A token as the tokenizer reads it when white space follows: a non-empty
run of bytes without white space that does not begin with `#`. -/
def IsToken (tok : List Nat) : Prop :=
  tok ≠ [] ∧ (∀ b ∈ tok, pnm_space b = false) ∧ tok.head? ≠ some 35

/-- The tag variable a keyword of the key/value loop writes, named by a
keyword: `TUPLTYPE` and `TUPLETYPE` write the same variable. -/
def key_slot (k : List Nat) : List Nat := if k = kw_TUPLETYPE then kw_TUPLTYPE else k

/-- The lines that remain when only the last occurrence of each key is kept:
a line is dropped when a later line writes the same variable. -/
def keep_last : List PamEntry → List PamEntry
  | [] => []
  | e :: es =>
    if es.any (fun x => decide (key_slot x.key = key_slot e.key)) then keep_last es
    else e :: keep_last es

/-- What is compared of two decoder results: the return code, the codec
context (codec, pix_fmt, width, height) and maxval. -/
def outcome (r : Option (Int × AVCodecContext × PNMContext)) :
    Option (Int × AVCodecContext × Int) :=
  r.map (fun x => (x.1, x.2.1, x.2.2.maxval))

/-- What follows `ENDHDR` in the buffer: nothing (the keyword reaches the last
byte of the buffer) or a white-space byte and any bytes. -/
def IsEnd (tail : List Nat) : Prop :=
  tail = [] ∨ ∃ w rest, tail = w :: rest ∧ pnm_space w = true

/-- Two key/value lines that differ at most in the value token of a
`TUPLTYPE`/`TUPLETYPE` line, both values being non-empty strings there. -/
def SameButTuple (a b : PamEntry) : Prop :=
  a.key = b.key ∧ a.sep = b.sep ∧ a.sep2 = b.sep2 ∧
    (a.val = b.val ∨ (has_tuple_key a = true ∧ a.val.headD 0 ≠ 0 ∧ b.val.headD 0 ≠ 0))

/-- Two states of the tag variables that agree on `w`, `h`, `maxval`, `depth`
and on whether the tuple-type string is empty. -/
def TagsAgree (t t2 : PamTags) : Prop :=
  t.w = t2.w ∧ t.h = t2.h ∧ t.maxval = t2.maxval ∧ t.depth = t2.depth ∧
    (t.tuple_type.getD 0 0 = 0 ↔ t2.tuple_type.getD 0 0 = 0)

/-- The key/value lines `WIDTH 9`, `WIDTH 4`, `HEIGHT 4`, `DEPTH 3`,
`MAXVAL 255`, `TUPLETYPE X`, `TUPLTYPE RGB`, each closed by a line feed: the
keys `WIDTH` and `TUPLTYPE`/`TUPLETYPE` occur twice. -/
def dup_lines : List PamEntry :=
  [{ key := kw_WIDTH, sep := [32], val := [57], sep2 := [10] },
   { key := kw_WIDTH, sep := [32], val := [52], sep2 := [10] },
   { key := kw_HEIGHT, sep := [32], val := [52], sep2 := [10] },
   { key := kw_DEPTH, sep := [32], val := [51], sep2 := [10] },
   { key := kw_MAXVAL, sep := [32], val := [50, 53, 53], sep2 := [10] },
   { key := kw_TUPLETYPE, sep := [32], val := [88], sep2 := [10] },
   { key := kw_TUPLTYPE, sep := [32], val := [82, 71, 66], sep2 := [10] }]

/-- The lines of `rgb_lines` with the tuple type `GRAYSCALE` in the place of
`RGB`. -/
def gray_tuple_lines : List PamEntry :=
  [{ key := kw_HEIGHT, sep := [32], val := [52], sep2 := [10] },
   { key := kw_WIDTH, sep := [32], val := [52], sep2 := [10] },
   { key := kw_DEPTH, sep := [32], val := [51], sep2 := [10] },
   { key := kw_MAXVAL, sep := [32], val := [50, 53, 53], sep2 := [10] },
   { key := kw_TUPLTYPE, sep := [32], val := [71, 82, 65, 89, 83, 67, 65, 76, 69],
     sep2 := [10] }]

/-! ## Basic facts about the memory and the cursor -/

theorem getD_of_drop_cons (l : List Nat) (n b : Nat) (rest : List Nat)
    (h : l.drop n = b :: rest) : l.getD n 0 = b ∧ l.drop (n + 1) = rest := by
  constructor
  · have h0 : (l.drop n)[0]? = some b := by rw [h]; simp
    rw [List.getElem?_drop] at h0
    simp only [Nat.add_zero] at h0
    simp [List.getD_eq_getElem?_getD, h0]
  · have h1 : (l.drop n).drop 1 = rest := by rw [h]; rfl
    rw [List.drop_drop] at h1
    simpa [Nat.add_comm] using h1

theorem getD_beyond (l : List Nat) (n : Nat) (h : l.length ≤ n) : l.getD n 0 = 0 := by
  simp [List.getD_eq_getElem?_getD, List.getElem?_eq_none h]

@[simp] theorem at_pos_mem (sc : PNMContext) (p : Nat) : (at_pos sc p).mem = sc.mem := rfl
@[simp] theorem at_pos_bytestream (sc : PNMContext) (p : Nat) : (at_pos sc p).bytestream = p := rfl
@[simp] theorem at_pos_end (sc : PNMContext) (p : Nat) :
    (at_pos sc p).bytestream_end = sc.bytestream_end := rfl
@[simp] theorem at_pos_type (sc : PNMContext) (p : Nat) : (at_pos sc p).type = sc.type := rfl
@[simp] theorem at_pos_maxval (sc : PNMContext) (p : Nat) : (at_pos sc p).maxval = sc.maxval := rfl
@[simp] theorem at_pos_at_pos (sc : PNMContext) (p q : Nat) :
    at_pos (at_pos sc p) q = at_pos sc q := rfl
theorem at_pos_congr (sc : PNMContext) (p q : Nat) (h : p = q) : at_pos sc p = at_pos sc q := by
  rw [h]
theorem advance_eq (sc : PNMContext) : advance sc = at_pos sc (sc.bytestream + 1) := rfl
theorem at_pos_self (sc : PNMContext) : at_pos sc sc.bytestream = sc := rfl

/-! ## Totality of the tokenizer -/

theorem pnm_comment_total (fuel : Nat) : ∀ sc : PNMContext,
    sc.bytestream_end - sc.bytestream < fuel →
    ∃ c p, pnm_comment fuel sc = some (c, at_pos sc p) ∧ sc.bytestream < p := by
  induction fuel with
  | zero => intro sc h; omega
  | succ n ih =>
    intro sc h
    unfold pnm_comment
    by_cases hc : peek sc ≠ 10 ∧ (advance sc).bytestream < (advance sc).bytestream_end
    · dsimp only
      rw [if_pos hc]
      have hlt : (advance sc).bytestream_end - (advance sc).bytestream < n := by
        have := hc.2
        simp only [advance] at this ⊢
        omega
      obtain ⟨c, p, h1, h2⟩ := ih (advance sc) hlt
      refine ⟨c, p, ?_, ?_⟩
      · rw [h1, advance_eq]; rfl
      · simp only [advance] at h2; omega
    · dsimp only
      rw [if_neg hc]
      exact ⟨peek sc, sc.bytestream + 1, rfl, by omega⟩

theorem pnm_skip_total (fuel : Nat) : ∀ sc : PNMContext,
    sc.mem.length - sc.bytestream < fuel →
    ∃ c p, pnm_skip fuel sc = some (c, at_pos sc p) ∧ sc.bytestream < p := by
  induction fuel with
  | zero => intro sc h; omega
  | succ n ih =>
    intro sc h
    have hin : peek sc ≠ 0 → sc.bytestream < sc.mem.length := by
      intro hne
      by_contra hge
      exact hne (getD_beyond sc.mem sc.bytestream (by omega))
    unfold pnm_skip
    by_cases h35 : peek sc = 35
    · dsimp only
      rw [if_pos h35]
      have hb := hin (by rw [h35]; decide)
      obtain ⟨c, p, h1, h2⟩ := pnm_comment_total
        ((advance sc).bytestream_end - (advance sc).bytestream + 1) (advance sc) (by omega)
      rw [h1]
      simp only [advance, at_pos] at h2 ⊢
      obtain ⟨c2, p2, h3, h4⟩ := ih (at_pos sc p) (by simp only [at_pos]; omega)
      refine ⟨c2, p2, ?_, ?_⟩
      · exact h3
      · simp only [at_pos] at h4; omega
    · dsimp only
      rw [if_neg h35]
      by_cases hs : pnm_space (peek sc) = true
      · rw [if_neg (by simpa using hs)]
        have hb := hin (by intro h0; rw [h0] at hs; exact absurd hs (by decide))
        obtain ⟨c2, p2, h3, h4⟩ := ih (advance sc) (by simp only [advance]; omega)
        refine ⟨c2, p2, ?_, ?_⟩
        · rw [h3]; rfl
        · simp only [advance] at h4; omega
      · rw [if_pos hs]
        exact ⟨peek sc, sc.bytestream + 1, rfl, by omega⟩

theorem pnm_accum_total (buf_size : Nat) (fuel : Nat) : ∀ (sc : PNMContext) (c : Nat) (acc : List Nat),
    sc.bytestream_end - sc.bytestream < fuel →
    ∃ tok p, pnm_accum fuel sc c acc buf_size = some (tok, at_pos sc p) ∧ sc.bytestream ≤ p := by
  induction fuel with
  | zero => intro sc c acc h; omega
  | succ n ih =>
    intro sc c acc h
    unfold pnm_accum
    by_cases hc : sc.bytestream < sc.bytestream_end ∧ ¬ pnm_space c = true
    · rw [if_pos hc]
      obtain ⟨tok, p, h1, h2⟩ := ih (advance sc) (peek sc)
        (if acc.length + 1 < buf_size then acc ++ [c] else acc)
        (by have := hc.1; simp only [advance]; omega)
      refine ⟨tok, p, ?_, ?_⟩
      · rw [h1]; rfl
      · simp only [advance] at h2; omega
    · rw [if_neg hc]
      exact ⟨acc, sc.bytestream, rfl, le_refl _⟩

/-- The tokenizer always returns, and it moves the cursor forward by at least
one byte. -/
theorem pnm_token_total (sc : PNMContext) (buf_size : Nat) :
    ∃ tok p, pnm_token sc buf_size = some (at_pos sc p, tok) ∧ sc.bytestream < p := by
  unfold pnm_token
  obtain ⟨c, p, h1, h2⟩ := pnm_skip_total (sc.mem.length - sc.bytestream + 1) sc (by omega)
  rw [h1]
  obtain ⟨tok, q, h3, h4⟩ := pnm_accum_total buf_size
    ((at_pos sc p).bytestream_end - (at_pos sc p).bytestream + 1) (at_pos sc p) c [] (by omega)
  simp only [h3]
  exact ⟨tok, q, rfl, by simp only [at_pos] at h4; omega⟩

/-- The function `pnm_get` always returns: it moves the cursor forward by at
least one byte and rewrites the beginning of `str` with a terminated token. -/
theorem pnm_get_total (sc : PNMContext) (str : List Nat) (buf_size : Nat) :
    ∃ tok p, pnm_get sc str buf_size = some (at_pos sc p, store str tok) ∧ sc.bytestream < p := by
  obtain ⟨tok, p, h1, h2⟩ := pnm_token_total sc buf_size
  exact ⟨tok, p, by unfold pnm_get; rw [h1], h2⟩

/-! ## The tokenizer on a token that is followed by white space -/

theorem pnm_space_ne_hash (b : Nat) (h : pnm_space b = true) : b ≠ 35 := by
  intro h35
  rw [h35] at h
  exact absurd h (by decide)

theorem pnm_skip_ws (c : Nat) (rest : List Nat) (hc : pnm_space c = false) (h35 : c ≠ 35) :
    ∀ (ws : List Nat) (fuel : Nat) (sc : PNMContext),
      (∀ b ∈ ws, pnm_space b = true) → ws.length < fuel →
      sc.mem.drop sc.bytestream = ws ++ c :: rest →
      pnm_skip fuel sc = some (c, at_pos sc (sc.bytestream + ws.length + 1)) := by
  intro ws
  induction ws with
  | nil =>
    intro fuel sc _ hf hmem
    obtain ⟨k, rfl⟩ : ∃ k, fuel = k + 1 := ⟨fuel - 1, by simp at hf; omega⟩
    have hp := (getD_of_drop_cons sc.mem sc.bytestream c rest (by simpa using hmem)).1
    unfold pnm_skip
    dsimp only
    have hpc : peek sc = c := hp
    rw [hpc, if_neg h35, if_pos (by simp [hc])]
    rfl
  | cons b ws ih =>
    intro fuel sc hws hf hmem
    obtain ⟨k, rfl⟩ : ∃ k, fuel = k + 1 := ⟨fuel - 1, by simp at hf; omega⟩
    have hb : pnm_space b = true := hws b (List.mem_cons_self _ _)
    have hp := getD_of_drop_cons sc.mem sc.bytestream b (ws ++ c :: rest) (by simpa using hmem)
    have hpc : peek sc = b := hp.1
    unfold pnm_skip
    dsimp only
    rw [hpc, if_neg (pnm_space_ne_hash b hb), if_neg (by simp [hb])]
    have := ih k (advance sc) (fun x hx => hws x (List.mem_cons_of_mem _ hx))
      (by simp at hf; omega) hp.2
    rw [this]
    simp only [advance, at_pos, List.length_cons]
    congr 3
    omega

theorem accum_step (n c : Nat) (acc l : List Nat) :
    (if acc.length + 1 < n then acc ++ [c] else acc) ++
        l.take (n - 1 - (if acc.length + 1 < n then acc ++ [c] else acc).length) =
      acc ++ (c :: l).take (n - 1 - acc.length) := by
  by_cases h : acc.length + 1 < n
  · rw [if_pos h]
    obtain ⟨k, hk⟩ : ∃ k, n - 1 - acc.length = k + 1 := ⟨n - 2 - acc.length, by omega⟩
    rw [hk, List.take_succ_cons, List.length_append, List.length_singleton]
    have : n - 1 - (acc.length + 1) = k := by omega
    rw [this]
    simp
  · rw [if_neg h]
    have : n - 1 - acc.length = 0 := by omega
    rw [this]
    simp

theorem pnm_accum_token (n w : Nat) (rest : List Nat) (hw : pnm_space w = true) :
    ∀ (tl : List Nat) (fuel : Nat) (sc : PNMContext) (c : Nat) (acc : List Nat),
      tl.length + 1 < fuel → sc.mem.drop sc.bytestream = tl ++ w :: rest →
      (∀ b ∈ c :: tl, pnm_space b = false) →
      sc.bytestream + tl.length < sc.bytestream_end →
      pnm_accum fuel sc c acc n =
        some (acc ++ (c :: tl).take (n - 1 - acc.length),
          at_pos sc (sc.bytestream + tl.length + 1)) := by
  intro tl
  induction tl with
  | nil =>
    intro fuel sc c acc hf hmem hns hend
    obtain ⟨k, rfl⟩ : ∃ k, fuel = k + 2 := ⟨fuel - 2, by simp at hf; omega⟩
    have hp := getD_of_drop_cons sc.mem sc.bytestream w rest (by simpa using hmem)
    have hpc : peek sc = w := hp.1
    have hcs : pnm_space c = false := hns c (List.mem_cons_self _ _)
    unfold pnm_accum
    rw [if_pos ⟨by simpa using hend, by simp [hcs]⟩, hpc]
    unfold pnm_accum
    rw [if_neg (by simp [hw])]
    have := accum_step n c acc []
    simp only [List.take_nil, List.append_nil] at this
    rw [this]
    rfl
  | cons b tl ih =>
    intro fuel sc c acc hf hmem hns hend
    obtain ⟨k, rfl⟩ : ∃ k, fuel = k + 1 := ⟨fuel - 1, by simp at hf; omega⟩
    have hp := getD_of_drop_cons sc.mem sc.bytestream b (tl ++ w :: rest) (by simpa using hmem)
    have hpc : peek sc = b := hp.1
    have hcs : pnm_space c = false := hns c (List.mem_cons_self _ _)
    unfold pnm_accum
    rw [if_pos ⟨by simp at hend; omega, by simp [hcs]⟩, hpc]
    rw [ih k (advance sc) b _ (by simp at hf; omega) hp.2
      (fun x hx => hns x (List.mem_cons_of_mem _ hx))
      (by simp only [advance, List.length_cons] at hend ⊢; omega)]
    rw [accum_step n c acc (b :: tl)]
    simp only [advance, at_pos, List.length_cons]
    congr 3
    omega

/-- The tokenizer on a cursor that stands before white space `ws`, a token
`tok` and a white-space byte `w` inside the buffer: the token is stored
(cut to `buf_size - 1` characters) and the cursor is left after `w`. -/
theorem pnm_token_token (sc : PNMContext) (n : Nat) (ws tok : List Nat) (w : Nat)
    (rest : List Nat) (hmem : sc.mem.drop sc.bytestream = ws ++ tok ++ w :: rest)
    (hws : ∀ b ∈ ws, pnm_space b = true) (hne : tok ≠ [])
    (hns : ∀ b ∈ tok, pnm_space b = false) (hhd : tok.head? ≠ some 35)
    (hw : pnm_space w = true)
    (hend : sc.bytestream + ws.length + tok.length < sc.bytestream_end) :
    pnm_token sc n =
      some (at_pos sc (sc.bytestream + ws.length + tok.length + 1), tok.take (n - 1)) := by
  cases tok with
  | nil => exact absurd rfl hne
  | cons c tl =>
    have hlen : (sc.mem.drop sc.bytestream).length = ws.length + (tl.length + 1) + (rest.length + 1) := by
      rw [hmem]; simp; omega
    rw [List.length_drop] at hlen
    have hc : pnm_space c = false := hns c (List.mem_cons_self _ _)
    have h35 : c ≠ 35 := by
      intro h
      apply hhd
      simp [h]
    unfold pnm_token
    rw [pnm_skip_ws c (tl ++ w :: rest) hc h35 ws _ sc hws (by omega) (by simpa using hmem)]
    dsimp only
    have hmem2 : (at_pos sc (sc.bytestream + ws.length + 1)).mem.drop
        (at_pos sc (sc.bytestream + ws.length + 1)).bytestream = tl ++ w :: rest := by
      have h1 : (sc.mem.drop sc.bytestream).drop (ws.length + 1) = tl ++ w :: rest := by
        rw [hmem]
        simp
      rw [List.drop_drop] at h1
      simp only [at_pos_mem, at_pos_bytestream]
      rw [← h1]
      congr 1
    rw [pnm_accum_token n w rest hw tl _ _ c [] (by simp only [at_pos_end, at_pos_bytestream, List.length_cons] at hend ⊢; omega) hmem2 hns
      (by simp only [at_pos_end, at_pos_bytestream, List.length_cons] at hend ⊢; omega)]
    simp only [List.length_nil, Nat.sub_zero, List.nil_append, at_pos_at_pos, at_pos_bytestream,
      List.length_cons]
    have e : sc.bytestream + ws.length + 1 + tl.length + 1
        = sc.bytestream + ws.length + (tl.length + 1) + 1 := by omega
    rw [e]

/-- The function `pnm_get` on a cursor that stands before white space `ws`, a
token `tok` and a white-space byte `w` inside the buffer. -/
theorem pnm_get_token (sc : PNMContext) (str : List Nat) (n : Nat) (ws tok : List Nat) (w : Nat)
    (rest : List Nat) (hmem : sc.mem.drop sc.bytestream = ws ++ tok ++ w :: rest)
    (hws : ∀ b ∈ ws, pnm_space b = true) (hne : tok ≠ [])
    (hns : ∀ b ∈ tok, pnm_space b = false) (hhd : tok.head? ≠ some 35)
    (hw : pnm_space w = true)
    (hend : sc.bytestream + ws.length + tok.length < sc.bytestream_end) :
    pnm_get sc str n =
      some (at_pos sc (sc.bytestream + ws.length + tok.length + 1), store str (tok.take (n - 1))) := by
  unfold pnm_get
  rw [pnm_token_token sc n ws tok w rest hmem hws hne hns hhd hw hend]

/-! ## Decimal tokens and `atoi` -/

theorem decimal_mem (n b : Nat) (h : b ∈ decimal n) : 48 ≤ b ∧ b ≤ 57 := by
  simp only [decimal, List.mem_map, List.mem_reverse] at h
  obtain ⟨d, hd, rfl⟩ := h
  have := Nat.digits_lt_base (by norm_num : 1 < 10) hd
  omega

theorem decimal_ne_nil (n : Nat) (h : 0 < n) : decimal n ≠ [] := by
  simp only [decimal, ne_eq, List.map_eq_nil_iff, List.reverse_eq_nil_iff]
  exact Nat.digits_ne_nil_iff_ne_zero.2 (by omega)

theorem decimal_not_space (n b : Nat) (h : b ∈ decimal n) : pnm_space b = false := by
  have := decimal_mem n b h
  simp only [pnm_space, Bool.or_eq_false_iff, beq_eq_false_iff_ne, ne_eq]
  omega

theorem decimal_head (n : Nat) : (decimal n).head? ≠ some 35 := by
  intro h
  have hm : 35 ∈ decimal n := List.mem_of_mem_head? h
  have := decimal_mem n 35 hm
  omega

theorem decimal_length (n : Nat) (h : n < 2147483648) : (decimal n).length ≤ 10 := by
  simp only [decimal, List.length_map, List.length_reverse]
  by_cases h0 : n = 0
  · simp [h0]
  · have h1 := Nat.base_pow_length_digits_le 10 n (by norm_num) h0
    have h2 : 10 ^ (Nat.digits 10 n).length < 10 ^ 11 := by
      calc 10 ^ (Nat.digits 10 n).length ≤ 10 * n := h1
        _ < 10 ^ 11 := by omega
    have := (Nat.pow_lt_pow_iff_right (by norm_num : 1 < 10)).1 h2
    omega

theorem strtol_digits_map (t : List Nat) :
    ∀ (ds : List Nat) (acc : Nat), (∀ d ∈ ds, d < 10) →
      strtol_digits (ds.map (fun d => d + 48) ++ t) acc =
        strtol_digits t (ds.foldl (fun a d => a * 10 + d) acc) := by
  intro ds
  induction ds with
  | nil => intro acc _; rfl
  | cons d ds ih =>
    intro acc h
    have hd : d < 10 := h d (List.mem_cons_self _ _)
    have hdig : isdigit (d + 48) = true := by
      simp only [isdigit, Bool.and_eq_true, decide_eq_true_eq]
      omega
    simp only [List.map_cons, List.cons_append, strtol_digits, hdig, if_true, List.foldl_cons,
      Nat.add_sub_cancel]
    exact ih _ (fun x hx => h x (List.mem_cons_of_mem _ hx))

theorem strtol_digits_decimal (n : Nat) : strtol_digits (decimal n) 0 = n := by
  have h := strtol_digits_map [] (Nat.digits 10 n).reverse 0
    (fun d hd => Nat.digits_lt_base (by norm_num) (List.mem_reverse.1 hd))
  simp only [List.append_nil] at h
  rw [decimal, h, List.foldl_reverse]
  simp only [strtol_digits]
  have h2 := Nat.ofDigits_digits 10 n
  rw [Nat.ofDigits_eq_foldr] at h2
  have hf : (fun (x y : Nat) => y * 10 + x) = (fun (x y : Nat) => ((x : Nat) : Nat) + 10 * y) := by
    funext x y
    omega
  rw [hf]
  simpa using h2

theorem to_int_id (x : Int) (h0 : 0 ≤ x) (h1 : x < 2147483648) : to_int x = x := by
  unfold to_int
  omega

theorem strtol_decimal (n : Nat) (h0 : 0 < n) (h1 : n < 2147483648) :
    strtol (decimal n) = (n : Int) := by
  have hd := strtol_digits_decimal n
  cases hl : decimal n with
  | nil => exact absurd hl (decimal_ne_nil n h0)
  | cons c t =>
    rw [hl] at hd
    have hc := decimal_mem n c (by rw [hl]; exact List.mem_cons_self _ _)
    have hsp : isspace c = false := by
      simp only [isspace, Bool.or_eq_false_iff, beq_eq_false_iff_ne, ne_eq, Bool.and_eq_false_iff,
        decide_eq_false_iff_not]
      omega
    unfold strtol
    simp only [List.dropWhile, hsp]
    split
    · rename_i heq
      simp only [List.cons.injEq] at heq
      omega
    · rename_i heq
      simp only [List.cons.injEq] at heq
      omega
    · rw [hd]
      omega

theorem atoi_decimal (n : Nat) (h0 : 0 < n) (h1 : n < 2147483648) :
    atoi (decimal n) = (n : Int) := by
  rw [atoi, strtol_decimal n h0 h1]
  exact to_int_id _ (by omega) (by omega)

theorem cstr_append_zero (tok r : List Nat) : cstr (tok ++ 0 :: r) = cstr tok := by
  unfold cstr
  induction tok with
  | nil => simp [List.takeWhile]
  | cons c t ih =>
    by_cases hc : c = 0
    · simp [List.takeWhile, hc]
    · simp [List.takeWhile, hc, ih]

theorem cstr_store (str tok : List Nat) : cstr (store str tok) = cstr tok :=
  cstr_append_zero tok _

theorem cstr_of_nonzero (tok : List Nat) (h : ∀ b ∈ tok, b ≠ 0) : cstr tok = tok := by
  unfold cstr
  rw [List.takeWhile_eq_self_iff]
  intro b hb
  simpa using h b hb

theorem cstr_decimal (n : Nat) : cstr (decimal n) = decimal n :=
  cstr_of_nonzero _ (fun b hb => by have := decimal_mem n b hb; omega)

/-! ## Totality of the key/value loop -/

theorem pnm_get_of_token (sc sc' : PNMContext) (str tok : List Nat) (n : Nat)
    (h : pnm_token sc n = some (sc', tok)) : pnm_get sc str n = some (sc', store str tok) := by
  unfold pnm_get
  rw [h]

/-- At or beyond the declared end the tokenizer returns the empty token. -/
theorem pnm_token_at_end (sc : PNMContext) (buf_size : Nat)
    (h : sc.bytestream_end ≤ sc.bytestream) :
    ∃ p, pnm_token sc buf_size = some (at_pos sc p, []) ∧ sc.bytestream < p := by
  unfold pnm_token
  obtain ⟨c, p, h1, h2⟩ := pnm_skip_total (sc.mem.length - sc.bytestream + 1) sc (by omega)
  rw [h1]
  simp only [at_pos_end, at_pos_bytestream]
  unfold pnm_accum
  rw [if_neg (by simp only [at_pos_end, at_pos_bytestream]; omega)]
  exact ⟨p, rfl, h2⟩

theorem cstr_store_nil (str : List Nat) : cstr (store str []) = [] := by
  rw [cstr_store]
  rfl

/-- The key/value loop always returns when it is given as much fuel as there
are bytes left before the declared end, and one more. -/
theorem pam_loop_total : ∀ (fuel : Nat) (s : PNMContext) (b : List Nat) (t : PamTags),
    s.bytestream_end - s.bytestream < fuel → ∃ r, pam_loop fuel s b t = some r := by
  intro fuel
  induction fuel with
  | zero => intro s b t h; omega
  | succ n ih =>
    intro s b t h
    unfold pam_loop
    by_cases hend : s.bytestream_end ≤ s.bytestream
    · obtain ⟨p, h1, _⟩ := pnm_token_at_end s 32 hend
      rw [pnm_get_of_token s _ b [] 32 h1]
      simp only [cstr_store_nil]
      rw [if_neg (by decide), if_neg (by decide), if_neg (by decide), if_neg (by decide),
        if_neg (by decide), if_neg (by decide)]
      exact ⟨_, rfl⟩
    · obtain ⟨tok, p, h1, hp⟩ := pnm_get_total s b 32
      rw [h1]
      simp only []
      obtain ⟨tok2, p2, h2, hp2⟩ := pnm_get_total (at_pos s p) (store b tok) 32
      obtain ⟨tok3, p3, h3, hp3⟩ := pnm_get_total (at_pos s p) t.tuple_type 32
      rw [h2, h3]
      simp only [at_pos_at_pos, at_pos_bytestream] at hp2 hp3 ⊢
      have r2 : ∀ b' t', ∃ r, pam_loop n (at_pos s p2) b' t' = some r := fun b' t' =>
        ih _ b' t' (by simp only [at_pos_end, at_pos_bytestream]; omega)
      have r3 : ∀ b' t', ∃ r, pam_loop n (at_pos s p3) b' t' = some r := fun b' t' =>
        ih _ b' t' (by simp only [at_pos_end, at_pos_bytestream]; omega)
      split_ifs
      · exact r2 _ _
      · exact r2 _ _
      · exact r2 _ _
      · exact r2 _ _
      · exact r3 _ _
      · exact ⟨_, rfl⟩
      · exact ⟨_, rfl⟩

/-! ## Totality of the decoder -/

theorem classic_maxval_returns (ext : Externals) (avctx : AVCodecContext) (s : PNMContext)
    (b : List Nat) : ∃ r, classic_maxval ext avctx s b = some r := by
  unfold classic_maxval
  obtain ⟨tok, p, h1, _⟩ := pnm_get_total s b 32
  rw [h1]
  split_ifs
  · exact ⟨_, rfl⟩
  · exact ⟨_, rfl⟩

theorem classic_returns (ext : Externals) (avctx : AVCodecContext) (s : PNMContext)
    (b : List Nat) : ∃ r, classic ext avctx s b = some r := by
  unfold classic
  obtain ⟨tok, p, h1, _⟩ := pnm_get_total s b 32
  rw [h1]
  simp only []
  obtain ⟨tok2, p2, h2, _⟩ := pnm_get_total (at_pos s p) (store b tok) 32
  rw [h2]
  simp only []
  split_ifs
  · exact ⟨_, rfl⟩
  · exact ⟨_, rfl⟩
  · exact classic_maxval_returns ext _ _ _

/-- The decoder always returns: the fuel given to the loops is enough on every
input. -/
theorem ff_pnm_decode_header_returns (ext : Externals) (avctx : AVCodecContext)
    (s : PNMContext) (buf1 : List Nat) : ∃ r, ff_pnm_decode_header ext avctx s buf1 = some r := by
  unfold ff_pnm_decode_header
  obtain ⟨tok, p, h1, _⟩ := pnm_get_total s buf1 32
  rw [h1]
  simp only []
  obtain ⟨r, hr⟩ := pam_loop_total
    ((at_pos s p).bytestream_end - (at_pos s p).bytestream + 1)
    { at_pos s p with type := schar ((store buf1 tok).getD 1 0) - 48 } (store buf1 tok) pam_init
    (by simp only [at_pos_end, at_pos_bytestream]; omega)
  split_ifs
  · exact ⟨_, rfl⟩
  · exact classic_returns ext _ _ _
  · exact classic_returns ext _ _ _
  · exact classic_returns ext _ _ _
  · exact classic_returns ext _ _ _
  · simp only [at_pos_end, at_pos_bytestream] at hr ⊢
    rw [hr]
    obtain ⟨flag, s2, t⟩ := r
    cases flag
    · exact ⟨_, rfl⟩
    · exact ⟨_, rfl⟩
  · exact ⟨_, rfl⟩

/-! ## Classic headers -/

theorem drop_add_of_append (l : List Nat) (n : Nat) (pre post : List Nat)
    (h : l.drop n = pre ++ post) : l.drop (n + pre.length) = post := by
  have h1 : (l.drop n).drop pre.length = post := by rw [h]; simp
  rw [List.drop_drop] at h1
  rw [← h1]

theorem isSep_cons (sep : List Nat) (h : IsSep sep) :
    ∃ w ws, sep = w :: ws ∧ pnm_space w = true ∧ ∀ b ∈ ws, pnm_space b = true := by
  cases sep with
  | nil => exact absurd rfl h.1
  | cons w ws =>
    exact ⟨w, ws, rfl, h.2 w (List.mem_cons_self _ _), fun b hb => h.2 b (List.mem_cons_of_mem _ hb)⟩

theorem take_decimal (n : Nat) (h : n < 2147483648) : (decimal n).take (32 - 1) = decimal n :=
  List.take_of_length_le (by have := decimal_length n h; omega)

/-- Width and height of a classic header: when the cursor stands before
`ws1 W w1 ws2 H w2` (decimal `W`, `H`, white space in between, `w2` inside
the buffer), `classic` continues with the maxval part. -/
theorem classic_wh (ext : Externals) (avctx : AVCodecContext) (sc : PNMContext)
    (buf1 ws1 ws2 rest : List Nat) (W H w1 w2 : Nat)
    (hmem : sc.mem.drop sc.bytestream = ws1 ++ decimal W ++ w1 :: (ws2 ++ decimal H ++ w2 :: rest))
    (hws1 : ∀ b ∈ ws1, pnm_space b = true) (hw1 : pnm_space w1 = true)
    (hws2 : ∀ b ∈ ws2, pnm_space b = true) (hw2 : pnm_space w2 = true)
    (hW : 0 < W) (hW2 : W < 2147483648) (hH : 0 < H) (hH2 : H < 2147483648)
    (hchk : ext.av_image_check_size W H = 0)
    (hend : sc.bytestream + ws1.length + (decimal W).length + 1 + ws2.length + (decimal H).length
      < sc.bytestream_end) :
    classic ext avctx sc buf1 =
      classic_maxval ext { avctx with width := W, height := H }
        (at_pos sc (sc.bytestream + ws1.length + (decimal W).length + 1 + ws2.length
          + (decimal H).length + 1))
        (store (store buf1 (decimal W)) (decimal H)) := by
  have g1 := pnm_get_token sc buf1 32 ws1 (decimal W) w1 (ws2 ++ decimal H ++ w2 :: rest) hmem hws1
    (decimal_ne_nil W hW) (decimal_not_space W) (decimal_head W) hw1 (by omega)
  rw [take_decimal W hW2] at g1
  have hmem2 : (at_pos sc (sc.bytestream + ws1.length + (decimal W).length + 1)).mem.drop
      (at_pos sc (sc.bytestream + ws1.length + (decimal W).length + 1)).bytestream
        = ws2 ++ decimal H ++ w2 :: rest := by
    have := drop_add_of_append sc.mem sc.bytestream (ws1 ++ decimal W ++ [w1])
      (ws2 ++ decimal H ++ w2 :: rest) (by rw [hmem]; simp)
    simp only [List.length_append, List.length_singleton] at this
    simpa [Nat.add_assoc] using this
  have g2 := pnm_get_token (at_pos sc (sc.bytestream + ws1.length + (decimal W).length + 1))
    (store buf1 (decimal W)) 32 ws2 (decimal H) w2 rest hmem2 hws2
    (decimal_ne_nil H hH) (decimal_not_space H) (decimal_head H) hw2
    (by simp only [at_pos_bytestream, at_pos_end]; omega)
  rw [take_decimal H hH2] at g2
  unfold classic
  rw [g1]
  simp only [cstr_store, cstr_decimal, atoi_decimal W hW hW2]
  rw [if_neg (by omega), g2]
  simp only [cstr_store, cstr_decimal, atoi_decimal H hH hH2, at_pos_at_pos, at_pos_bytestream]
  rw [if_neg (by simp only [hchk]; omega)]

/-- The maxval token of a classic header: when the cursor stands before
`ws3 mtok w3` with `w3` inside the buffer, the maxval part resolves the
value `atoi` gives for the stored token. -/
theorem classic_maxval_token (ext : Externals) (avctx : AVCodecContext) (sc : PNMContext)
    (buf1 ws3 mtok rest : List Nat) (w3 : Nat)
    (hpf : avctx.pix_fmt ≠ PixelFormat.MONOWHITE ∧ avctx.pix_fmt ≠ PixelFormat.MONOBLACK)
    (hmem : sc.mem.drop sc.bytestream = ws3 ++ mtok ++ w3 :: rest)
    (hws3 : ∀ b ∈ ws3, pnm_space b = true) (hne : mtok ≠ [])
    (hns : ∀ b ∈ mtok, pnm_space b = false) (hhd : mtok.head? ≠ some 35)
    (hw3 : pnm_space w3 = true)
    (hend : sc.bytestream + ws3.length + mtok.length < sc.bytestream_end) :
    classic_maxval ext avctx sc buf1 =
      some (maxval_resolve ext avctx (at_pos sc (sc.bytestream + ws3.length + mtok.length + 1))
        (atoi (cstr (mtok.take 31)))) := by
  unfold classic_maxval
  rw [if_pos hpf, pnm_get_token sc buf1 32 ws3 mtok w3 rest hmem hws3 hne hns hhd hw3 hend]
  simp only [cstr_store]

theorem classic_maxval_mono (ext : Externals) (avctx : AVCodecContext) (sc : PNMContext)
    (buf1 : List Nat) (hpf : avctx.pix_fmt = PixelFormat.MONOWHITE) :
    classic_maxval ext avctx sc buf1 = some (0, avctx, { sc with maxval := 1 }) := by
  unfold classic_maxval yuv_check
  simp [hpf]

/-- The magic token, width and height of a classic header `P<d> W H`: the
decoder continues with the maxval part, the pixel format being the default
of the variant. -/
theorem decode_classic_wh (ext : Externals) (avctx : AVCodecContext) (s : PNMContext)
    (buf1 sep1 sep2 rest : List Nat) (d W H w2 : Nat)
    (hmem : s.mem.drop s.bytestream =
      80 :: d :: (sep1 ++ decimal W ++ sep2 ++ decimal H ++ w2 :: rest))
    (hd : 49 ≤ d ∧ d ≤ 54) (hsep1 : IsSep sep1) (hsep2 : IsSep sep2)
    (hw2 : pnm_space w2 = true)
    (hW : 0 < W) (hW2 : W < 2147483648) (hH : 0 < H) (hH2 : H < 2147483648)
    (hchk : ext.av_image_check_size W H = 0)
    (hend : s.bytestream + 2 + sep1.length + (decimal W).length + sep2.length
      + (decimal H).length < s.bytestream_end) :
    ff_pnm_decode_header ext avctx s buf1 =
      classic_maxval ext
        { avctx with pix_fmt := classic_default avctx.codec_id d, width := W, height := H }
        (at_pos { s with type := (d : Int) - 48 }
          (s.bytestream + 2 + sep1.length + (decimal W).length + sep2.length
            + (decimal H).length + 1))
        (store (store (store buf1 [80, d]) (decimal W)) (decimal H)) := by
  obtain ⟨w0, ws1, rfl, hw0, hws1⟩ := isSep_cons sep1 hsep1
  obtain ⟨w1, ws2, rfl, hw1, hws2⟩ := isSep_cons sep2 hsep2
  have hdns : ∀ b ∈ [80, d], pnm_space b = false := by
    intro b hb
    simp only [List.mem_cons, List.mem_singleton, List.not_mem_nil, or_false] at hb
    simp only [pnm_space, Bool.or_eq_false_iff, beq_eq_false_iff_ne, ne_eq]
    omega
  have g0 := pnm_get_token s buf1 32 [] [80, d] w0
    (ws1 ++ decimal W ++ w1 :: (ws2 ++ decimal H ++ w2 :: rest))
    (by rw [hmem]; simp) (by simp) (by simp) hdns (by simp) hw0
    (by simp only [List.length_cons, List.length_nil] at hend ⊢; omega)
  have hmem1 : s.mem.drop (s.bytestream + 3) =
      ws1 ++ decimal W ++ w1 :: (ws2 ++ decimal H ++ w2 :: rest) := by
    have := drop_add_of_append s.mem s.bytestream [80, d, w0]
      (ws1 ++ decimal W ++ w1 :: (ws2 ++ decimal H ++ w2 :: rest)) (by rw [hmem]; simp)
    simpa using this
  have key : ∀ a : AVCodecContext,
      classic ext a (at_pos { s with type := (d : Int) - 48 } (s.bytestream + 3))
          (store buf1 [80, d]) =
        classic_maxval ext { a with width := W, height := H }
          (at_pos { s with type := (d : Int) - 48 }
            (s.bytestream + 2 + (w0 :: ws1).length + (decimal W).length + (w1 :: ws2).length
              + (decimal H).length + 1))
          (store (store (store buf1 [80, d]) (decimal W)) (decimal H)) := by
    intro a
    rw [classic_wh ext a _ (store buf1 [80, d]) ws1 ws2 rest W H w1 w2 hmem1 hws1 hw1 hws2 hw2
      hW hW2 hH hH2 hchk
      (by simp only [at_pos_bytestream, at_pos_end, List.length_cons] at hend ⊢; omega)]
    simp only [at_pos_bytestream, at_pos_at_pos, List.length_cons]
    congr 2
    omega
  have hsch : schar d - 48 = (d : Int) - 48 := by
    unfold schar
    rw [if_neg (by omega)]
  unfold ff_pnm_decode_header
  rw [g0]
  simp only [store, List.take, List.cons_append, List.nil_append, List.getD_cons_zero,
    List.getD_cons_succ, ne_eq, not_true_eq_false, if_false, List.length_nil, Nat.add_zero,
    List.length_cons, hsch]
  have hcases : d = 49 ∨ d = 50 ∨ d = 51 ∨ d = 52 ∨ d = 53 ∨ d = 54 := by omega
  rcases hcases with rfl | rfl | rfl | rfl | rfl | rfl
  all_goals first
    | (simp only [classic_default]; norm_num; exact key _)
    | (simp only [classic_default]; norm_num
       by_cases hcodec : avctx.codec_id = CodecID.PGMYUV
       · simp only [hcodec, if_true]; exact key _
       · simp only [hcodec, if_false]; exact key _)

/-- A complete classic header with a maxval token (`P2`, `P3`, `P5`, `P6`):
the result is the resolution of the value `atoi` gives for the maxval token. -/
theorem decode_classic_maxval (ext : Externals) (avctx : AVCodecContext) (s : PNMContext)
    (buf1 sep1 sep2 sep3 mtok rest : List Nat) (d W H w3 : Nat)
    (hmem : s.mem.drop s.bytestream =
      80 :: d :: (sep1 ++ decimal W ++ sep2 ++ decimal H ++ sep3 ++ mtok ++ w3 :: rest))
    (hd : d = 50 ∨ d = 51 ∨ d = 53 ∨ d = 54) (hsep1 : IsSep sep1) (hsep2 : IsSep sep2)
    (hsep3 : IsSep sep3) (hne : mtok ≠ []) (hns : ∀ b ∈ mtok, pnm_space b = false)
    (hhd : mtok.head? ≠ some 35) (hw3 : pnm_space w3 = true)
    (hW : 0 < W) (hW2 : W < 2147483648) (hH : 0 < H) (hH2 : H < 2147483648)
    (hchk : ext.av_image_check_size W H = 0)
    (hend : s.bytestream + 2 + sep1.length + (decimal W).length + sep2.length
      + (decimal H).length + sep3.length + mtok.length < s.bytestream_end) :
    ff_pnm_decode_header ext avctx s buf1 =
      some (maxval_resolve ext
        { avctx with pix_fmt := classic_default avctx.codec_id d, width := W, height := H }
        (at_pos { s with type := (d : Int) - 48 }
          (s.bytestream + 2 + sep1.length + (decimal W).length + sep2.length
            + (decimal H).length + sep3.length + mtok.length + 1))
        (atoi (cstr (mtok.take 31)))) := by
  obtain ⟨w2, ws3, rfl, hw2, hws3⟩ := isSep_cons sep3 hsep3
  have hlen3 : 1 ≤ (w2 :: ws3).length := by simp
  rw [decode_classic_wh ext avctx s buf1 sep1 sep2 (ws3 ++ mtok ++ w3 :: rest) d W H w2
    (by rw [hmem]; simp) (by omega) hsep1 hsep2 hw2 hW hW2 hH hH2 hchk (by omega)]
  have hpf : classic_default avctx.codec_id d ≠ PixelFormat.MONOWHITE ∧
      classic_default avctx.codec_id d ≠ PixelFormat.MONOBLACK := by
    unfold classic_default
    rcases hd with rfl | rfl | rfl | rfl <;>
      by_cases hc : avctx.codec_id = CodecID.PGMYUV <;> simp [hc]
  have hmem3 : s.mem.drop (s.bytestream + 2 + sep1.length + (decimal W).length + sep2.length
      + (decimal H).length + 1) = ws3 ++ mtok ++ w3 :: rest := by
    have := drop_add_of_append s.mem s.bytestream
      (80 :: d :: (sep1 ++ decimal W ++ sep2 ++ decimal H ++ [w2]))
      (ws3 ++ mtok ++ w3 :: rest) (by rw [hmem]; simp)
    rw [← this]
    congr 1
    simp only [List.length_cons, List.length_append, List.length_nil]
    omega
  rw [classic_maxval_token ext _ _ _ ws3 mtok rest w3 hpf hmem3 hws3 hne hns hhd hw3
    (by simp only [at_pos_bytestream, at_pos_end, List.length_cons] at hend ⊢; omega)]
  simp only [at_pos_bytestream, at_pos_at_pos, List.length_cons]
  congr 3
  omega

/-- A complete one-bit classic header (`P1`, `P4`): no maxval token is read. -/
theorem decode_classic_mono (ext : Externals) (avctx : AVCodecContext) (s : PNMContext)
    (buf1 sep1 sep2 rest : List Nat) (d W H w2 : Nat)
    (hmem : s.mem.drop s.bytestream =
      80 :: d :: (sep1 ++ decimal W ++ sep2 ++ decimal H ++ w2 :: rest))
    (hd : d = 49 ∨ d = 52) (hsep1 : IsSep sep1) (hsep2 : IsSep sep2)
    (hw2 : pnm_space w2 = true)
    (hW : 0 < W) (hW2 : W < 2147483648) (hH : 0 < H) (hH2 : H < 2147483648)
    (hchk : ext.av_image_check_size W H = 0)
    (hend : s.bytestream + 2 + sep1.length + (decimal W).length + sep2.length
      + (decimal H).length < s.bytestream_end) :
    ff_pnm_decode_header ext avctx s buf1 =
      some (0, { avctx with pix_fmt := PixelFormat.MONOWHITE, width := W, height := H },
        { at_pos { s with type := (d : Int) - 48 }
          (s.bytestream + 2 + sep1.length + (decimal W).length + sep2.length
            + (decimal H).length + 1) with maxval := 1 }) := by
  rw [decode_classic_wh ext avctx s buf1 sep1 sep2 rest d W H w2 hmem (by omega) hsep1 hsep2
    hw2 hW hW2 hH hH2 hchk hend]
  have hpf : classic_default avctx.codec_id d = PixelFormat.MONOWHITE := by
    unfold classic_default
    rw [if_pos hd]
  rw [classic_maxval_mono ext _ _ _ hpf, hpf]

theorem atoi_take_decimal (n : Nat) (h0 : 0 < n) (h1 : n < 2147483648) :
    atoi (cstr ((decimal n).take 31)) = (n : Int) := by
  have := take_decimal n h1
  simp only [Nat.reduceSub] at this
  rw [this, cstr_decimal, atoi_decimal n h0 h1]


/-! ## The key/value loop of P7 headers -/

theorem render_all_length (es : List PamEntry) (h : ∀ e ∈ es, ValidEntry e) :
    es.length ≤ (render_all es).length := by
  induction es with
  | nil => simp
  | cons e es ih =>
    have he := h e (List.mem_cons_self _ _)
    have hv : e.val ≠ [] := he.2.2.2.1
    have hl : 0 < e.val.length := List.length_pos.2 hv
    have := ih (fun x hx => h x (List.mem_cons_of_mem _ hx))
    simp only [render_all, List.length_cons, List.length_append]
    omega

theorem keyword_facts (k : List Nat)
    (hk : k = kw_WIDTH ∨ k = kw_HEIGHT ∨ k = kw_DEPTH ∨ k = kw_MAXVAL ∨ k = kw_TUPLTYPE
      ∨ k = kw_TUPLETYPE ∨ k = kw_ENDHDR) :
    k ≠ [] ∧ (∀ b ∈ k, pnm_space b = false) ∧ k.head? ≠ some 35 ∧ cstr (k.take (32 - 1)) = k := by
  rcases hk with rfl | rfl | rfl | rfl | rfl | rfl | rfl <;> decide

/-- The loop on a well-formed run of key/value lines closed by `ENDHDR` and a
white-space byte inside the buffer: it leaves by `break`, the tags being
those obtained by applying the lines in order. -/
theorem pam_loop_entries (w_end : Nat) (rest : List Nat) (hw : pnm_space w_end = true) :
    ∀ (es : List PamEntry) (fuel : Nat) (s : PNMContext) (buf1 : List Nat) (t : PamTags)
      (ws : List Nat),
      (∀ e ∈ es, ValidEntry e) → es.length < fuel →
      s.mem.drop s.bytestream = ws ++ render_all es ++ kw_ENDHDR ++ w_end :: rest →
      (∀ b ∈ ws, pnm_space b = true) →
      s.bytestream + ws.length + (render_all es).length + 6 < s.bytestream_end →
      pam_loop fuel s buf1 t =
        some (true, at_pos s (s.bytestream + ws.length + (render_all es).length + 7),
          es.foldl pam_apply t) := by
  intro es
  induction es with
  | nil =>
    intro fuel s buf1 t ws _ hf hmem hws hend
    obtain ⟨k, rfl⟩ : ∃ k, fuel = k + 1 := ⟨fuel - 1, by simp at hf; omega⟩
    obtain ⟨h1, h2, h3, h4⟩ := keyword_facts kw_ENDHDR (by simp)
    have g := pnm_get_token s buf1 32 ws kw_ENDHDR w_end rest
      (by rw [hmem]; simp [render_all]) hws h1 h2 h3 hw
      (by simp only [render_all, List.length_nil, kw_ENDHDR, List.length_cons] at hend ⊢; omega)
    unfold pam_loop
    rw [g]
    simp only [cstr_store, h4]
    simp only [render_all, List.length_nil, List.foldl_nil]
    simp [kw_ENDHDR, kw_WIDTH, kw_HEIGHT, kw_DEPTH, kw_MAXVAL, kw_TUPLTYPE, kw_TUPLETYPE]
  | cons e es ih =>
    intro fuel s buf1 t ws hval hf hmem hws hend
    obtain ⟨k, rfl⟩ : ∃ k, fuel = k + 1 := ⟨fuel - 1, by simp at hf; omega⟩
    obtain ⟨hkey, hsep, hsep2, hvne, hvns, hvhd⟩ := hval e (List.mem_cons_self _ _)
    obtain ⟨w1, ws1, hs1, hw1, hws1⟩ := isSep_cons e.sep hsep
    obtain ⟨w2, ws2, hs2, hw2, hws2⟩ := isSep_cons e.sep2 hsep2
    obtain ⟨h1, h2, h3, h4⟩ := keyword_facts e.key
      (by rcases hkey with h | h | h | h | h | h <;> simp [h])
    have hlen : (render_all (e :: es)).length = e.key.length + (ws1.length + 1) + e.val.length
        + (ws2.length + 1) + (render_all es).length := by
      simp only [render_all, List.length_append, hs1, hs2, List.length_cons]
    rw [hlen] at hend
    have hmemA : s.mem.drop s.bytestream = ws ++ e.key ++ w1 ::
        (ws1 ++ e.val ++ w2 :: (ws2 ++ render_all es ++ kw_ENDHDR ++ w_end :: rest)) := by
      rw [hmem]
      simp [render_all, hs1, hs2]
    have g1 : ∀ str, pnm_get s str 32 =
        some (at_pos s (s.bytestream + ws.length + e.key.length + 1),
          store str (e.key.take (32 - 1))) := fun str =>
      pnm_get_token s str 32 ws e.key w1 _ hmemA hws h1 h2 h3 hw1 (by omega)
    have hmemB : (at_pos s (s.bytestream + ws.length + e.key.length + 1)).mem.drop
        (at_pos s (s.bytestream + ws.length + e.key.length + 1)).bytestream =
          ws1 ++ e.val ++ w2 :: (ws2 ++ render_all es ++ kw_ENDHDR ++ w_end :: rest) := by
      have := drop_add_of_append s.mem s.bytestream (ws ++ e.key ++ [w1])
        (ws1 ++ e.val ++ w2 :: (ws2 ++ render_all es ++ kw_ENDHDR ++ w_end :: rest))
        (by rw [hmemA]; simp)
      simp only [List.length_append, List.length_singleton] at this
      simpa [Nat.add_assoc] using this
    have g2 : ∀ str, pnm_get (at_pos s (s.bytestream + ws.length + e.key.length + 1)) str 32 =
        some (at_pos s (s.bytestream + ws.length + e.key.length + 1 + ws1.length
            + e.val.length + 1), store str (e.val.take (32 - 1))) := fun str =>
      pnm_get_token _ str 32 ws1 e.val w2 _ hmemB hws1 hvne hvns hvhd hw2
        (by simp only [at_pos_bytestream, at_pos_end]; omega)
    have hmemC : (at_pos s (s.bytestream + ws.length + e.key.length + 1 + ws1.length
        + e.val.length + 1)).mem.drop
        (at_pos s (s.bytestream + ws.length + e.key.length + 1 + ws1.length
        + e.val.length + 1)).bytestream =
          ws2 ++ render_all es ++ kw_ENDHDR ++ w_end :: rest := by
      have := drop_add_of_append s.mem s.bytestream
        (ws ++ e.key ++ [w1] ++ ws1 ++ e.val ++ [w2])
        (ws2 ++ render_all es ++ kw_ENDHDR ++ w_end :: rest) (by rw [hmemA]; simp)
      simp only [List.length_append, List.length_singleton] at this
      simpa [Nat.add_assoc] using this
    have hrec : ∀ b t', pam_loop k (at_pos s (s.bytestream + ws.length + e.key.length + 1
        + ws1.length + e.val.length + 1)) b t' =
        some (true, at_pos s (s.bytestream + ws.length + (render_all (e :: es)).length + 7),
          es.foldl pam_apply t') := by
      intro b t'
      rw [ih k _ b t' ws2 (fun x hx => hval x (List.mem_cons_of_mem _ hx))
        (by simp at hf; omega) hmemC hws2
        (by simp only [at_pos_bytestream, at_pos_end]; omega), hlen]
      simp only [at_pos_bytestream, at_pos_at_pos]
      rw [at_pos_congr s _ (s.bytestream + ws.length + (e.key.length + (ws1.length + 1)
        + e.val.length + (ws2.length + 1) + (render_all es).length) + 7) (by omega)]
    unfold pam_loop
    rw [g1]
    simp only [cstr_store, h4, g2, hrec, List.foldl_cons]
    rcases hkey with h | h | h | h | h | h <;>
      simp [h, pam_apply, kw_WIDTH, kw_HEIGHT, kw_DEPTH, kw_MAXVAL, kw_TUPLTYPE, kw_TUPLETYPE]

theorem fold_keep {α : Type} (g : PamTags → α) (P : PamEntry → Prop)
    (hkeep : ∀ t e, ¬ P e → g (pam_apply t e) = g t) :
    ∀ (es : List PamEntry) (t : PamTags), (∀ x ∈ es, ¬ P x) →
      g (es.foldl pam_apply t) = g t := by
  intro es
  induction es with
  | nil => intro t _; rfl
  | cons x es ih =>
    intro t h
    rw [List.foldl_cons, ih _ (fun y hy => h y (List.mem_cons_of_mem _ hy)),
      hkeep t x (h x (List.mem_cons_self _ _))]

/-- A tag that is written by the lines satisfying `P`, all of which write the
value `a`, holds `a` after the loop when at least one such line occurs. -/
theorem fold_last {α : Type} (g : PamTags → α) (P : PamEntry → Prop) (v : PamEntry → α)
    (hkeep : ∀ t e, ¬ P e → g (pam_apply t e) = g t)
    (hset : ∀ t e, P e → g (pam_apply t e) = v e) (a : α) :
    ∀ (es : List PamEntry) (t : PamTags), (∃ e ∈ es, P e) → (∀ x ∈ es, P x → v x = a) →
      g (es.foldl pam_apply t) = a := by
  intro es
  induction es with
  | nil => intro t h; obtain ⟨e, he, _⟩ := h; cases he
  | cons x es ih =>
    intro t hex hall
    rw [List.foldl_cons]
    by_cases h : ∃ e ∈ es, P e
    · exact ih _ h (fun y hy => hall y (List.mem_cons_of_mem _ hy))
    · have hnone : ∀ y ∈ es, ¬ P y := fun y hy hp => h ⟨y, hy, hp⟩
      rw [fold_keep g P hkeep es _ hnone]
      obtain ⟨e, he, hp⟩ := hex
      rcases List.mem_cons.1 he with rfl | he'
      · rw [hset t e hp]
        exact hall e (List.mem_cons_self _ _) hp
      · exact absurd hp (hnone e he')

theorem store_getD_zero (old tok : List Nat) : (store old tok).getD 0 0 = tok.headD 0 := by
  cases tok <;> rfl

/-- The magic token `P7` followed by a well-formed run of key/value lines,
`ENDHDR` and a white-space byte inside the buffer: the decoder reaches the
check after the loop with the tags given by the lines. -/
theorem decode_pam (ext : Externals) (avctx : AVCodecContext) (s : PNMContext)
    (buf1 sep0 rest : List Nat) (es : List PamEntry) (w_end : Nat)
    (hmem : s.mem.drop s.bytestream =
      80 :: 55 :: (sep0 ++ render_all es ++ kw_ENDHDR ++ w_end :: rest))
    (hend : s.bytestream + 2 + sep0.length + (render_all es).length + 6 < s.bytestream_end)
    (hsep0 : IsSep sep0) (hw : pnm_space w_end = true) (hval : ∀ e ∈ es, ValidEntry e) :
    ff_pnm_decode_header ext avctx s buf1 =
      some (pam_finish ext avctx
        (at_pos { s with type := 7 }
          (s.bytestream + 2 + sep0.length + (render_all es).length + 7))
        (es.foldl pam_apply pam_init)) := by
  obtain ⟨w0, ws0, rfl, hw0, hws0⟩ := isSep_cons sep0 hsep0
  have g0 := pnm_get_token s buf1 32 [] [80, 55] w0
    (ws0 ++ render_all es ++ kw_ENDHDR ++ w_end :: rest)
    (by rw [hmem]; simp) (by simp) (by simp) (by decide) (by simp) hw0
    (by simp only [List.length_cons, List.length_nil] at hend ⊢; omega)
  have hmem1 : s.mem.drop (s.bytestream + 3) =
      ws0 ++ render_all es ++ kw_ENDHDR ++ w_end :: rest := by
    have := drop_add_of_append s.mem s.bytestream [80, 55, w0]
      (ws0 ++ render_all es ++ kw_ENDHDR ++ w_end :: rest) (by rw [hmem]; simp)
    simpa using this
  have hlen := render_all_length es hval
  have hloop := pam_loop_entries w_end rest hw es
    (s.bytestream_end - (s.bytestream + 2 + 1) + 1)
    { mem := s.mem, bytestream := s.bytestream + 2 + 1, bytestream_end := s.bytestream_end,
      type := 7, maxval := s.maxval }
    (80 :: 55 :: 0 :: List.drop 3 buf1) pam_init ws0 hval
    (by simp only [List.length_cons] at hend ⊢; omega)
    hmem1 hws0
    (by simp only [List.length_cons] at hend ⊢; omega)
  unfold ff_pnm_decode_header
  rw [g0]
  simp only [store, List.take, List.cons_append, List.nil_append, List.getD_cons_zero,
    List.getD_cons_succ, ne_eq, not_true_eq_false, if_false, List.length_nil, Nat.add_zero,
    List.length_cons]
  have hsch : schar 55 - 48 = 7 := by decide
  simp only [hsch]
  norm_num
  rw [hloop]
  simp only []
  rw [at_pos_congr _ (s.bytestream + 2 + 1 + ws0.length + (render_all es).length + 7)
    (s.bytestream + 2 + (ws0.length + 1) + (render_all es).length + 7) (by omega)]
  rfl

/-! ## Claims about classic headers -/

theorem yuv_check_other (avctx : AVCodecContext) (s : PNMContext)
    (h : avctx.pix_fmt ≠ PixelFormat.YUV420P) : yuv_check avctx s = (0, avctx, s) := by
  unfold yuv_check
  rw [if_neg h]

/-- Resolution of the maxval for the gray default. -/
theorem maxval_resolve_gray (ext : Externals) (avctx : AVCodecContext) (s : PNMContext)
    (m0 : Int) (h : avctx.pix_fmt = PixelFormat.GRAY8) :
    maxval_resolve ext avctx s m0 =
      (0, { avctx with pix_fmt :=
              if (if m0 ≤ 0 then 255 else m0) < 256 then PixelFormat.GRAY8
              else if (if m0 ≤ 0 then 255 else m0) = 65535 then PixelFormat.GRAY16BE
              else PIX_FMT_GRAY16 ext },
        { s with maxval := if m0 ≤ 0 then 255 else m0 }) := by
  obtain ⟨codec, pf, wd, ht⟩ := avctx
  simp only at h
  subst h
  unfold maxval_resolve
  by_cases h256 : (if m0 ≤ 0 then 255 else m0) < 256
  · have hge : ¬ ((if m0 ≤ 0 then 255 else m0) ≥ 256) := by omega
    simp only [hge, h256, if_true, if_false]
    exact yuv_check_other _ _ (by simp)
  · have hge : (if m0 ≤ 0 then 255 else m0) ≥ 256 := by omega
    simp only [hge, h256, if_true, if_false]
    by_cases h65 : (if m0 ≤ 0 then 255 else m0) = 65535
    · simp only [h65, ne_eq, not_true_eq_false, if_false, if_true]
      exact yuv_check_other _ _ (by simp)
    · simp only [h65, ne_eq, not_false_eq_true, if_true, if_false]
      exact yuv_check_other _ _ (by unfold PIX_FMT_GRAY16; split <;> simp)

/-- Resolution of the maxval for the RGB default. -/
theorem maxval_resolve_rgb (ext : Externals) (avctx : AVCodecContext) (s : PNMContext)
    (m0 : Int) (h : avctx.pix_fmt = PixelFormat.RGB24) :
    maxval_resolve ext avctx s m0 =
      (0, { avctx with pix_fmt :=
              if (if m0 ≤ 0 then 255 else m0) < 256 then PixelFormat.RGB24
              else PixelFormat.RGB48BE },
        { s with maxval := if m0 ≤ 0 then 255 else m0 }) := by
  obtain ⟨codec, pf, wd, ht⟩ := avctx
  simp only at h
  subst h
  unfold maxval_resolve
  by_cases h256 : (if m0 ≤ 0 then 255 else m0) < 256
  · have hge : ¬ ((if m0 ≤ 0 then 255 else m0) ≥ 256) := by omega
    simp only [hge, h256, if_true, if_false]
    exact yuv_check_other _ _ (by simp)
  · have hge : (if m0 ≤ 0 then 255 else m0) ≥ 256 := by omega
    have hgt : (if m0 ≤ 0 then 255 else m0) > 255 := by omega
    simp only [hge, hgt, h256, if_true, if_false]
    simp only [reduceCtorEq, if_false]
    exact yuv_check_other _ _ (by simp)

theorem classic_default_gray (codec : CodecID) (d : Nat) (hd : d = 50 ∨ d = 53)
    (hc : codec ≠ CodecID.PGMYUV) : classic_default codec d = PixelFormat.GRAY8 := by
  unfold classic_default
  rw [if_neg (by omega), if_pos hd, if_neg hc]

theorem classic_default_rgb (codec : CodecID) (d : Nat) (hd : d = 51 ∨ d = 54) :
    classic_default codec d = PixelFormat.RGB24 := by
  unfold classic_default
  rw [if_neg (by omega), if_neg (by omega)]

theorem classic_default_yuv (codec : CodecID) (d : Nat) (hd : d = 50 ∨ d = 53)
    (hc : codec = CodecID.PGMYUV) : classic_default codec d = PixelFormat.YUV420P := by
  unfold classic_default
  rw [if_neg (by omega), if_pos hd, if_pos hc]

/-- C1 (amended): for every buffer holding a well-formed classic header
`P<d> W H [MAXVAL]` whose last token is followed by a white-space byte inside
the buffer (d in 1..6, tokens separated by white space, `W` and `H` positive
`int` values in decimal accepted by the size predicate, `MAXVAL` a decimal in
1..65535 present exactly when d is not 1 or 4, codec not PGMYUV), the decoder
returns 0 with width `W`, height `H`, maxval `MAXVAL` (1 for P1/P4) and pixel
format MONOWHITE for P1/P4, a gray format for P2/P5 (GRAY8 below 256, else
GRAY16BE at 65535 and native GRAY16 otherwise) and an RGB format for P3/P6
(RGB24 below 256, else RGB48BE). -/
theorem classic_header_decodes (ext : Externals) (avctx : AVCodecContext) (s : PNMContext)
    (buf1 hdr sep1 sep2 sep3 rest : List Nat) (d W H M w : Nat)
    (hd : 49 ≤ d ∧ d ≤ 54) (hcodec : avctx.codec_id ≠ CodecID.PGMYUV)
    (hhdr : hdr = 80 :: d :: (sep1 ++ decimal W ++ sep2 ++ decimal H ++
      (if d = 49 ∨ d = 52 then [] else sep3 ++ decimal M)))
    (hmem : s.mem.drop s.bytestream = hdr ++ w :: rest)
    (hend : s.bytestream + hdr.length < s.bytestream_end)
    (hsep1 : IsSep sep1) (hsep2 : IsSep sep2) (hsep3 : IsSep sep3) (hw : pnm_space w = true)
    (hW : 0 < W ∧ W < 2147483648) (hH : 0 < H ∧ H < 2147483648)
    (hchk : ext.av_image_check_size W H = 0) (hM : 1 ≤ M ∧ M ≤ 65535) :
    ∃ avctx' s', ff_pnm_decode_header ext avctx s buf1 = some (0, avctx', s') ∧
      avctx'.width = W ∧ avctx'.height = H ∧
      s'.maxval = (if d = 49 ∨ d = 52 then 1 else (M : Int)) ∧
      avctx'.pix_fmt =
        (if d = 49 ∨ d = 52 then PixelFormat.MONOWHITE
         else if d = 50 ∨ d = 53 then
           (if M < 256 then PixelFormat.GRAY8
            else if M = 65535 then PixelFormat.GRAY16BE else PIX_FMT_GRAY16 ext)
         else (if M < 256 then PixelFormat.RGB24 else PixelFormat.RGB48BE)) := by
  by_cases hmono : d = 49 ∨ d = 52
  · rw [if_pos hmono, List.append_nil] at hhdr
    subst hhdr
    rw [decode_classic_mono ext avctx s buf1 sep1 sep2 rest d W H w
      (by rw [hmem]; simp) hmono hsep1 hsep2 hw hW.1 hW.2 hH.1 hH.2 hchk
      (by simp only [List.length_cons, List.length_append] at hend; omega)]
    exact ⟨_, _, rfl, rfl, rfl, by simp [hmono], by simp [hmono]⟩
  · rw [if_neg hmono] at hhdr
    subst hhdr
    have hd4 : d = 50 ∨ d = 51 ∨ d = 53 ∨ d = 54 := by omega
    rw [decode_classic_maxval ext avctx s buf1 sep1 sep2 sep3 (decimal M) rest d W H w
      (by rw [hmem]; simp) hd4 hsep1 hsep2 hsep3 (decimal_ne_nil M (by omega))
      (decimal_not_space M) (decimal_head M) hw hW.1 hW.2 hH.1 hH.2 hchk
      (by simp only [List.length_cons, List.length_append] at hend; omega),
      atoi_take_decimal M (by omega) (by omega)]
    have hm1 : (if (M : Int) ≤ 0 then 255 else (M : Int)) = (M : Int) := by
      rw [if_neg (by omega)]
    have hc1 : ((M : Int) < 256) = (M < 256) := by
      apply propext; constructor <;> intro h <;> omega
    have hc2 : ((M : Int) = 65535) = (M = 65535) := by
      apply propext; constructor <;> intro h <;> omega
    by_cases hgray : d = 50 ∨ d = 53
    · rw [maxval_resolve_gray ext _ _ _ (classic_default_gray _ d hgray hcodec), hm1]
      refine ⟨_, _, rfl, rfl, rfl, ?_, ?_⟩
      · simp [hmono]
      · simp only [hmono, hgray, if_true, if_false, hc1, hc2]
    · rw [maxval_resolve_rgb ext _ _ _ (classic_default_rgb _ d (by omega)), hm1]
      refine ⟨_, _, rfl, rfl, rfl, ?_, ?_⟩
      · simp [hmono]
      · simp only [hmono, hgray, if_false, hc1]

/-- C1, witness: the header `P5 4 10 255` followed by a line feed. -/
theorem classic_header_decodes_witness :
    ∃ avctx' s', ff_pnm_decode_header ext_accept (ctx0 CodecID.PGM)
        (packet [80, 53, 32, 52, 32, 49, 48, 32, 50, 53, 53, 10]) buf0 = some (0, avctx', s') ∧
      avctx'.width = 4 ∧ avctx'.height = 10 ∧ s'.maxval = 255 ∧
      avctx'.pix_fmt = PixelFormat.GRAY8 := by
  have h := classic_header_decodes ext_accept (ctx0 CodecID.PGM)
    (packet [80, 53, 32, 52, 32, 49, 48, 32, 50, 53, 53, 10]) buf0
    [80, 53, 32, 52, 32, 49, 48, 32, 50, 53, 53] [32] [32] [32] [] 53 4 10 255 10
    (by decide) (by decide) (by simp [decimal]) (by simp [packet]) (by simp [packet])
    (by simp [IsSep, pnm_space]) (by simp [IsSep, pnm_space]) (by simp [IsSep, pnm_space])
    (by decide) (by decide) (by decide) rfl (by decide)
  simpa using h

/-- C1, counterexample: the buffer that is exactly the well-formed header
`P5 4 10 255` (its last byte is the last digit of the maxval token) is decoded
with return code 0 and maxval 25, not 255. -/
theorem classic_header_counterexample :
    [80, 53, 32, 52, 32, 49, 48, 32, 50, 53, 53]
        = 80 :: 53 :: ([32] ++ decimal 4 ++ [32] ++ decimal 10 ++ [32] ++ decimal 255) ∧
      ff_pnm_decode_header ext_accept (ctx0 CodecID.PGM)
        (packet [80, 53, 32, 52, 32, 49, 48, 32, 50, 53, 53]) buf0 =
      some (0, { codec_id := CodecID.PGM, pix_fmt := PixelFormat.GRAY8, width := 4, height := 10 },
        { mem := [80, 53, 32, 52, 32, 49, 48, 32, 50, 53, 53], bytestream := 11,
          bytestream_end := 11, type := 5, maxval := 25 }) :=
  ⟨by simp [decimal], by decide⟩

/-! ## Claims about P7 headers -/

theorem pam_apply_w (t : PamTags) (e : PamEntry) (h : e.key = kw_WIDTH) :
    (pam_apply t e).w = to_int (strtol (cstr (e.val.take 31))) := by
  simp [pam_apply, h]

theorem pam_apply_w_keep (t : PamTags) (e : PamEntry) (h : ¬ e.key = kw_WIDTH) :
    (pam_apply t e).w = t.w := by
  unfold pam_apply
  rw [if_neg h]
  repeat' split
  all_goals rfl

theorem pam_apply_h (t : PamTags) (e : PamEntry) (h : e.key = kw_HEIGHT) :
    (pam_apply t e).h = to_int (strtol (cstr (e.val.take 31))) := by
  simp [pam_apply, h, kw_HEIGHT, kw_WIDTH]

theorem pam_apply_h_keep (t : PamTags) (e : PamEntry) (h : ¬ e.key = kw_HEIGHT) :
    (pam_apply t e).h = t.h := by
  unfold pam_apply
  rw [if_neg h]
  repeat' split
  all_goals rfl

theorem pam_apply_depth (t : PamTags) (e : PamEntry) (h : e.key = kw_DEPTH) :
    (pam_apply t e).depth = to_int (strtol (cstr (e.val.take 31))) := by
  simp [pam_apply, h, kw_HEIGHT, kw_WIDTH, kw_DEPTH]

theorem pam_apply_depth_keep (t : PamTags) (e : PamEntry) (h : ¬ e.key = kw_DEPTH) :
    (pam_apply t e).depth = t.depth := by
  unfold pam_apply
  rw [if_neg h]
  repeat' split
  all_goals rfl

theorem pam_apply_maxval (t : PamTags) (e : PamEntry) (h : e.key = kw_MAXVAL) :
    (pam_apply t e).maxval = to_int (strtol (cstr (e.val.take 31))) := by
  simp [pam_apply, h, kw_HEIGHT, kw_WIDTH, kw_DEPTH, kw_MAXVAL]

theorem pam_apply_maxval_keep (t : PamTags) (e : PamEntry) (h : ¬ e.key = kw_MAXVAL) :
    (pam_apply t e).maxval = t.maxval := by
  unfold pam_apply
  rw [if_neg h]
  repeat' split
  all_goals rfl

theorem pam_apply_tuple (t : PamTags) (e : PamEntry)
    (h : e.key = kw_TUPLTYPE ∨ e.key = kw_TUPLETYPE) :
    (pam_apply t e).tuple_type.getD 0 0 = (e.val.take 31).headD 0 := by
  have : (pam_apply t e).tuple_type = store t.tuple_type (e.val.take 31) := by
    rcases h with h | h <;>
      simp [pam_apply, h, kw_HEIGHT, kw_WIDTH, kw_DEPTH, kw_MAXVAL, kw_TUPLTYPE, kw_TUPLETYPE]
  rw [this, store_getD_zero]

theorem pam_apply_tuple_keep (t : PamTags) (e : PamEntry)
    (h : ¬ (e.key = kw_TUPLTYPE ∨ e.key = kw_TUPLETYPE)) :
    (pam_apply t e).tuple_type.getD 0 0 = t.tuple_type.getD 0 0 := by
  unfold pam_apply
  rw [if_neg h]
  repeat' split
  all_goals rfl

theorem strtol_take_decimal (n : Nat) (h0 : 0 < n) (h1 : n < 2147483648) :
    to_int (strtol (cstr ((decimal n).take 31))) = (n : Int) :=
  atoi_take_decimal n h0 h1

/-- C2 (amended): for every P7 header that contains exactly one each of
`WIDTH w`, `HEIGHT h`, `DEPTH d`, `MAXVAL m`, `TUPLTYPE t` in any order,
followed by `ENDHDR` and a white-space byte inside the buffer (w, h, m
positive `int` values in decimal, t a token that does not begin with `#` or a
zero byte, the size predicate accepts (w, h), and (d, m) a row of the table
that defines a layout), the decoder returns 0 with width w, height h, maxval
m and the pixel format of the table. -/
theorem pam_header_decodes (ext : Externals) (avctx : AVCodecContext) (s : PNMContext)
    (buf1 sep0 rest tt : List Nat) (es : List PamEntry) (w_end W H D M : Nat)
    (hmem : s.mem.drop s.bytestream =
      80 :: 55 :: (sep0 ++ render_all es ++ kw_ENDHDR ++ w_end :: rest))
    (hend : s.bytestream + 2 + sep0.length + (render_all es).length + 6 < s.bytestream_end)
    (hsep0 : IsSep sep0) (hw : pnm_space w_end = true)
    (hseps : ∀ e ∈ es, IsSep e.sep ∧ IsSep e.sep2)
    (hperm : (es.map (fun e => (e.key, e.val))).Perm
      [(kw_WIDTH, decimal W), (kw_HEIGHT, decimal H), (kw_DEPTH, decimal D),
       (kw_MAXVAL, decimal M), (kw_TUPLTYPE, tt)])
    (htt : tt ≠ [] ∧ (∀ b ∈ tt, pnm_space b = false) ∧ tt.head? ≠ some 35 ∧ tt.head? ≠ some 0)
    (hW : 0 < W ∧ W < 2147483648) (hH : 0 < H ∧ H < 2147483648)
    (hM : 0 < M ∧ M < 2147483648)
    (hchk : ext.av_image_check_size W H = 0)
    (hD : D = 1 ∨ (D = 2 ∧ M = 255) ∨ D = 3 ∨ D = 4) :
    ∃ avctx' s', ff_pnm_decode_header ext avctx s buf1 = some (0, avctx', s') ∧
      avctx'.width = W ∧ avctx'.height = H ∧ s'.maxval = M ∧
      avctx'.pix_fmt =
        (if D = 1 then
           (if M = 1 then PixelFormat.MONOBLACK
            else if M = 255 then PixelFormat.GRAY8 else PixelFormat.GRAY16BE)
         else if D = 2 then PixelFormat.GRAY8A
         else if D = 3 then (if M < 256 then PixelFormat.RGB24 else PixelFormat.RGB48BE)
         else (if M < 256 then PixelFormat.RGBA else PixelFormat.RGBA64BE)) := by
  have hD0 : 0 < D ∧ D < 2147483648 := by omega
  -- every line is one of the five
  have hmemb : ∀ e ∈ es, (e.key, e.val) ∈
      [(kw_WIDTH, decimal W), (kw_HEIGHT, decimal H), (kw_DEPTH, decimal D),
       (kw_MAXVAL, decimal M), (kw_TUPLTYPE, tt)] := fun e he =>
    hperm.mem_iff.1 (List.mem_map.2 ⟨e, he, rfl⟩)
  have hfind : ∀ p ∈ [(kw_WIDTH, decimal W), (kw_HEIGHT, decimal H), (kw_DEPTH, decimal D),
       (kw_MAXVAL, decimal M), (kw_TUPLTYPE, tt)], ∃ e ∈ es, e.key = p.1 ∧ e.val = p.2 := by
    intro p hp
    obtain ⟨e, he, heq⟩ := List.mem_map.1 (hperm.mem_iff.2 hp)
    exact ⟨e, he, by rw [← heq], by rw [← heq]⟩
  have hcases : ∀ e ∈ es, (e.key = kw_WIDTH ∧ e.val = decimal W) ∨
      (e.key = kw_HEIGHT ∧ e.val = decimal H) ∨ (e.key = kw_DEPTH ∧ e.val = decimal D) ∨
      (e.key = kw_MAXVAL ∧ e.val = decimal M) ∨ (e.key = kw_TUPLTYPE ∧ e.val = tt) := by
    intro e he
    have := hmemb e he
    simp only [List.mem_cons, Prod.mk.injEq, List.mem_singleton, List.not_mem_nil, or_false]
      at this
    exact this
  have hval : ∀ e ∈ es, ValidEntry e := by
    intro e he
    obtain ⟨hs1, hs2⟩ := hseps e he
    rcases hcases e he with ⟨hk, hv⟩ | ⟨hk, hv⟩ | ⟨hk, hv⟩ | ⟨hk, hv⟩ | ⟨hk, hv⟩
    · exact ⟨by simp [hk], hs1, hs2, by rw [hv]; exact decimal_ne_nil W hW.1,
        by rw [hv]; exact decimal_not_space W, by rw [hv]; exact decimal_head W⟩
    · exact ⟨by simp [hk], hs1, hs2, by rw [hv]; exact decimal_ne_nil H hH.1,
        by rw [hv]; exact decimal_not_space H, by rw [hv]; exact decimal_head H⟩
    · exact ⟨by simp [hk], hs1, hs2, by rw [hv]; exact decimal_ne_nil D hD0.1,
        by rw [hv]; exact decimal_not_space D, by rw [hv]; exact decimal_head D⟩
    · exact ⟨by simp [hk], hs1, hs2, by rw [hv]; exact decimal_ne_nil M hM.1,
        by rw [hv]; exact decimal_not_space M, by rw [hv]; exact decimal_head M⟩
    · exact ⟨by simp [hk], hs1, hs2, by rw [hv]; exact htt.1,
        by rw [hv]; exact htt.2.1, by rw [hv]; exact htt.2.2.1⟩
  -- the tags after the loop
  have hkeyval : ∀ (k v : List Nat), (k = kw_WIDTH ∧ v = decimal W) ∨
      (k = kw_HEIGHT ∧ v = decimal H) ∨ (k = kw_DEPTH ∧ v = decimal D) ∨
      (k = kw_MAXVAL ∧ v = decimal M) ∨ (k = kw_TUPLTYPE ∧ v = tt) →
      (k = kw_WIDTH → v = decimal W) ∧ (k = kw_HEIGHT → v = decimal H) ∧
      (k = kw_DEPTH → v = decimal D) ∧ (k = kw_MAXVAL → v = decimal M) ∧
      (k = kw_TUPLTYPE ∨ k = kw_TUPLETYPE → v = tt) := by
    intro k v h
    rcases h with ⟨hk, hv⟩ | ⟨hk, hv⟩ | ⟨hk, hv⟩ | ⟨hk, hv⟩ | ⟨hk, hv⟩ <;>
      (subst hk; subst hv
       simp [kw_WIDTH, kw_HEIGHT, kw_DEPTH, kw_MAXVAL, kw_TUPLTYPE, kw_TUPLETYPE])
  have tw : (es.foldl pam_apply pam_init).w = (W : Int) := by
    obtain ⟨e, he, hk, _⟩ := hfind (kw_WIDTH, decimal W) (by simp)
    refine fold_last (fun t => t.w) (fun e => e.key = kw_WIDTH)
      (fun e => to_int (strtol (cstr (e.val.take 31)))) pam_apply_w_keep pam_apply_w _ es _
      ⟨e, he, hk⟩ ?_
    intro x hx hxk
    simp only [(hkeyval x.key x.val (hcases x hx)).1 hxk]
    exact strtol_take_decimal W hW.1 hW.2
  have th : (es.foldl pam_apply pam_init).h = (H : Int) := by
    obtain ⟨e, he, hk, _⟩ := hfind (kw_HEIGHT, decimal H) (by simp)
    refine fold_last (fun t => t.h) (fun e => e.key = kw_HEIGHT)
      (fun e => to_int (strtol (cstr (e.val.take 31)))) pam_apply_h_keep pam_apply_h _ es _
      ⟨e, he, hk⟩ ?_
    intro x hx hxk
    simp only [(hkeyval x.key x.val (hcases x hx)).2.1 hxk]
    exact strtol_take_decimal H hH.1 hH.2
  have td : (es.foldl pam_apply pam_init).depth = (D : Int) := by
    obtain ⟨e, he, hk, _⟩ := hfind (kw_DEPTH, decimal D) (by simp)
    refine fold_last (fun t => t.depth) (fun e => e.key = kw_DEPTH)
      (fun e => to_int (strtol (cstr (e.val.take 31)))) pam_apply_depth_keep pam_apply_depth _
      es _ ⟨e, he, hk⟩ ?_
    intro x hx hxk
    simp only [(hkeyval x.key x.val (hcases x hx)).2.2.1 hxk]
    exact strtol_take_decimal D hD0.1 hD0.2
  have tm : (es.foldl pam_apply pam_init).maxval = (M : Int) := by
    obtain ⟨e, he, hk, _⟩ := hfind (kw_MAXVAL, decimal M) (by simp)
    refine fold_last (fun t => t.maxval) (fun e => e.key = kw_MAXVAL)
      (fun e => to_int (strtol (cstr (e.val.take 31)))) pam_apply_maxval_keep pam_apply_maxval _
      es _ ⟨e, he, hk⟩ ?_
    intro x hx hxk
    simp only [(hkeyval x.key x.val (hcases x hx)).2.2.2.1 hxk]
    exact strtol_take_decimal M hM.1 hM.2
  have ttu : (es.foldl pam_apply pam_init).tuple_type.getD 0 0 ≠ 0 := by
    obtain ⟨e, he, hk, _⟩ := hfind (kw_TUPLTYPE, tt) (by simp)
    have := fold_last (fun t => t.tuple_type.getD 0 0)
      (fun e => e.key = kw_TUPLTYPE ∨ e.key = kw_TUPLETYPE)
      (fun e => (e.val.take 31).headD 0) pam_apply_tuple_keep pam_apply_tuple
      ((tt.take 31).headD 0) es pam_init ⟨e, he, Or.inl hk⟩
      (fun x hx hxk => by simp only [(hkeyval x.key x.val (hcases x hx)).2.2.2.2 hxk])
    simp only at this
    rw [this]
    obtain ⟨h1, _, _, h4⟩ := htt
    cases htl : tt with
    | nil => exact absurd htl h1
    | cons c tl =>
      rw [htl] at h4
      simp only [List.head?_cons, ne_eq, Option.some.injEq] at h4
      simpa using h4
  rw [decode_pam ext avctx s buf1 sep0 rest es w_end hmem hend hsep0 hw hval]
  unfold pam_finish
  rw [tw, th, td, tm]
  rw [if_neg (by
    intro h
    rcases h with h | h | h | h | h | h
    · omega
    · omega
    · omega
    · omega
    · exact ttu h
    · exact h hchk)]
  simp only []
  rcases hD with rfl | ⟨rfl, rfl⟩ | rfl | rfl
  · by_cases h1 : M = 1
    · subst h1
      exact ⟨_, _, rfl, rfl, rfl, rfl, rfl⟩
    · by_cases h255 : M = 255
      · subst h255
        exact ⟨_, _, rfl, rfl, rfl, rfl, rfl⟩
      · have c1 : ¬ ((M : Int) = 1) := by omega
        have c2 : ¬ ((M : Int) = 255) := by omega
        simp only [Nat.cast_one, if_true, c1, c2, if_false]
        exact ⟨_, _, rfl, rfl, rfl, rfl, by simp [h1, h255]⟩
  · exact ⟨_, _, rfl, rfl, rfl, rfl, rfl⟩
  · by_cases h256 : M < 256
    · have c1 : (M : Int) < 256 := by omega
      simp only [Nat.cast_ofNat, c1, if_true]
      norm_num
      simp only [h256, if_true, if_false]
      exact ⟨_, _, ⟨rfl, rfl⟩, rfl, rfl, rfl, rfl⟩
    · have c1 : ¬ ((M : Int) < 256) := by omega
      simp only [Nat.cast_ofNat, c1, if_false]
      norm_num
      simp only [h256, if_true, if_false]
      exact ⟨_, _, ⟨rfl, rfl⟩, rfl, rfl, rfl, rfl⟩
  · by_cases h256 : M < 256
    · have c1 : (M : Int) < 256 := by omega
      simp only [Nat.cast_ofNat, c1, if_true]
      norm_num
      simp only [h256, if_true, if_false]
      exact ⟨_, _, ⟨rfl, rfl⟩, rfl, rfl, rfl, rfl⟩
    · have c1 : ¬ ((M : Int) < 256) := by omega
      simp only [Nat.cast_ofNat, c1, if_false]
      norm_num
      simp only [h256, if_true, if_false]
      exact ⟨_, _, ⟨rfl, rfl⟩, rfl, rfl, rfl, rfl⟩

/-- C2, witness: the header `rgb_header` followed by a line feed. -/
theorem pam_header_decodes_witness :
    ∃ avctx' s', ff_pnm_decode_header ext_accept (ctx0 CodecID.PAM)
        (packet (rgb_header ++ [10])) buf0 = some (0, avctx', s') ∧
      avctx'.width = 4 ∧ avctx'.height = 4 ∧ s'.maxval = 255 ∧
      avctx'.pix_fmt = PixelFormat.RGB24 := by
  have h := pam_header_decodes ext_accept (ctx0 CodecID.PAM) (packet (rgb_header ++ [10])) buf0
    [10] [] [82, 71, 66] rgb_lines 10 4 4 3 255 (by decide) (by decide)
    (by simp [IsSep, pnm_space]) (by decide) (by simp [rgb_lines, IsSep, pnm_space])
    (by simp [rgb_lines, decimal]; decide) (by decide) (by decide) (by decide) (by decide) rfl
    (by decide)
  simpa using h

/-- C2, counterexample: the buffer that is exactly `P7`, the five key/value
lines and `ENDHDR` (the last byte of the buffer is the `R` of `ENDHDR`) is
rejected: the keyword is read as `ENDHD`. -/
theorem pam_header_counterexample :
    rgb_header = 80 :: 55 :: ([10] ++ render_all rgb_lines ++ kw_ENDHDR) ∧
      (rgb_lines.map (fun e => (e.key, e.val))).Perm
        [(kw_WIDTH, decimal 4), (kw_HEIGHT, decimal 4), (kw_DEPTH, decimal 3),
         (kw_MAXVAL, decimal 255), (kw_TUPLTYPE, [82, 71, 66])] ∧
      ret (ff_pnm_decode_header ext_accept (ctx0 CodecID.PAM) (packet rgb_header) buf0)
        = some (-1) :=
  ⟨by decide, by simp [rgb_lines, decimal]; decide, by decide⟩

/-- C3, the code at the failing input: the header
`P7 WIDTH 4 HEIGHT 4 DEPTH 2 MAXVAL 100 TUPLTYPE X ENDHDR` is accepted (return
code 0) and the pixel format is left as it was on entry. -/
theorem pam_depth2_accepted :
    ff_pnm_decode_header ext_accept (ctx0 CodecID.PAM) (packet depth2_header) buf0 =
      some (0, { codec_id := CodecID.PAM, pix_fmt := PixelFormat.NONE, width := 4, height := 4 },
        { mem := depth2_header, bytestream := 57, bytestream_end := 57, type := 7,
          maxval := 100 }) := by
  decide

/-! ## Claims about the magic token -/

theorem ret_some (r : Int) (a : AVCodecContext) (s : PNMContext) :
    ret (some (r, a, s)) = some r := rfl

/-- The decoder after the magic token when the token is `P` and a classic
variant digit. -/
theorem decode_magic_classic (ext : Externals) (avctx : AVCodecContext) (s s0 : PNMContext)
    (buf1 b1 : List Nat) (h : pnm_get s buf1 32 = some (s0, b1)) (hP : b1.getD 0 0 = 80)
    (hd : 49 ≤ b1.getD 1 0 ∧ b1.getD 1 0 ≤ 54) :
    ff_pnm_decode_header ext avctx s buf1 =
      classic ext { avctx with pix_fmt := classic_default avctx.codec_id (b1.getD 1 0) }
        { s0 with type := (b1.getD 1 0 : Int) - 48 } b1 := by
  have hsch : schar (b1.getD 1 0) - 48 = (b1.getD 1 0 : Int) - 48 := by
    unfold schar
    rw [if_neg (by omega)]
  unfold ff_pnm_decode_header
  rw [h]
  simp only [hsch, hP, ne_eq, not_true_eq_false, if_false]
  generalize b1.getD 1 0 = d at hd ⊢
  have hcases : d = 49 ∨ d = 50 ∨ d = 51 ∨ d = 52 ∨ d = 53 ∨ d = 54 := by omega
  rcases hcases with rfl | rfl | rfl | rfl | rfl | rfl
  all_goals first
    | (simp only [classic_default]; norm_num; done)
    | (simp only [classic_default]; norm_num
       by_cases hcodec : avctx.codec_id = CodecID.PGMYUV
       · simp only [hcodec, if_true]
       · simp only [hcodec, if_false])

/-- C4 (amended): the decoder returns failure whenever the first token is
empty, is one character long or does not begin with `P`; a longer first
token is not rejected for its length. -/
theorem short_magic_rejected (ext : Externals) (avctx : AVCodecContext) (s s0 : PNMContext)
    (buf1 tok : List Nat) (h : pnm_token s 32 = some (s0, tok))
    (hbad : tok.length < 2 ∨ tok.head? ≠ some 80) :
    ret (ff_pnm_decode_header ext avctx s buf1) = some (-1) := by
  have hg := pnm_get_of_token s s0 buf1 tok 32 h
  unfold ff_pnm_decode_header
  rw [hg]
  cases tok with
  | nil => simp [store, ret]
  | cons c tl =>
    cases tl with
    | nil =>
      by_cases hc : c = 80
      · subst hc
        simp only [store, List.cons_append, List.nil_append, List.getD_cons_zero,
          List.getD_cons_succ, ne_eq, not_true_eq_false, if_false]
        have hsch : schar 0 - 48 = -48 := by decide
        simp only [hsch]
        norm_num
        rfl
      · simp [store, ret, hc]
    | cons c2 tl2 =>
      have hc : c ≠ 80 := by
        rcases hbad with hl | hh
        · simp only [List.length_cons] at hl
          omega
        · simpa using hh
      simp [store, ret, hc]

/-- C4, witness: the buffer `P 4` and a line feed, whose first token is `P`. -/
theorem short_magic_rejected_witness :
    pnm_token (packet [80, 32, 52, 10]) 32 = some (at_pos (packet [80, 32, 52, 10]) 2, [80]) ∧
      ret (ff_pnm_decode_header ext_accept (ctx0 CodecID.PGM) (packet [80, 32, 52, 10]) buf0)
        = some (-1) :=
  ⟨by decide,
    short_magic_rejected ext_accept (ctx0 CodecID.PGM) (packet [80, 32, 52, 10])
      (at_pos (packet [80, 32, 52, 10]) 2) buf0 [80] (by decide) (by decide)⟩

/-- C4, counterexample: the first token of `P5x 4 10 255` is three characters
long, and the header is decoded as variant P5 with return code 0. -/
theorem long_magic_counterexample :
    pnm_token (packet long_magic_header) 32
        = some (at_pos (packet long_magic_header) 4, [80, 53, 120]) ∧
      ff_pnm_decode_header ext_accept (ctx0 CodecID.PGM) (packet long_magic_header) buf0 =
        some (0, { codec_id := CodecID.PGM, pix_fmt := PixelFormat.GRAY8, width := 4, height := 10 },
          { mem := long_magic_header, bytestream := 13, bytestream_end := 13, type := 5,
            maxval := 255 }) :=
  ⟨by decide, by decide⟩

/-! ## The variant tag -/

theorem pnm_get_frame (sc sc' : PNMContext) (str b : List Nat) (n : Nat)
    (h : pnm_get sc str n = some (sc', b)) : ∃ p, sc' = at_pos sc p := by
  obtain ⟨tok, p, h1, _⟩ := pnm_get_total sc str n
  rw [h1] at h
  simp only [Option.some.injEq, Prod.mk.injEq] at h
  exact ⟨p, h.1.symm⟩

theorem pnm_get_type (sc sc' : PNMContext) (str b : List Nat) (n : Nat)
    (h : pnm_get sc str n = some (sc', b)) : sc'.type = sc.type := by
  obtain ⟨p, rfl⟩ := pnm_get_frame sc sc' str b n h
  rfl

theorem yuv_check_state (avctx : AVCodecContext) (s : PNMContext) :
    (yuv_check avctx s).2.2 = s := by
  unfold yuv_check
  simp only []
  repeat' split
  all_goals rfl

theorem maxval_resolve_type (ext : Externals) (avctx : AVCodecContext) (s : PNMContext)
    (m0 : Int) : (maxval_resolve ext avctx s m0).2.2.type = s.type := by
  unfold maxval_resolve
  simp only []
  repeat' split
  all_goals first
    | rfl
    | (rw [yuv_check_state])

theorem classic_maxval_type (ext : Externals) (avctx : AVCodecContext) (s : PNMContext)
    (b : List Nat) (r : Int × AVCodecContext × PNMContext)
    (h : classic_maxval ext avctx s b = some r) : r.2.2.type = s.type := by
  unfold classic_maxval at h
  split at h
  · obtain ⟨tok, p, h1, _⟩ := pnm_get_total s b 32
    rw [h1] at h
    simp only [Option.some.injEq] at h
    rw [← h, maxval_resolve_type]
    rfl
  · simp only [Option.some.injEq] at h
    rw [← h, yuv_check_state]

theorem classic_type (ext : Externals) (avctx : AVCodecContext) (s : PNMContext)
    (b : List Nat) (r : Int × AVCodecContext × PNMContext)
    (h : classic ext avctx s b = some r) : r.2.2.type = s.type := by
  unfold classic at h
  obtain ⟨tok, p, h1, _⟩ := pnm_get_total s b 32
  rw [h1] at h
  simp only [] at h
  split at h
  · simp only [Option.some.injEq] at h
    rw [← h]
    rfl
  · obtain ⟨tok2, p2, h2, _⟩ := pnm_get_total (at_pos s p) (store b tok) 32
    rw [h2] at h
    simp only [] at h
    split at h
    · simp only [Option.some.injEq] at h
      rw [← h]
      rfl
    · rw [classic_maxval_type ext _ _ _ r h]
      rfl

theorem pam_loop_type : ∀ (fuel : Nat) (s : PNMContext) (b : List Nat) (t : PamTags)
    (r : Bool × PNMContext × PamTags), pam_loop fuel s b t = some r → r.2.1.type = s.type := by
  intro fuel
  induction fuel with
  | zero => intro s b t r h; simp [pam_loop] at h
  | succ n ih =>
    intro s b t r h
    unfold pam_loop at h
    obtain ⟨tok, p, h1, _⟩ := pnm_get_total s b 32
    rw [h1] at h
    simp only [] at h
    obtain ⟨tok2, p2, h2, _⟩ := pnm_get_total (at_pos s p) (store b tok) 32
    obtain ⟨tok3, p3, h3, _⟩ := pnm_get_total (at_pos s p) t.tuple_type 32
    rw [h2, h3] at h
    simp only [] at h
    repeat' split at h
    all_goals first
      | (rw [ih _ _ _ _ h]; rfl)
      | (simp only [Option.some.injEq] at h; rw [← h]; rfl)

theorem pnm_get_maxval (sc sc' : PNMContext) (str b : List Nat) (n : Nat)
    (h : pnm_get sc str n = some (sc', b)) : sc'.maxval = sc.maxval := by
  obtain ⟨p, rfl⟩ := pnm_get_frame sc sc' str b n h
  rfl

theorem pam_loop_maxval : ∀ (fuel : Nat) (s : PNMContext) (b : List Nat) (t : PamTags)
    (r : Bool × PNMContext × PamTags), pam_loop fuel s b t = some r →
      r.2.1.maxval = s.maxval := by
  intro fuel
  induction fuel with
  | zero => intro s b t r h; simp [pam_loop] at h
  | succ n ih =>
    intro s b t r h
    unfold pam_loop at h
    obtain ⟨tok, p, h1, _⟩ := pnm_get_total s b 32
    rw [h1] at h
    simp only [] at h
    obtain ⟨tok2, p2, h2, _⟩ := pnm_get_total (at_pos s p) (store b tok) 32
    obtain ⟨tok3, p3, h3, _⟩ := pnm_get_total (at_pos s p) t.tuple_type 32
    rw [h2, h3] at h
    simp only [] at h
    repeat' split at h
    all_goals first
      | (rw [ih _ _ _ _ h]; rfl)
      | (simp only [Option.some.injEq] at h; rw [← h]; rfl)

theorem pam_finish_type (ext : Externals) (avctx : AVCodecContext) (s : PNMContext)
    (t : PamTags) : (pam_finish ext avctx s t).2.2.type = s.type := by
  unfold pam_finish
  simp only []
  repeat' split
  all_goals rfl

/-- A successful decode stores the variant digit: the tag is the second
character of the magic token minus `'0'` as computed with `char` arithmetic,
and it lies in 1..7. -/
theorem decode_type (ext : Externals) (avctx avctx' : AVCodecContext) (s s0 s' : PNMContext)
    (buf1 b1 : List Nat) (h : pnm_get s buf1 32 = some (s0, b1))
    (hff : ff_pnm_decode_header ext avctx s buf1 = some (0, avctx', s')) :
    s'.type = schar (b1.getD 1 0) - 48 ∧ 1 ≤ s'.type ∧ s'.type ≤ 7 := by
  unfold ff_pnm_decode_header at hff
  rw [h] at hff
  simp only [] at hff
  split at hff
  · simp at hff
  · split at hff
    · rename_i hc
      have := classic_type ext _ _ _ _ hff
      simp only [] at this hc
      rw [this]
      omega
    · split at hff
      · rename_i hc
        split at hff
        · have := classic_type ext _ _ _ _ hff
          simp only [] at this hc
          rw [this]
          omega
        · have := classic_type ext _ _ _ _ hff
          simp only [] at this hc
          rw [this]
          omega
      · split at hff
        · rename_i hc
          have := classic_type ext _ _ _ _ hff
          simp only [] at this hc
          rw [this]
          omega
        · split at hff
          · rename_i hc
            split at hff
            · simp at hff
            · simp at hff
            · rename_i s2 t hl
              have h1 := pam_loop_type _ _ _ _ _ hl
              simp only [Option.some.injEq] at hff
              have h2 := pam_finish_type ext avctx s2 t
              rw [hff] at h2
              simp only [] at h1 h2 hc
              rw [h2, h1]
              omega
          · simp at hff

/-- C5: when the second character of the magic token (a byte) is not one of
`'1'`..`'7'` the decoder returns failure; and whenever the decoder returns 0
the stored variant tag `s->type` is in 1..7 and equals that character minus
`'0'`. -/
theorem variant_tag (ext : Externals) (avctx : AVCodecContext) (s s0 : PNMContext)
    (buf1 b1 : List Nat) (h : pnm_get s buf1 32 = some (s0, b1))
    (hbyte : b1.getD 1 0 < 256) :
    (¬ (49 ≤ b1.getD 1 0 ∧ b1.getD 1 0 ≤ 55) →
      ret (ff_pnm_decode_header ext avctx s buf1) = some (-1)) ∧
    (∀ avctx' s', ff_pnm_decode_header ext avctx s buf1 = some (0, avctx', s') →
      1 ≤ s'.type ∧ s'.type ≤ 7 ∧ s'.type = (b1.getD 1 0 : Int) - 48) := by
  constructor
  · intro hbad
    have hT : schar (b1.getD 1 0) - 48 < 1 ∨ 7 < schar (b1.getD 1 0) - 48 := by
      unfold schar
      split <;> omega
    unfold ff_pnm_decode_header
    rw [h]
    simp only []
    split
    · rfl
    · rw [if_neg (by omega), if_neg (by omega), if_neg (by omega), if_neg (by omega)]
      rfl
  · intro avctx' s' hff
    obtain ⟨h1, h2, h3⟩ := decode_type ext avctx avctx' s s0 s' buf1 b1 h hff
    refine ⟨h2, h3, ?_⟩
    rw [h1] at h2 h3 ⊢
    unfold schar at h2 h3 ⊢
    split at h2 <;> split <;> omega

/-- C5, witness: the header `P8 4 4 255` is rejected. -/
theorem variant_tag_witness :
    ret (ff_pnm_decode_header ext_accept (ctx0 CodecID.PGM)
      (packet [80, 56, 32, 52, 32, 52, 32, 50, 53, 53, 10]) buf0) = some (-1) :=
  (variant_tag ext_accept (ctx0 CodecID.PGM) (packet [80, 56, 32, 52, 32, 52, 32, 50, 53, 53, 10])
    (at_pos (packet [80, 56, 32, 52, 32, 52, 32, 50, 53, 53, 10]) 3) buf0 (store buf0 [80, 56])
    (by decide) (by decide)).1 (by decide)

/-! ## Claims about width and height -/

/-- C6: for every classic magic (`P1`..`P6`), the decoder returns failure when
`atoi` of the width token is not positive, when `atoi` of the height token is
not positive, and when the size predicate rejects (width, height). -/
theorem classic_bad_size_rejected (ext : Externals) (avctx : AVCodecContext)
    (s s0 s2 : PNMContext) (buf1 b1 b2 : List Nat)
    (h1 : pnm_get s buf1 32 = some (s0, b1)) (hP : b1.getD 0 0 = 80)
    (hd : 49 ≤ b1.getD 1 0 ∧ b1.getD 1 0 ≤ 54)
    (h2 : pnm_get { s0 with type := (b1.getD 1 0 : Int) - 48 } b1 32 = some (s2, b2)) :
    (atoi (cstr b2) ≤ 0 → ret (ff_pnm_decode_header ext avctx s buf1) = some (-1)) ∧
    (∀ s3 b3, pnm_get s2 b2 32 = some (s3, b3) →
      atoi (cstr b3) ≤ 0 ∨ ext.av_image_check_size (atoi (cstr b2)) (atoi (cstr b3)) ≠ 0 →
      ret (ff_pnm_decode_header ext avctx s buf1) = some (-1)) := by
  rw [decode_magic_classic ext avctx s s0 buf1 b1 h1 hP hd]
  unfold classic
  rw [h2]
  simp only []
  constructor
  · intro hw
    rw [if_pos hw]
    rfl
  · intro s3 b3 h3 hbad
    by_cases hw : atoi (cstr b2) ≤ 0
    · rw [if_pos hw]
      rfl
    · rw [if_neg hw, h3]
      simp only []
      rw [if_pos hbad]
      rfl

/-- C6, witness: the header `P5 0 10 255` is rejected for its width. -/
theorem classic_bad_size_rejected_witness :
    atoi (cstr (store (store buf0 [80, 53]) [48])) ≤ 0 ∧
      ret (ff_pnm_decode_header ext_accept (ctx0 CodecID.PGM)
        (packet [80, 53, 32, 48, 32, 49, 48, 32, 50, 53, 53, 10]) buf0) = some (-1) :=
  ⟨by decide,
    (classic_bad_size_rejected ext_accept (ctx0 CodecID.PGM)
      (packet [80, 53, 32, 48, 32, 49, 48, 32, 50, 53, 53, 10])
      (at_pos (packet [80, 53, 32, 48, 32, 49, 48, 32, 50, 53, 53, 10]) 3)
      (at_pos { packet [80, 53, 32, 48, 32, 49, 48, 32, 50, 53, 53, 10] with type := 5 } 5)
      buf0 (store buf0 [80, 53]) (store (store buf0 [80, 53]) [48])
      (by decide) (by decide) (by decide) (by decide)).1 (by decide)⟩

/-! ## Claims about maxval -/

theorem maxval_resolve_recover (ext : Externals) (avctx : AVCodecContext) (s : PNMContext)
    (m0 : Int) (h : m0 ≤ 0) : maxval_resolve ext avctx s m0 = maxval_resolve ext avctx s 255 := by
  unfold maxval_resolve
  simp [h]

theorem yuv_check_indep (avctx : AVCodecContext) (s s0 : PNMContext) :
    yuv_check avctx s = ((yuv_check avctx s0).1, (yuv_check avctx s0).2.1, s) := by
  unfold yuv_check
  simp only []
  split_ifs <;> rfl

/-- The return code and the codec context computed from the maxval do not
depend on the cursor state, which only receives the maxval. -/
theorem maxval_resolve_state (ext : Externals) (avctx : AVCodecContext) (s s0 : PNMContext)
    (m0 : Int) :
    maxval_resolve ext avctx s m0 =
      ((maxval_resolve ext avctx s0 m0).1, (maxval_resolve ext avctx s0 m0).2.1,
        { s with maxval := if m0 ≤ 0 then 255 else m0 }) := by
  unfold maxval_resolve
  simp only []
  split_ifs
  all_goals first
    | rfl
    | exact yuv_check_indep _ _ _

/-- The maxval part always returns: it resolves the value `atoi` gives for
whatever token the tokenizer finds. -/
theorem classic_maxval_total (ext : Externals) (avctx : AVCodecContext) (s : PNMContext)
    (b : List Nat)
    (hpf : avctx.pix_fmt ≠ PixelFormat.MONOWHITE ∧ avctx.pix_fmt ≠ PixelFormat.MONOBLACK) :
    ∃ m0 p, classic_maxval ext avctx s b = some (maxval_resolve ext avctx (at_pos s p) m0) := by
  obtain ⟨tok, p, h1, _⟩ := pnm_get_total s b 32
  unfold classic_maxval
  rw [if_pos hpf, h1]
  exact ⟨_, p, rfl⟩

/-- C8: escalation boundary.  For every P2/P5 or P3/P6 header with valid width
and height and a codec other than PGMYUV, whatever follows the height, the
decoder returns 0 with a maxval of at least 1, and the layout is the 8-bit
default (GRAY8 / RGB24) for every maxval up to 255 and a 16-bit layout for
every maxval from 256 on: RGB48BE for P3/P6, and for P2/P5 GRAY16BE at 65535
and the native-endian GRAY16 otherwise. -/
theorem escalation_boundary (ext : Externals) (avctx : AVCodecContext) (s : PNMContext)
    (buf1 sep1 sep2 rest : List Nat) (d W H w2 : Nat)
    (hmem : s.mem.drop s.bytestream =
      80 :: d :: (sep1 ++ decimal W ++ sep2 ++ decimal H ++ w2 :: rest))
    (hd : d = 50 ∨ d = 51 ∨ d = 53 ∨ d = 54) (hcodec : avctx.codec_id ≠ CodecID.PGMYUV)
    (hsep1 : IsSep sep1) (hsep2 : IsSep sep2) (hw2 : pnm_space w2 = true)
    (hW : 0 < W ∧ W < 2147483648) (hH : 0 < H ∧ H < 2147483648)
    (hchk : ext.av_image_check_size W H = 0)
    (hend : s.bytestream + 2 + sep1.length + (decimal W).length + sep2.length
      + (decimal H).length < s.bytestream_end) :
    ∃ avctx' s', ff_pnm_decode_header ext avctx s buf1 = some (0, avctx', s') ∧
      1 ≤ s'.maxval ∧
      avctx'.pix_fmt =
        (if d = 50 ∨ d = 53 then
           (if s'.maxval ≤ 255 then PixelFormat.GRAY8
            else if s'.maxval = 65535 then PixelFormat.GRAY16BE else PIX_FMT_GRAY16 ext)
         else (if s'.maxval ≤ 255 then PixelFormat.RGB24 else PixelFormat.RGB48BE)) := by
  rw [decode_classic_wh ext avctx s buf1 sep1 sep2 rest d W H w2 hmem (by omega) hsep1 hsep2 hw2
    hW.1 hW.2 hH.1 hH.2 hchk hend]
  by_cases hgray : d = 50 ∨ d = 53
  · have hpf := classic_default_gray avctx.codec_id d hgray hcodec
    obtain ⟨m0, p, hm⟩ := classic_maxval_total ext
      { avctx with pix_fmt := classic_default avctx.codec_id d, width := W, height := H }
      (at_pos { s with type := (d : Int) - 48 }
        (s.bytestream + 2 + sep1.length + (decimal W).length + sep2.length
          + (decimal H).length + 1))
      (store (store (store buf1 [80, d]) (decimal W)) (decimal H)) (by simp [hpf])
    rw [hm, maxval_resolve_gray ext _ _ _ hpf]
    refine ⟨_, _, rfl, ?_, ?_⟩
    · simp only []
      split <;> omega
    · simp only [hgray, if_true]
      have e : ∀ x : Int, x < 256 ↔ x ≤ 255 := fun x => by omega
      simp only [e]
  · have hpf := classic_default_rgb avctx.codec_id d (by omega)
    obtain ⟨m0, p, hm⟩ := classic_maxval_total ext
      { avctx with pix_fmt := classic_default avctx.codec_id d, width := W, height := H }
      (at_pos { s with type := (d : Int) - 48 }
        (s.bytestream + 2 + sep1.length + (decimal W).length + sep2.length
          + (decimal H).length + 1))
      (store (store (store buf1 [80, d]) (decimal W)) (decimal H)) (by simp [hpf])
    rw [hm, maxval_resolve_rgb ext _ _ _ hpf]
    refine ⟨_, _, rfl, ?_, ?_⟩
    · simp only []
      split <;> omega
    · simp only [hgray, if_false]
      have e : ∀ x : Int, x < 256 ↔ x ≤ 255 := fun x => by omega
      simp only [e]

/-- C8, witness: the header `P5 4 10 256` and a line feed. -/
theorem escalation_boundary_witness :
    ∃ avctx' s', ff_pnm_decode_header ext_accept (ctx0 CodecID.PGM)
        (packet [80, 53, 32, 52, 32, 49, 48, 32, 50, 53, 54, 10]) buf0 = some (0, avctx', s') ∧
      1 ≤ s'.maxval ∧
      avctx'.pix_fmt =
        (if 53 = 50 ∨ 53 = 53 then
           (if s'.maxval ≤ 255 then PixelFormat.GRAY8
            else if s'.maxval = 65535 then PixelFormat.GRAY16BE else PIX_FMT_GRAY16 ext_accept)
         else (if s'.maxval ≤ 255 then PixelFormat.RGB24 else PixelFormat.RGB48BE)) :=
  escalation_boundary ext_accept (ctx0 CodecID.PGM)
    (packet [80, 53, 32, 52, 32, 49, 48, 32, 50, 53, 54, 10]) buf0 [32] [32] [50, 53, 54, 10]
    53 4 10 32 (by simp [packet, decimal]) (by decide) (by decide) (by simp [IsSep, pnm_space])
    (by simp [IsSep, pnm_space]) (by decide) (by decide) (by decide) rfl
    (by simp [packet, decimal])

theorem maxval_resolve_yuv (ext : Externals) (avctx : AVCodecContext) (s : PNMContext)
    (m0 : Int) (h : avctx.pix_fmt = PixelFormat.YUV420P) :
    maxval_resolve ext avctx s m0 =
      (if (if m0 ≤ 0 then 255 else m0) ≥ 256 then
        (-1, { avctx with pix_fmt := PixelFormat.NONE },
          { s with maxval := if m0 ≤ 0 then 255 else m0 })
       else yuv_check avctx { s with maxval := if m0 ≤ 0 then 255 else m0 }) := by
  unfold maxval_resolve
  simp only [h]
  split_ifs <;> first | rfl | contradiction

/-- C9: YUV reinterpretation.  With codec PGMYUV, for every P2/P5 header with
decimal tokens `W`, `H` (positive `int` values accepted by the size predicate,
`2 * H` not overflowing an `int`), whatever maxval token follows, the decoder
returns 0 exactly when the recovered maxval is below 256, `W` is even and
`2 * H` is divisible by 3, and it returns -1 otherwise; on return 0 the layout
is YUV420P, the width is `W` and the height is `2 * H / 3`. -/
theorem yuv_header (ext : Externals) (avctx : AVCodecContext) (s : PNMContext)
    (buf1 sep1 sep2 rest : List Nat) (d W H w2 : Nat)
    (hmem : s.mem.drop s.bytestream =
      80 :: d :: (sep1 ++ decimal W ++ sep2 ++ decimal H ++ w2 :: rest))
    (hd : d = 50 ∨ d = 53) (hcodec : avctx.codec_id = CodecID.PGMYUV)
    (hsep1 : IsSep sep1) (hsep2 : IsSep sep2) (hw2 : pnm_space w2 = true)
    (hW : 0 < W ∧ W < 2147483648) (hH : 0 < H ∧ 2 * H < 2147483648)
    (hchk : ext.av_image_check_size W H = 0)
    (hend : s.bytestream + 2 + sep1.length + (decimal W).length + sep2.length
      + (decimal H).length < s.bytestream_end) :
    ∃ r avctx' s', ff_pnm_decode_header ext avctx s buf1 = some (r, avctx', s') ∧
      (r = 0 ∨ r = -1) ∧
      (r = 0 ↔ (s'.maxval < 256 ∧ W % 2 = 0 ∧ (2 * H) % 3 = 0)) ∧
      (r = 0 → avctx'.pix_fmt = PixelFormat.YUV420P ∧ avctx'.width = W ∧
        avctx'.height = ((2 * H / 3 : Nat) : Int)) := by
  rw [decode_classic_wh ext avctx s buf1 sep1 sep2 rest d W H w2 hmem (by omega) hsep1 hsep2 hw2
    hW.1 hW.2 hH.1 (by omega) hchk hend]
  have hpf := classic_default_yuv avctx.codec_id d hd hcodec
  obtain ⟨m0, p, hm⟩ := classic_maxval_total ext
    { avctx with pix_fmt := classic_default avctx.codec_id d, width := W, height := H }
    (at_pos { s with type := (d : Int) - 48 }
      (s.bytestream + 2 + sep1.length + (decimal W).length + sep2.length
        + (decimal H).length + 1))
    (store (store (store buf1 [80, d]) (decimal W)) (decimal H)) (by simp [hpf])
  rw [hm, maxval_resolve_yuv ext _ _ _ hpf]
  have hh : to_int ((H : Int) * 2) = ((2 * H : Nat) : Int) := by
    rw [to_int_id _ (by omega) (by omega)]
    omega
  have hmod : Int.tmod ((2 * H : Nat) : Int) 3 = (((2 * H) % 3 : Nat) : Int) := by
    rw [Int.tmod_eq_emod (by omega) (by norm_num)]
    omega
  have hdiv : Int.tdiv ((2 * H : Nat) : Int) 3 = (((2 * H) / 3 : Nat) : Int) := by
    rw [Int.tdiv_eq_ediv (by omega) (by norm_num)]
    omega
  by_cases hbig : (if m0 ≤ 0 then (255 : Int) else m0) ≥ 256
  · rw [if_pos hbig]
    refine ⟨_, _, _, rfl, Or.inr rfl, ?_, ?_⟩
    · simp only []
      constructor
      · intro h; omega
      · intro h; omega
    · intro h; omega
  · rw [if_neg hbig]
    unfold yuv_check
    simp only [hpf, if_true, hh, hmod, hdiv]
    by_cases hodd : (W : Int) % 2 ≠ 0
    · rw [if_pos hodd]
      refine ⟨_, _, _, rfl, Or.inr rfl, ?_, ?_⟩
      · constructor
        · intro h; omega
        · intro h; omega
      · intro h; omega
    · rw [if_neg hodd]
      by_cases h3 : (((2 * H) % 3 : Nat) : Int) ≠ 0
      · rw [if_pos h3]
        refine ⟨_, _, _, rfl, Or.inr rfl, ?_, ?_⟩
        · constructor
          · intro h; omega
          · intro h; omega
        · intro h; omega
      · rw [if_neg h3]
        refine ⟨_, _, _, rfl, Or.inl rfl, ?_, ?_⟩
        · simp only [true_iff]
          refine ⟨by omega, by omega, by omega⟩
        · intro _
          exact ⟨rfl, rfl, rfl⟩

/-- C9, witness: `P5 3 10 255` decoded as PGMYUV does not return 0. -/
theorem yuv_header_witness :
    ∃ r avctx' s', ff_pnm_decode_header ext_accept (ctx0 CodecID.PGMYUV)
        (packet [80, 53, 32, 51, 32, 49, 48, 32, 50, 53, 53, 10]) buf0 = some (r, avctx', s') ∧
      (r = 0 ∨ r = -1) ∧
      (r = 0 ↔ (s'.maxval < 256 ∧ 3 % 2 = 0 ∧ (2 * 10) % 3 = 0)) ∧
      (r = 0 → avctx'.pix_fmt = PixelFormat.YUV420P ∧ avctx'.width = (3 : Nat) ∧
        avctx'.height = ((2 * 10 / 3 : Nat) : Int)) :=
  yuv_header ext_accept (ctx0 CodecID.PGMYUV)
    (packet [80, 53, 32, 51, 32, 49, 48, 32, 50, 53, 53, 10]) buf0 [32] [32] [50, 53, 53, 10]
    53 3 10 32 (by simp [packet, decimal]) (by decide) (by decide) (by simp [IsSep, pnm_space])
    (by simp [IsSep, pnm_space]) (by decide) (by decide) (by decide) rfl
    (by simp [packet, decimal])

/-- C7 (amended): for every classic header with a maxval token (P2, P3, P5,
P6) with valid width and height whose maxval token is followed by a
white-space byte inside the buffer and has an `atoi` value of at most 0, the
decoder returns the same return code, width, height and pixel format as for
the same header with the maxval token replaced by `255`, the maxval is 255 in
both, and the return code is 0 unless the codec is PGMYUV. -/
theorem maxval_recovered (ext : Externals) (avctx : AVCodecContext) (sA sB : PNMContext)
    (bufA bufB sep1 sep2 sep3 mtok rest : List Nat) (d W H w : Nat)
    (hmemA : sA.mem.drop sA.bytestream =
      80 :: d :: (sep1 ++ decimal W ++ sep2 ++ decimal H ++ sep3 ++ mtok ++ w :: rest))
    (hmemB : sB.mem.drop sB.bytestream =
      80 :: d :: (sep1 ++ decimal W ++ sep2 ++ decimal H ++ sep3 ++ decimal 255 ++ w :: rest))
    (hendA : sA.bytestream + 2 + sep1.length + (decimal W).length + sep2.length
      + (decimal H).length + sep3.length + mtok.length < sA.bytestream_end)
    (hendB : sB.bytestream + 2 + sep1.length + (decimal W).length + sep2.length
      + (decimal H).length + sep3.length + (decimal 255).length < sB.bytestream_end)
    (hd : d = 50 ∨ d = 51 ∨ d = 53 ∨ d = 54) (hsep1 : IsSep sep1) (hsep2 : IsSep sep2)
    (hsep3 : IsSep sep3) (hne : mtok ≠ []) (hns : ∀ b ∈ mtok, pnm_space b = false)
    (hhd : mtok.head? ≠ some 35) (hw : pnm_space w = true)
    (hW : 0 < W ∧ W < 2147483648) (hH : 0 < H ∧ H < 2147483648)
    (hchk : ext.av_image_check_size W H = 0)
    (hm : atoi (cstr (mtok.take 31)) ≤ 0) :
    ∃ r avctx' sa sb,
      ff_pnm_decode_header ext avctx sA bufA = some (r, avctx', sa) ∧
      ff_pnm_decode_header ext avctx sB bufB = some (r, avctx', sb) ∧
      sa.maxval = 255 ∧ sb.maxval = 255 ∧ (avctx.codec_id ≠ CodecID.PGMYUV → r = 0) := by
  rw [decode_classic_maxval ext avctx sA bufA sep1 sep2 sep3 mtok rest d W H w hmemA hd hsep1
    hsep2 hsep3 hne hns hhd hw hW.1 hW.2 hH.1 hH.2 hchk hendA]
  rw [decode_classic_maxval ext avctx sB bufB sep1 sep2 sep3 (decimal 255) rest d W H w hmemB hd
    hsep1 hsep2 hsep3 (decimal_ne_nil 255 (by norm_num)) (decimal_not_space 255)
    (decimal_head 255) hw hW.1 hW.2 hH.1 hH.2 hchk hendB]
  rw [maxval_resolve_recover ext _ _ _ hm, atoi_take_decimal 255 (by norm_num) (by norm_num)]
  simp only [Nat.cast_ofNat]
  rw [maxval_resolve_state ext _ (at_pos { sA with type := (d : Int) - 48 } _) sB 255,
    maxval_resolve_state ext _ (at_pos { sB with type := (d : Int) - 48 } _) sB 255]
  refine ⟨_, _, _, _, rfl, rfl, by simp, by simp, ?_⟩
  intro hcodec
  by_cases hgray : d = 50 ∨ d = 53
  · rw [maxval_resolve_gray ext _ _ _ (classic_default_gray _ d hgray hcodec)]
  · rw [maxval_resolve_rgb ext _ _ _ (classic_default_rgb _ d (by omega))]

/-- C7, witness: `P5 4 10 -3` and `P5 4 10 255`, each closed by a line feed. -/
theorem maxval_recovered_witness :
    atoi (cstr ([45, 51].take 31)) ≤ 0 ∧
    ∃ r avctx' sa sb,
      ff_pnm_decode_header ext_accept (ctx0 CodecID.PGM)
        (packet [80, 53, 32, 52, 32, 49, 48, 32, 45, 51, 10]) buf0 = some (r, avctx', sa) ∧
      ff_pnm_decode_header ext_accept (ctx0 CodecID.PGM)
        (packet [80, 53, 32, 52, 32, 49, 48, 32, 50, 53, 53, 10]) buf0 = some (r, avctx', sb) ∧
      sa.maxval = 255 ∧ sb.maxval = 255 ∧ (CodecID.PGM ≠ CodecID.PGMYUV → r = 0) :=
  ⟨by decide,
    maxval_recovered ext_accept (ctx0 CodecID.PGM)
      (packet [80, 53, 32, 52, 32, 49, 48, 32, 45, 51, 10])
      (packet [80, 53, 32, 52, 32, 49, 48, 32, 50, 53, 53, 10]) buf0 buf0 [32] [32] [32] [45, 51] []
      53 4 10 10 (by simp [packet, decimal]) (by simp [packet, decimal])
      (by simp [packet, decimal]) (by simp [packet, decimal]) (by decide)
      (by simp [IsSep, pnm_space]) (by simp [IsSep, pnm_space]) (by simp [IsSep, pnm_space])
      (by decide) (by decide) (by decide) (by decide) (by decide) (by decide) rfl (by decide)⟩

/-- C7, counterexample: the buffers that are exactly `P5 4 10 -3` and
`P5 4 10 255` (the maxval token runs to the last byte of the buffer).  The
first decodes with maxval 255, the second with maxval 25. -/
theorem maxval_recovered_counterexample :
    atoi [45, 51] ≤ 0 ∧
    ff_pnm_decode_header ext_accept (ctx0 CodecID.PGM)
        (packet [80, 53, 32, 52, 32, 49, 48, 32, 45, 51]) buf0 =
      some (0, { codec_id := CodecID.PGM, pix_fmt := PixelFormat.GRAY8, width := 4, height := 10 },
        { mem := [80, 53, 32, 52, 32, 49, 48, 32, 45, 51], bytestream := 10,
          bytestream_end := 10, type := 5, maxval := 255 }) ∧
    ff_pnm_decode_header ext_accept (ctx0 CodecID.PGM)
        (packet [80, 53, 32, 52, 32, 49, 48, 32, 50, 53, 53]) buf0 =
      some (0, { codec_id := CodecID.PGM, pix_fmt := PixelFormat.GRAY8, width := 4, height := 10 },
        { mem := [80, 53, 32, 52, 32, 49, 48, 32, 50, 53, 53], bytestream := 11,
          bytestream_end := 11, type := 5, maxval := 25 }) :=
  ⟨by decide, by decide, by decide⟩

/-! ## Claims about the check after the P7 loop -/

/-- Last write wins: a tag written by the lines satisfying `P` holds, after
the lines have been applied, what the last such line wrote, and its old value
when there is no such line. -/
theorem fold_last_val {α : Type} (g : PamTags → α) (P : PamEntry → Bool) (v : PamEntry → α)
    (hkeep : ∀ t e, P e = false → g (pam_apply t e) = g t)
    (hset : ∀ t e, P e = true → g (pam_apply t e) = v e) :
    ∀ (es : List PamEntry) (t : PamTags),
      g (es.foldl pam_apply t) = (((es.filter P).getLast?).map v).getD (g t) := by
  intro es
  induction es using List.reverseRecOn with
  | nil => intro t; rfl
  | append_singleton l a ih =>
    intro t
    rw [List.foldl_append, List.filter_append]
    simp only [List.foldl_cons, List.foldl_nil]
    by_cases hp : P a = true
    · rw [hset _ a hp]
      simp [List.filter, hp]
    · have hp' : P a = false := by simpa using hp
      rw [hkeep _ a hp', ih t]
      simp [List.filter, hp']

theorem pam_finish_fails (ext : Externals) (avctx : AVCodecContext) (s : PNMContext)
    (t : PamTags)
    (h : t.w ≤ 0 ∨ t.h ≤ 0 ∨ t.maxval ≤ 0 ∨ t.depth ≤ 0 ∨ t.tuple_type.getD 0 0 = 0
      ∨ ext.av_image_check_size t.w t.h ≠ 0) :
    pam_finish ext avctx s t = (-1, avctx, s) := by
  unfold pam_finish
  rw [if_pos h]

theorem tags_w (es : List PamEntry) :
    (es.foldl pam_apply pam_init).w = ((last_val (has_key kw_WIDTH) es).map tag_value).getD (-1) := by
  rw [fold_last_val (fun t => t.w) (has_key kw_WIDTH) (fun e => tag_value e.val)
    (fun t e h => pam_apply_w_keep t e (by simpa [has_key] using h))
    (fun t e h => pam_apply_w t e (by simpa [has_key] using h)) es pam_init]
  simp [last_val, pam_init, Option.map_map, Function.comp_def]

theorem tags_h (es : List PamEntry) :
    (es.foldl pam_apply pam_init).h = ((last_val (has_key kw_HEIGHT) es).map tag_value).getD (-1) := by
  rw [fold_last_val (fun t => t.h) (has_key kw_HEIGHT) (fun e => tag_value e.val)
    (fun t e h => pam_apply_h_keep t e (by simpa [has_key] using h))
    (fun t e h => pam_apply_h t e (by simpa [has_key] using h)) es pam_init]
  simp [last_val, pam_init, Option.map_map, Function.comp_def]

theorem tags_depth (es : List PamEntry) :
    (es.foldl pam_apply pam_init).depth
      = ((last_val (has_key kw_DEPTH) es).map tag_value).getD (-1) := by
  rw [fold_last_val (fun t => t.depth) (has_key kw_DEPTH) (fun e => tag_value e.val)
    (fun t e h => pam_apply_depth_keep t e (by simpa [has_key] using h))
    (fun t e h => pam_apply_depth t e (by simpa [has_key] using h)) es pam_init]
  simp [last_val, pam_init, Option.map_map, Function.comp_def]

theorem tags_maxval (es : List PamEntry) :
    (es.foldl pam_apply pam_init).maxval
      = ((last_val (has_key kw_MAXVAL) es).map tag_value).getD (-1) := by
  rw [fold_last_val (fun t => t.maxval) (has_key kw_MAXVAL) (fun e => tag_value e.val)
    (fun t e h => pam_apply_maxval_keep t e (by simpa [has_key] using h))
    (fun t e h => pam_apply_maxval t e (by simpa [has_key] using h)) es pam_init]
  simp [last_val, pam_init, Option.map_map, Function.comp_def]

theorem tags_tuple (es : List PamEntry) :
    (es.foldl pam_apply pam_init).tuple_type.getD 0 0
      = ((last_val has_tuple_key es).map (fun v => (v.take 31).headD 0)).getD 0 := by
  rw [fold_last_val (fun t => t.tuple_type.getD 0 0) has_tuple_key
    (fun e => (e.val.take 31).headD 0)
    (fun t e h => pam_apply_tuple_keep t e (by simpa [has_tuple_key] using h))
    (fun t e h => pam_apply_tuple t e (by simpa [has_tuple_key] using h)) es pam_init]
  simp [last_val, pam_init, Option.map_map, Function.comp_def]

theorem nonpos_of_last (o : Option (List Nat)) (h : ∀ v, o = some v → tag_value v ≤ 0) :
    (o.map tag_value).getD (-1) ≤ 0 := by
  cases o with
  | none => simp
  | some v => simpa using h v rfl

/-- The check after the loop on a header made of key/value lines: the tags
are the last supplied values. -/
theorem pam_lines_rejected (ext : Externals) (avctx : AVCodecContext) (s : PNMContext)
    (buf1 sep0 rest : List Nat) (es : List PamEntry) (w_end : Nat)
    (hmem : s.mem.drop s.bytestream =
      80 :: 55 :: (sep0 ++ render_all es ++ kw_ENDHDR ++ w_end :: rest))
    (hend : s.bytestream + 2 + sep0.length + (render_all es).length + 6 < s.bytestream_end)
    (hsep0 : IsSep sep0) (hw : pnm_space w_end = true) (hval : ∀ e ∈ es, ValidEntry e)
    (hbad : (∀ v, last_val (has_key kw_WIDTH) es = some v → tag_value v ≤ 0) ∨
      (∀ v, last_val (has_key kw_HEIGHT) es = some v → tag_value v ≤ 0) ∨
      (∀ v, last_val (has_key kw_DEPTH) es = some v → tag_value v ≤ 0) ∨
      (∀ v, last_val (has_key kw_MAXVAL) es = some v → tag_value v ≤ 0) ∨
      (∀ v, last_val has_tuple_key es = some v → (v.take 31).headD 0 = 0) ∨
      (∃ wv hv, last_val (has_key kw_WIDTH) es = some wv ∧
        last_val (has_key kw_HEIGHT) es = some hv ∧
        ext.av_image_check_size (tag_value wv) (tag_value hv) ≠ 0)) :
    ff_pnm_decode_header ext avctx s buf1 =
      some (-1, avctx, at_pos { s with type := 7 }
        (s.bytestream + 2 + sep0.length + (render_all es).length + 7)) := by
  rw [decode_pam ext avctx s buf1 sep0 rest es w_end hmem hend hsep0 hw hval]
  rw [pam_finish_fails]
  rw [tags_w, tags_h, tags_depth, tags_maxval, tags_tuple]
  rcases hbad with h | h | h | h | h | ⟨wv, hv, h1, h2, h3⟩
  · exact Or.inl (nonpos_of_last _ h)
  · exact Or.inr (Or.inl (nonpos_of_last _ h))
  · exact Or.inr (Or.inr (Or.inr (Or.inl (nonpos_of_last _ h))))
  · exact Or.inr (Or.inr (Or.inl (nonpos_of_last _ h)))
  · refine Or.inr (Or.inr (Or.inr (Or.inr (Or.inl ?_))))
    cases ho : last_val has_tuple_key es with
    | none => simp
    | some v => simpa using h v ho
  · refine Or.inr (Or.inr (Or.inr (Or.inr (Or.inr ?_))))
    rw [h1, h2]
    simpa using h3

/-- The check after the loop on any buffer: when the loop leaves at `ENDHDR`
with a tag that is not positive, an empty tuple type or a rejected size, the
decoder returns -1. -/
theorem pam_bad_tags_rejected (ext : Externals) (avctx : AVCodecContext) (s s0 s2 : PNMContext)
    (buf1 b1 : List Nat) (t : PamTags) (h : pnm_get s buf1 32 = some (s0, b1))
    (hP : b1.getD 0 0 = 80) (h7 : b1.getD 1 0 = 55)
    (hloop : pam_loop (s0.bytestream_end - s0.bytestream + 1) { s0 with type := 7 } b1 pam_init
      = some (true, s2, t))
    (hbad : t.w ≤ 0 ∨ t.h ≤ 0 ∨ t.maxval ≤ 0 ∨ t.depth ≤ 0 ∨ t.tuple_type.getD 0 0 = 0
      ∨ ext.av_image_check_size t.w t.h ≠ 0) :
    ff_pnm_decode_header ext avctx s buf1 = some (-1, avctx, s2) := by
  have hsch : schar 55 - 48 = 7 := by decide
  unfold ff_pnm_decode_header
  rw [h]
  simp only [hP, h7, hsch, ne_eq, not_true_eq_false, if_false]
  norm_num
  rw [hloop]
  simp only []
  rw [pam_finish_fails ext avctx s2 t hbad]

/-- C10: for every buffer whose magic token is `P7` and on which the key/value
loop reaches `ENDHDR`, the decoder returns -1 (with the codec context as it
was) when one of the tags width, height, maxval, depth is not positive, when
the tuple type is empty and when the size predicate rejects (width, height);
and for every header made of key/value lines closed by `ENDHDR`, this is the
case when one of WIDTH, HEIGHT, DEPTH, MAXVAL was never supplied or was last
supplied with a value of at most 0, when no tuple type was supplied or the
last one supplied is empty, and when the size predicate rejects the last
supplied width and height.  The stored maxval is left as it was: a
non-positive MAXVAL is not replaced by 255. -/
theorem pam_missing_tag_rejected (ext : Externals) (avctx : AVCodecContext) (s : PNMContext)
    (buf1 : List Nat) :
    (∀ (s0 s2 : PNMContext) (b1 : List Nat) (t : PamTags),
      pnm_get s buf1 32 = some (s0, b1) → b1.getD 0 0 = 80 → b1.getD 1 0 = 55 →
      pam_loop (s0.bytestream_end - s0.bytestream + 1) { s0 with type := 7 } b1 pam_init
        = some (true, s2, t) →
      (t.w ≤ 0 ∨ t.h ≤ 0 ∨ t.maxval ≤ 0 ∨ t.depth ≤ 0 ∨ t.tuple_type.getD 0 0 = 0
        ∨ ext.av_image_check_size t.w t.h ≠ 0) →
      ff_pnm_decode_header ext avctx s buf1 = some (-1, avctx, s2) ∧ s2.maxval = s.maxval) ∧
    (∀ (sep0 rest : List Nat) (es : List PamEntry) (w_end : Nat),
      s.mem.drop s.bytestream =
        80 :: 55 :: (sep0 ++ render_all es ++ kw_ENDHDR ++ w_end :: rest) →
      s.bytestream + 2 + sep0.length + (render_all es).length + 6 < s.bytestream_end →
      IsSep sep0 → pnm_space w_end = true → (∀ e ∈ es, ValidEntry e) →
      ((∀ v, last_val (has_key kw_WIDTH) es = some v → tag_value v ≤ 0) ∨
        (∀ v, last_val (has_key kw_HEIGHT) es = some v → tag_value v ≤ 0) ∨
        (∀ v, last_val (has_key kw_DEPTH) es = some v → tag_value v ≤ 0) ∨
        (∀ v, last_val (has_key kw_MAXVAL) es = some v → tag_value v ≤ 0) ∨
        (∀ v, last_val has_tuple_key es = some v → (v.take 31).headD 0 = 0) ∨
        (∃ wv hv, last_val (has_key kw_WIDTH) es = some wv ∧
          last_val (has_key kw_HEIGHT) es = some hv ∧
          ext.av_image_check_size (tag_value wv) (tag_value hv) ≠ 0)) →
      ff_pnm_decode_header ext avctx s buf1 =
        some (-1, avctx, at_pos { s with type := 7 }
          (s.bytestream + 2 + sep0.length + (render_all es).length + 7))) := by
  constructor
  · intro s0 s2 b1 t h hP h7 hloop hbad
    refine ⟨pam_bad_tags_rejected ext avctx s s0 s2 buf1 b1 t h hP h7 hloop hbad, ?_⟩
    have h1 := pam_loop_maxval _ _ _ _ _ hloop
    have h2 := pnm_get_maxval s s0 buf1 b1 32 h
    simp only [] at h1
    rw [h1, h2]
  · intro sep0 rest es w_end hmem hend hsep0 hw hval hbad
    exact pam_lines_rejected ext avctx s buf1 sep0 rest es w_end hmem hend hsep0 hw hval hbad

/-- C10, witness: a P7 header without a `WIDTH` line is rejected. -/
theorem pam_missing_tag_rejected_witness :
    last_val (has_key kw_WIDTH) no_width_lines = none ∧
      ff_pnm_decode_header ext_accept (ctx0 CodecID.PAM) (packet no_width_header) buf0 =
        some (-1, ctx0 CodecID.PAM, at_pos { packet no_width_header with type := 7 }
          ((packet no_width_header).bytestream + 2 + [10].length
            + (render_all no_width_lines).length + 7)) :=
  ⟨by decide,
    (pam_missing_tag_rejected ext_accept (ctx0 CodecID.PAM) (packet no_width_header) buf0).2
      [10] [] no_width_lines 10 (by decide) (by decide) (by simp [IsSep, pnm_space]) (by decide)
      (by simp [no_width_lines, ValidEntry, IsSep, pnm_space, kw_HEIGHT, kw_WIDTH, kw_DEPTH,
        kw_MAXVAL, kw_TUPLTYPE, kw_TUPLETYPE])
      (Or.inl (by
        intro v hv
        have : last_val (has_key kw_WIDTH) no_width_lines = none := by decide
        rw [this] at hv
        cases hv))⟩

/-! ## Claims about the end of the P7 loop -/

theorem pnm_token_of_get (sc sc' : PNMContext) (str b : List Nat) (n : Nat)
    (h : pnm_get sc str n = some (sc', b)) :
    ∃ tok, pnm_token sc n = some (sc', tok) ∧ b = store str tok := by
  unfold pnm_get at h
  cases ht : pnm_token sc n with
  | none => rw [ht] at h; cases h
  | some r =>
    obtain ⟨s2, tok⟩ := r
    rw [ht] at h
    simp only [Option.some.injEq, Prod.mk.injEq] at h
    exact ⟨tok, by rw [h.1], h.2.symm⟩

/-- The loop leaves by `break` only after reading `ENDHDR` in keyword position. -/
theorem pam_loop_break_keyword : ∀ (fuel : Nat) (s s2 : PNMContext) (b : List Nat)
    (t t2 : PamTags), pam_loop fuel s b t = some (true, s2, t2) →
      kw_ENDHDR ∈ pam_keywords fuel s := by
  intro fuel
  induction fuel with
  | zero => intro s s2 b t t2 h; simp [pam_loop] at h
  | succ n ih =>
    intro s s2 b t t2 h
    unfold pam_loop at h
    unfold pam_keywords
    obtain ⟨k, p, h1, _⟩ := pnm_token_total s 32
    rw [pnm_get_of_token s _ b k 32 h1] at h
    rw [h1]
    simp only [cstr_store] at h ⊢
    obtain ⟨k2, p2, h2, _⟩ := pnm_token_total (at_pos s p) 32
    rw [pnm_get_of_token _ _ (store b k) k2 32 h2,
      pnm_get_of_token _ _ t.tuple_type k2 32 h2] at h
    rw [h2]
    simp only [] at h ⊢
    by_cases c1 : cstr k = kw_WIDTH
    · rw [if_pos c1] at h
      rw [if_pos (Or.inl c1)]
      exact List.mem_cons_of_mem _ (ih _ _ _ _ _ h)
    rw [if_neg c1] at h
    by_cases c2 : cstr k = kw_HEIGHT
    · rw [if_pos c2] at h
      rw [if_pos (Or.inr (Or.inl c2))]
      exact List.mem_cons_of_mem _ (ih _ _ _ _ _ h)
    rw [if_neg c2] at h
    by_cases c3 : cstr k = kw_DEPTH
    · rw [if_pos c3] at h
      rw [if_pos (Or.inr (Or.inr (Or.inl c3)))]
      exact List.mem_cons_of_mem _ (ih _ _ _ _ _ h)
    rw [if_neg c3] at h
    by_cases c4 : cstr k = kw_MAXVAL
    · rw [if_pos c4] at h
      rw [if_pos (Or.inr (Or.inr (Or.inr (Or.inl c4))))]
      exact List.mem_cons_of_mem _ (ih _ _ _ _ _ h)
    rw [if_neg c4] at h
    by_cases c5 : cstr k = kw_TUPLTYPE ∨ cstr k = kw_TUPLETYPE
    · rw [if_pos c5] at h
      rw [if_pos (Or.inr (Or.inr (Or.inr (Or.inr c5))))]
      exact List.mem_cons_of_mem _ (ih _ _ _ _ _ h)
    rw [if_neg c5] at h
    by_cases c6 : cstr k = kw_ENDHDR
    · rw [c6]
      exact List.mem_cons_self _ _
    · rw [if_neg c6] at h
      simp at h

theorem decode_magic_pam_false (ext : Externals) (avctx : AVCodecContext) (s s0 s2 : PNMContext)
    (buf1 b1 : List Nat) (t : PamTags) (h : pnm_get s buf1 32 = some (s0, b1))
    (hP : b1.getD 0 0 = 80) (h7 : b1.getD 1 0 = 55)
    (hloop : pam_loop (s0.bytestream_end - s0.bytestream + 1) { s0 with type := 7 } b1 pam_init
      = some (false, s2, t)) :
    ff_pnm_decode_header ext avctx s buf1 = some (-1, avctx, s2) := by
  have hsch : schar 55 - 48 = 7 := by decide
  unfold ff_pnm_decode_header
  rw [h]
  simp only [hP, h7, hsch, ne_eq, not_true_eq_false, if_false]
  norm_num
  rw [hloop]

theorem decode_magic_pam_true (ext : Externals) (avctx : AVCodecContext) (s s0 s2 : PNMContext)
    (buf1 b1 : List Nat) (t : PamTags) (h : pnm_get s buf1 32 = some (s0, b1))
    (hP : b1.getD 0 0 = 80) (h7 : b1.getD 1 0 = 55)
    (hloop : pam_loop (s0.bytestream_end - s0.bytestream + 1) { s0 with type := 7 } b1 pam_init
      = some (true, s2, t)) :
    ff_pnm_decode_header ext avctx s buf1 = some (pam_finish ext avctx s2 t) := by
  have hsch : schar 55 - 48 = 7 := by decide
  unfold ff_pnm_decode_header
  rw [h]
  simp only [hP, h7, hsch, ne_eq, not_true_eq_false, if_false]
  norm_num
  rw [hloop]

theorem pam_finish_ret (ext : Externals) (avctx : AVCodecContext) (s : PNMContext)
    (t : PamTags) : (pam_finish ext avctx s t).1 = 0 ∨ (pam_finish ext avctx s t).1 = -1 := by
  unfold pam_finish
  simp only []
  split_ifs <;> simp

/-- C11: for every buffer whose magic token is `P7` (reads at or beyond the end
of the memory giving the padding byte 0): the decoder terminates with return
code 0 or -1; it returns -1 when no token read in keyword position is
`ENDHDR`; and a first keyword token that is not one of the seven keywords
(an unknown or an empty token) makes it return -1 at once, the cursor being
where that token left it. -/
theorem pam_without_endhdr_fails (ext : Externals) (avctx : AVCodecContext)
    (s s0 : PNMContext) (buf1 b1 : List Nat) (h : pnm_get s buf1 32 = some (s0, b1))
    (hP : b1.getD 0 0 = 80) (h7 : b1.getD 1 0 = 55) :
    (∃ r avctx' s', ff_pnm_decode_header ext avctx s buf1 = some (r, avctx', s') ∧
      (r = 0 ∨ r = -1)) ∧
    (kw_ENDHDR ∉ pam_keywords (s0.bytestream_end - s0.bytestream + 1) { s0 with type := 7 } →
      ret (ff_pnm_decode_header ext avctx s buf1) = some (-1)) ∧
    (∀ s2 k, pnm_token { s0 with type := 7 } 32 = some (s2, k) →
      cstr k ∉ [kw_WIDTH, kw_HEIGHT, kw_DEPTH, kw_MAXVAL, kw_TUPLTYPE, kw_TUPLETYPE, kw_ENDHDR] →
      ff_pnm_decode_header ext avctx s buf1 = some (-1, avctx, s2)) := by
  obtain ⟨r, hr⟩ := pam_loop_total (s0.bytestream_end - s0.bytestream + 1)
    { s0 with type := 7 } b1 pam_init (by simp only []; omega)
  obtain ⟨flag, s2, t⟩ := r
  refine ⟨?_, ?_, ?_⟩
  · cases flag
    · exact ⟨-1, avctx, s2, decode_magic_pam_false ext avctx s s0 s2 buf1 b1 t h hP h7 hr,
        Or.inr rfl⟩
    · rw [decode_magic_pam_true ext avctx s s0 s2 buf1 b1 t h hP h7 hr]
      exact ⟨_, _, _, rfl, pam_finish_ret ext avctx s2 t⟩
  · intro hno
    cases flag
    · rw [decode_magic_pam_false ext avctx s s0 s2 buf1 b1 t h hP h7 hr]
      rfl
    · exact absurd (pam_loop_break_keyword _ _ _ _ _ _ hr) hno
  · intro s3 k hk hunk
    simp only [List.mem_cons, List.mem_singleton, List.not_mem_nil, or_false, not_or] at hunk
    obtain ⟨u1, u2, u3, u4, u5, u6, u7⟩ := hunk
    apply decode_magic_pam_false ext avctx s s0 s3 buf1 b1 pam_init h hP h7
    unfold pam_loop
    rw [pnm_get_of_token _ _ b1 k 32 hk]
    simp only [cstr_store]
    rw [if_neg u1, if_neg u2, if_neg u3, if_neg u4, if_neg (by simp [u5, u6]), if_neg u7]


/-- C11, witness: the buffer `P7`, `WIDTH 4` and a line feed, without `ENDHDR`. -/
theorem pam_without_endhdr_fails_witness :
    kw_ENDHDR ∉ pam_keywords 8
        { at_pos (packet [80, 55, 10, 87, 73, 68, 84, 72, 32, 52, 10]) 3 with type := 7 } ∧
      ret (ff_pnm_decode_header ext_accept (ctx0 CodecID.PAM)
        (packet [80, 55, 10, 87, 73, 68, 84, 72, 32, 52, 10]) buf0) = some (-1) :=
  ⟨by decide,
    (pam_without_endhdr_fails ext_accept (ctx0 CodecID.PAM)
      (packet [80, 55, 10, 87, 73, 68, 84, 72, 32, 52, 10])
      (at_pos (packet [80, 55, 10, 87, 73, 68, 84, 72, 32, 52, 10]) 3) buf0
      (store buf0 [80, 55]) (by decide) (by decide) (by decide)).2.1 (by decide)⟩

/-! ## Claims about truncation -/

theorem take_step (n m c : Nat) (acc : List Nat) (hnm : n ≤ m) :
    (if (acc.take (n - 1)).length + 1 < n then acc.take (n - 1) ++ [c] else acc.take (n - 1)) =
      (if acc.length + 1 < m then acc ++ [c] else acc).take (n - 1) := by
  by_cases h : acc.length + 1 < n
  · have e : acc.take (n - 1) = acc := List.take_of_length_le (by omega)
    rw [e, if_pos h, if_pos (by omega)]
    exact (List.take_of_length_le (by simp; omega)).symm
  · have hl : (acc.take (n - 1)).length = n - 1 := by
      rw [List.length_take]
      omega
    rw [hl, if_neg (by omega)]
    split
    · rw [List.take_append_of_le_length (by omega)]
    · rfl

/-- Accumulating with capacity `n` gives the first `n - 1` characters of what
accumulating with a larger capacity gives, and the same cursor. -/
theorem pnm_accum_take (n m : Nat) (hnm : n ≤ m) : ∀ (fuel : Nat) (sc : PNMContext) (c : Nat)
    (acc : List Nat),
    pnm_accum fuel sc c (acc.take (n - 1)) n =
      (pnm_accum fuel sc c acc m).map (fun r => (r.1.take (n - 1), r.2)) := by
  intro fuel
  induction fuel with
  | zero => intro sc c acc; rfl
  | succ k ih =>
    intro sc c acc
    unfold pnm_accum
    by_cases hc : sc.bytestream < sc.bytestream_end ∧ ¬ pnm_space c = true
    · rw [if_pos hc, if_pos hc, take_step n m c acc hnm]
      exact ih _ _ _
    · rw [if_neg hc, if_neg hc]
      rfl

theorem pnm_token_take (sc : PNMContext) (n m : Nat) (hnm : n ≤ m) :
    pnm_token sc n = (pnm_token sc m).map (fun r => (r.1, r.2.take (n - 1))) := by
  unfold pnm_token
  cases pnm_skip (sc.mem.length - sc.bytestream + 1) sc with
  | none => rfl
  | some r =>
    obtain ⟨c, sc1⟩ := r
    simp only []
    have h := pnm_accum_take n m hnm (sc1.bytestream_end - sc1.bytestream + 1) sc1 c []
    simp only [List.take_nil] at h
    rw [h]
    cases pnm_accum (sc1.bytestream_end - sc1.bytestream + 1) sc1 c [] m with
    | none => rfl
    | some r2 => rfl

theorem pnm_accum_length (n : Nat) : ∀ (fuel : Nat) (sc sc' : PNMContext) (c : Nat)
    (acc tok : List Nat), pnm_accum fuel sc c acc n = some (tok, sc') →
      tok.length ≤ acc.length + (sc.bytestream_end - sc.bytestream) := by
  intro fuel
  induction fuel with
  | zero => intro sc sc' c acc tok h; simp [pnm_accum] at h
  | succ k ih =>
    intro sc sc' c acc tok h
    unfold pnm_accum at h
    by_cases hc : sc.bytestream < sc.bytestream_end ∧ ¬ pnm_space c = true
    · rw [if_pos hc] at h
      have := ih _ _ _ _ _ h
      simp only [advance] at this
      split at this
      · simp only [List.length_append, List.length_singleton] at this
        omega
      · omega
    · rw [if_neg hc] at h
      simp only [Option.some.injEq, Prod.mk.injEq] at h
      rw [← h.1]
      omega

/-- A token is never longer than the number of bytes left before the declared
end. -/
theorem pnm_token_length (sc sc' : PNMContext) (n : Nat) (tok : List Nat)
    (h : pnm_token sc n = some (sc', tok)) :
    tok.length ≤ sc.bytestream_end - sc.bytestream := by
  unfold pnm_token at h
  obtain ⟨c, p, h1, h2⟩ := pnm_skip_total (sc.mem.length - sc.bytestream + 1) sc (by omega)
  rw [h1] at h
  simp only [] at h
  cases ha : pnm_accum ((at_pos sc p).bytestream_end - (at_pos sc p).bytestream + 1)
      (at_pos sc p) c [] n with
  | none => rw [ha] at h; cases h
  | some r =>
    obtain ⟨tok2, sc2⟩ := r
    rw [ha] at h
    simp only [Option.some.injEq, Prod.mk.injEq] at h
    have := pnm_accum_length n _ _ _ _ _ _ ha
    simp only [at_pos_end, at_pos_bytestream, List.length_nil] at this
    rw [← h.2]
    omega

/-- C14: truncation policy.  For every buffer and cursor position, a capacity
`m` larger than the number of bytes left is unbounded: the token `T` it gives
is not cut and every larger capacity gives the same token and cursor.  For
every capacity `n` of at least 1, `pnm_get` with capacity `n` stores exactly
the first `min (n - 1) L` characters of `T` (`L` its length) and leaves the
cursor where the unbounded call leaves it. -/
theorem truncation_policy (sc : PNMContext) (str : List Nat) (n m : Nat) (hn : 1 ≤ n)
    (hm : sc.bytestream_end - sc.bytestream + 1 < m) :
    ∃ sc' T, pnm_token sc m = some (sc', T) ∧ T.length + 1 < m ∧
      (∀ m', m ≤ m' → pnm_token sc m' = some (sc', T)) ∧
      pnm_token sc n = some (sc', T.take (min (n - 1) T.length)) ∧
      pnm_get sc str n = some (sc', store str (T.take (min (n - 1) T.length))) := by
  obtain ⟨T, p, hT, _⟩ := pnm_token_total sc m
  have hlen := pnm_token_length sc _ m T hT
  have hbig : ∀ m', m ≤ m' → pnm_token sc m' = some (at_pos sc p, T) := by
    intro m' hm'
    obtain ⟨T', p', hT', _⟩ := pnm_token_total sc m'
    have hlen' := pnm_token_length sc _ m' T' hT'
    have h := pnm_token_take sc m m' hm'
    rw [hT, hT'] at h
    simp only [Option.map_some', Option.some.injEq, Prod.mk.injEq] at h
    rw [List.take_of_length_le (by omega)] at h
    rw [hT', ← h.1, ← h.2]
  have hmin : T.take (min (n - 1) T.length) = T.take (n - 1) := by
    by_cases hle : n - 1 ≤ T.length
    · rw [Nat.min_eq_left hle]
    · rw [Nat.min_eq_right (by omega), List.take_of_length_le (le_refl _),
        List.take_of_length_le (by omega)]
  have hn' : pnm_token sc n = some (at_pos sc p, T.take (n - 1)) := by
    by_cases hnm : n ≤ m
    · rw [pnm_token_take sc n m hnm, hT]
      rfl
    · rw [hbig n (by omega), List.take_of_length_le (by omega)]
  refine ⟨at_pos sc p, T, hT, by omega, hbig, ?_, ?_⟩
  · rw [hmin, hn']
  · rw [hmin]
    exact pnm_get_of_token sc _ str _ n hn'

set_option maxRecDepth 8000 in
/-- C14, witness: a first token of 42 characters read with capacity 32 and
with capacity 64; the header is decoded as variant P5. -/
theorem truncation_policy_witness :
    (∃ sc' T, pnm_token (packet long_token_header) 64 = some (sc', T) ∧ T.length + 1 < 64 ∧
      (∀ m', 64 ≤ m' → pnm_token (packet long_token_header) m' = some (sc', T)) ∧
      pnm_token (packet long_token_header) 32 = some (sc', T.take (min (32 - 1) T.length)) ∧
      pnm_get (packet long_token_header) buf0 32
        = some (sc', store buf0 (T.take (min (32 - 1) T.length)))) ∧
    ff_pnm_decode_header ext_accept (ctx0 CodecID.PGM) (packet long_token_header) buf0 =
      some (0, { codec_id := CodecID.PGM, pix_fmt := PixelFormat.GRAY8, width := 4, height := 10 },
        { mem := long_token_header, bytestream := 52, bytestream_end := 52, type := 5,
          maxval := 255 }) :=
  ⟨truncation_policy (packet long_token_header) buf0 32 64 (by decide) (by decide), by decide⟩

/-! ## The tokenizer on white space and comments -/

theorem pnm_comment_body (rest : List Nat) : ∀ (body : List Nat) (fuel : Nat) (sc : PNMContext),
    body.length < fuel → sc.mem.drop sc.bytestream = body ++ 10 :: rest →
    (∀ b ∈ body, b ≠ 10) → sc.bytestream + body.length < sc.bytestream_end →
    pnm_comment fuel sc = some (10, at_pos sc (sc.bytestream + body.length + 1)) := by
  intro body
  induction body with
  | nil =>
    intro fuel sc hf hmem _ _
    obtain ⟨k, rfl⟩ : ∃ k, fuel = k + 1 := ⟨fuel - 1, by simp at hf; omega⟩
    have hp : peek sc = 10 := (getD_of_drop_cons sc.mem sc.bytestream 10 rest (by simpa using hmem)).1
    unfold pnm_comment
    dsimp only
    rw [hp, if_neg (by simp)]
    rfl
  | cons b body ih =>
    intro fuel sc hf hmem hb hend
    obtain ⟨k, rfl⟩ : ∃ k, fuel = k + 1 := ⟨fuel - 1, by simp at hf; omega⟩
    have hp := getD_of_drop_cons sc.mem sc.bytestream b (body ++ 10 :: rest) (by simpa using hmem)
    have hpc : peek sc = b := hp.1
    have hb10 : b ≠ 10 := hb b (List.mem_cons_self _ _)
    unfold pnm_comment
    dsimp only
    rw [hpc, if_pos ⟨hb10, by simp only [advance, List.length_cons] at hend ⊢; omega⟩]
    rw [ih k (advance sc) (by simp at hf; omega) hp.2
      (fun x hx => hb x (List.mem_cons_of_mem _ hx))
      (by simp only [advance, List.length_cons] at hend ⊢; omega)]
    simp only [advance, List.length_cons]
    rw [at_pos_congr _ (sc.bytestream + 1 + body.length + 1)
      (sc.bytestream + (body.length + 1) + 1) (by omega)]
    rfl

/-- The skip loop on a run of white space and complete comments followed,
inside the buffer, by a byte `c` that begins a token. -/
theorem pnm_skip_run (c : Nat) (hc : pnm_space c = false) (h35 : c ≠ 35) :
    ∀ (skip : List Nat), SkipRun skip → ∀ (fuel : Nat) (sc : PNMContext) (rest : List Nat),
      skip.length < fuel → sc.mem.drop sc.bytestream = skip ++ c :: rest →
      sc.bytestream + skip.length < sc.bytestream_end →
      pnm_skip fuel sc = some (c, at_pos sc (sc.bytestream + skip.length + 1)) := by
  intro skip hskip
  induction hskip with
  | nil =>
    intro fuel sc rest hf hmem _
    exact pnm_skip_ws c rest hc h35 [] fuel sc (by simp) hf hmem
  | space b l hb _ ih =>
    intro fuel sc rest hf hmem hend
    obtain ⟨k, rfl⟩ : ∃ k, fuel = k + 1 := ⟨fuel - 1, by simp at hf; omega⟩
    have hp := getD_of_drop_cons sc.mem sc.bytestream b (l ++ c :: rest) (by simpa using hmem)
    have hpc : peek sc = b := hp.1
    unfold pnm_skip
    dsimp only
    rw [hpc, if_neg (pnm_space_ne_hash b hb), if_neg (by simp [hb])]
    rw [ih k (advance sc) rest (by simp at hf; omega) hp.2
      (by simp only [advance, List.length_cons] at hend ⊢; omega)]
    simp only [advance, List.length_cons]
    rw [at_pos_congr _ (sc.bytestream + 1 + l.length + 1)
      (sc.bytestream + (l.length + 1) + 1) (by omega)]
    rfl
  | comment body l hbody _ ih =>
    intro fuel sc rest hf hmem hend
    obtain ⟨k, rfl⟩ : ∃ k, fuel = k + 1 := ⟨fuel - 1, by simp at hf; omega⟩
    have hlen : (35 :: (body ++ 10 :: l)).length = body.length + l.length + 2 := by
      simp only [List.length_cons, List.length_append]
      omega
    rw [hlen] at hf hend
    have hp := getD_of_drop_cons sc.mem sc.bytestream 35 (body ++ 10 :: (l ++ c :: rest))
      (by rw [hmem]; simp)
    have hpc : peek sc = 35 := hp.1
    have hcm := pnm_comment_body (l ++ c :: rest) body
      ((advance sc).bytestream_end - (advance sc).bytestream + 1) (advance sc)
      (by simp only [advance]; omega) hp.2 hbody (by simp only [advance]; omega)
    have hmem2 : (at_pos sc (sc.bytestream + 1 + body.length + 1)).mem.drop
        (at_pos sc (sc.bytestream + 1 + body.length + 1)).bytestream = l ++ c :: rest := by
      have := drop_add_of_append sc.mem sc.bytestream (35 :: (body ++ [10])) (l ++ c :: rest)
        (by rw [hmem]; simp)
      simp only [List.length_cons, List.length_append, List.length_nil] at this
      simp only [at_pos_mem, at_pos_bytestream]
      rw [← this]
      congr 1
      omega
    have hcm2 : pnm_comment ((advance sc).bytestream_end - (advance sc).bytestream + 1)
        (advance sc) = some (10, at_pos sc (sc.bytestream + 1 + body.length + 1)) := by
      rw [hcm]
      rfl
    unfold pnm_skip
    dsimp only
    rw [hpc, if_pos rfl, hcm2]
    dsimp only
    rw [ih k _ rest (by omega) hmem2 (by simp only [at_pos_bytestream, at_pos_end]; omega)]
    simp only [at_pos_at_pos, at_pos_bytestream, hlen]
    rw [at_pos_congr _ (sc.bytestream + 1 + body.length + 1 + l.length + 1)
      (sc.bytestream + (body.length + l.length + 2) + 1) (by omega)]

/-- The tokenizer on a cursor that stands before a run of white space and
comments, a token `tok` and a white-space byte `w` inside the buffer. -/
theorem pnm_token_run (sc : PNMContext) (n : Nat) (skip tok : List Nat) (w : Nat)
    (rest : List Nat) (hmem : sc.mem.drop sc.bytestream = skip ++ tok ++ w :: rest)
    (hskip : SkipRun skip) (hne : tok ≠ [])
    (hns : ∀ b ∈ tok, pnm_space b = false) (hhd : tok.head? ≠ some 35)
    (hw : pnm_space w = true)
    (hend : sc.bytestream + skip.length + tok.length < sc.bytestream_end) :
    pnm_token sc n =
      some (at_pos sc (sc.bytestream + skip.length + tok.length + 1), tok.take (n - 1)) := by
  cases tok with
  | nil => exact absurd rfl hne
  | cons c tl =>
    have hlen : (sc.mem.drop sc.bytestream).length
        = skip.length + (tl.length + 1) + (rest.length + 1) := by
      rw [hmem]; simp; omega
    rw [List.length_drop] at hlen
    have hc : pnm_space c = false := hns c (List.mem_cons_self _ _)
    have h35 : c ≠ 35 := by
      intro h
      apply hhd
      simp [h]
    simp only [List.length_cons] at hend
    unfold pnm_token
    rw [pnm_skip_run c hc h35 skip hskip _ sc (tl ++ w :: rest) (by omega) (by simpa using hmem)
      (by omega)]
    dsimp only
    have hmem2 : (at_pos sc (sc.bytestream + skip.length + 1)).mem.drop
        (at_pos sc (sc.bytestream + skip.length + 1)).bytestream = tl ++ w :: rest := by
      have := drop_add_of_append sc.mem sc.bytestream (skip ++ [c]) (tl ++ w :: rest)
        (by rw [hmem]; simp)
      simp only [List.length_append, List.length_singleton] at this
      simpa [Nat.add_assoc] using this
    rw [pnm_accum_token n w rest hw tl _ _ c []
      (by simp only [at_pos_end, at_pos_bytestream]; omega) hmem2 hns
      (by simp only [at_pos_end, at_pos_bytestream]; omega)]
    simp only [List.length_nil, Nat.sub_zero, List.nil_append, at_pos_at_pos, at_pos_bytestream,
      List.length_cons]
    rw [at_pos_congr _ (sc.bytestream + skip.length + 1 + tl.length + 1)
      (sc.bytestream + skip.length + (tl.length + 1) + 1) (by omega)]

/-! ## Claims about the tokenizer -/

theorem unread_split (sc : PNMContext) (x : List Nat) (h : unread sc = x) :
    sc.mem.drop sc.bytestream = x ++ (sc.mem.drop sc.bytestream).drop
        (sc.bytestream_end - sc.bytestream) ∧
      x.length ≤ sc.bytestream_end - sc.bytestream := by
  unfold unread at h
  constructor
  · rw [← h, List.take_append_drop]
  · rw [← h, List.length_take]
    exact Nat.min_le_left _ _

theorem unread_at_pos (sc : PNMContext) (a : Nat) :
    unread (at_pos sc (sc.bytestream + a)) = (unread sc).drop a := by
  unfold unread
  simp only [at_pos_mem, at_pos_bytestream, at_pos_end]
  rw [List.drop_take, List.drop_drop]
  have e1 : sc.bytestream_end - (sc.bytestream + a) = sc.bytestream_end - sc.bytestream - a := by
    omega
  rw [e1]

/-- C15: tokenizer result.  When the unread part of the buffer is
`skip ++ tok ++ [w] ++ rest`, where `skip` is made of white-space bytes and
complete comments, `tok` is a non-empty run of non-zero bytes without white
space that does not begin with `#`, `tok` fits the capacity and `w` is a
white-space byte, `pnm_get` stores exactly `tok` with its terminator and
leaves the cursor at the first byte of `rest`: it consumes one white-space
byte after the token. -/
theorem tokenizer_result (sc : PNMContext) (str : List Nat) (n : Nat)
    (skip tok rest : List Nat) (w : Nat)
    (hun : unread sc = skip ++ tok ++ [w] ++ rest)
    (hskip : SkipRun skip) (hne : tok ≠ []) (hnz : ∀ b ∈ tok, b ≠ 0)
    (hns : ∀ b ∈ tok, pnm_space b = false) (hhd : tok.head? ≠ some 35)
    (hcap : tok.length ≤ n - 1) (hw : pnm_space w = true) :
    pnm_get sc str n =
        some (at_pos sc (sc.bytestream + skip.length + tok.length + 1), store str tok) ∧
      cstr (store str tok) = tok ∧
      unread (at_pos sc (sc.bytestream + skip.length + tok.length + 1)) = rest := by
  obtain ⟨hmem, hlen⟩ := unread_split sc _ hun
  simp only [List.length_append, List.length_singleton] at hlen
  have ht := pnm_token_run sc n skip tok w
    (rest ++ (sc.mem.drop sc.bytestream).drop (sc.bytestream_end - sc.bytestream))
    (hmem.trans (by simp)) hskip hne hns hhd hw (by omega)
  rw [List.take_of_length_le hcap] at ht
  refine ⟨pnm_get_of_token sc _ str tok n ht, ?_, ?_⟩
  · rw [cstr_store, cstr_of_nonzero tok hnz]
  · rw [at_pos_congr sc _ (sc.bytestream + (skip.length + tok.length + 1)) (by omega),
      unread_at_pos, hun]
    have e : skip ++ tok ++ [w] ++ rest = (skip ++ tok ++ [w]) ++ rest := rfl
    rw [e, List.drop_left' (by simp; omega)]

/-- C15, witness: the unread part ` #c`, LF, `12 34`: white space and a
comment, the token `12`, a space and the rest `34`. -/
theorem tokenizer_result_witness :
    unread (packet [32, 35, 99, 10, 49, 50, 32, 51, 52]) = [32, 35, 99, 10] ++ [49, 50] ++ [32]
        ++ [51, 52] ∧
      pnm_get (packet [32, 35, 99, 10, 49, 50, 32, 51, 52]) buf0 32 =
        some (at_pos (packet [32, 35, 99, 10, 49, 50, 32, 51, 52])
          ((packet [32, 35, 99, 10, 49, 50, 32, 51, 52]).bytestream + [32, 35, 99, 10].length
            + [49, 50].length + 1), store buf0 [49, 50]) ∧
      cstr (store buf0 [49, 50]) = [49, 50] ∧
      unread (at_pos (packet [32, 35, 99, 10, 49, 50, 32, 51, 52])
          ((packet [32, 35, 99, 10, 49, 50, 32, 51, 52]).bytestream + [32, 35, 99, 10].length
            + [49, 50].length + 1)) = [51, 52] :=
  ⟨by decide,
    tokenizer_result (packet [32, 35, 99, 10, 49, 50, 32, 51, 52]) buf0 32 [32, 35, 99, 10]
      [49, 50] [51, 52] 32 (by decide)
      (SkipRun.space 32 _ (by decide)
        (SkipRun.comment [99] [] (by decide) SkipRun.nil))
      (by decide) (by decide) (by decide) (by decide) (by decide) (by decide)⟩

/-- C13 (amended): comments before the first token and between two tokens are
transparent.  When the unread part of the buffer is
`skip1 ++ tok1 ++ [w1] ++ skip2 ++ tok2 ++ [w2] ++ rest`, the `skip` parts being
made of white-space bytes and complete comments and the tokens being non-empty
runs without white space that do not begin with `#`, two calls of the
tokenizer return `tok1` and `tok2` (cut to the capacity): no byte of the
comments is stored.  A `#` after the first character of a token is part of
the token. -/
theorem comments_skipped (sc : PNMContext) (n : Nat) (skip1 tok1 skip2 tok2 rest : List Nat)
    (w1 w2 : Nat)
    (hun : unread sc = skip1 ++ tok1 ++ [w1] ++ skip2 ++ tok2 ++ [w2] ++ rest)
    (hskip1 : SkipRun skip1) (hskip2 : SkipRun skip2)
    (hne1 : tok1 ≠ []) (hns1 : ∀ b ∈ tok1, pnm_space b = false) (hhd1 : tok1.head? ≠ some 35)
    (hne2 : tok2 ≠ []) (hns2 : ∀ b ∈ tok2, pnm_space b = false) (hhd2 : tok2.head? ≠ some 35)
    (hw1 : pnm_space w1 = true) (hw2 : pnm_space w2 = true) :
    pnm_token sc n =
        some (at_pos sc (sc.bytestream + skip1.length + tok1.length + 1), tok1.take (n - 1)) ∧
      pnm_token (at_pos sc (sc.bytestream + skip1.length + tok1.length + 1)) n =
        some (at_pos sc (sc.bytestream + skip1.length + tok1.length + 1 + skip2.length
          + tok2.length + 1), tok2.take (n - 1)) := by
  obtain ⟨hmem, hlen⟩ := unread_split sc _ hun
  simp only [List.length_append, List.length_singleton] at hlen
  generalize (sc.mem.drop sc.bytestream).drop (sc.bytestream_end - sc.bytestream) = beyond
    at hmem
  have hmemA : sc.mem.drop sc.bytestream = skip1 ++ tok1 ++ w1 ::
      (skip2 ++ tok2 ++ w2 :: (rest ++ beyond)) := hmem.trans (by simp)
  refine ⟨pnm_token_run sc n skip1 tok1 w1 _ hmemA hskip1 hne1 hns1 hhd1 hw1 (by omega), ?_⟩
  have hmemB : (at_pos sc (sc.bytestream + skip1.length + tok1.length + 1)).mem.drop
      (at_pos sc (sc.bytestream + skip1.length + tok1.length + 1)).bytestream =
        skip2 ++ tok2 ++ w2 :: (rest ++ beyond) := by
    have := drop_add_of_append sc.mem sc.bytestream (skip1 ++ tok1 ++ [w1])
      (skip2 ++ tok2 ++ w2 :: (rest ++ beyond)) (hmemA.trans (by simp))
    simp only [List.length_append, List.length_singleton] at this
    simpa [Nat.add_assoc] using this
  have h2 := pnm_token_run (at_pos sc (sc.bytestream + skip1.length + tok1.length + 1)) n skip2
    tok2 w2 _ hmemB hskip2 hne2 hns2 hhd2 hw2
    (by simp only [at_pos_bytestream, at_pos_end]; omega)
  simpa only [at_pos_bytestream, at_pos_at_pos] using h2

/-- C13, witness: the unread part `#a`, LF, `12 #b`, LF, `34`, a space. -/
theorem comments_skipped_witness :
    unread (packet [35, 97, 10, 49, 50, 32, 35, 98, 10, 51, 52, 32]) =
        [35, 97, 10] ++ [49, 50] ++ [32] ++ [35, 98, 10] ++ [51, 52] ++ [32] ++ [] ∧
      pnm_token (packet [35, 97, 10, 49, 50, 32, 35, 98, 10, 51, 52, 32]) 32 =
        some (at_pos (packet [35, 97, 10, 49, 50, 32, 35, 98, 10, 51, 52, 32])
          ((packet [35, 97, 10, 49, 50, 32, 35, 98, 10, 51, 52, 32]).bytestream
            + [35, 97, 10].length + [49, 50].length + 1), [49, 50].take (32 - 1)) ∧
      pnm_token (at_pos (packet [35, 97, 10, 49, 50, 32, 35, 98, 10, 51, 52, 32])
          ((packet [35, 97, 10, 49, 50, 32, 35, 98, 10, 51, 52, 32]).bytestream
            + [35, 97, 10].length + [49, 50].length + 1)) 32 =
        some (at_pos (packet [35, 97, 10, 49, 50, 32, 35, 98, 10, 51, 52, 32])
          ((packet [35, 97, 10, 49, 50, 32, 35, 98, 10, 51, 52, 32]).bytestream
            + [35, 97, 10].length + [49, 50].length + 1 + [35, 98, 10].length
            + [51, 52].length + 1), [51, 52].take (32 - 1)) :=
  ⟨by decide,
    comments_skipped (packet [35, 97, 10, 49, 50, 32, 35, 98, 10, 51, 52, 32]) 32 [35, 97, 10]
      [49, 50] [35, 98, 10] [51, 52] [] 32 32 (by decide)
      (SkipRun.comment [97] [] (by decide) SkipRun.nil)
      (SkipRun.comment [98] [] (by decide) SkipRun.nil)
      (by decide) (by decide) (by decide) (by decide) (by decide) (by decide) (by decide)
      (by decide)⟩

/-- C13, counterexample: on the buffer `12#c`, LF, `34` the tokenizer returns
the token `12#c`: the `#` that follows the digits and the byte `c` after it
are stored. -/
theorem comment_in_token_counterexample :
    pnm_token (packet [49, 50, 35, 99, 10, 51, 52]) 32 =
      some (at_pos (packet [49, 50, 35, 99, 10, 51, 52]) 5, [49, 50, 35, 99]) := by
  decide

/-! ## Claims about the last byte of the buffer -/

theorem accum_step_last (n c : Nat) (acc l : List Nat) (hl : l ≠ []) :
    (if acc.length + 1 < n then acc ++ [c] else acc) ++
        (l.dropLast).take (n - 1 - (if acc.length + 1 < n then acc ++ [c] else acc).length) =
      acc ++ ((c :: l).dropLast).take (n - 1 - acc.length) := by
  rw [List.dropLast_cons_of_ne_nil hl]
  exact accum_step n c acc l.dropLast

/-- The accumulation loop when the run of token bytes ends at the declared
end: the last byte is read but not stored. -/
theorem pnm_accum_last (n : Nat) (beyond : List Nat) :
    ∀ (tl : List Nat) (fuel : Nat) (sc : PNMContext) (c : Nat) (acc : List Nat),
      tl.length < fuel → sc.mem.drop sc.bytestream = tl ++ beyond →
      (∀ b ∈ c :: tl, pnm_space b = false) →
      sc.bytestream + tl.length = sc.bytestream_end →
      pnm_accum fuel sc c acc n =
        some (acc ++ ((c :: tl).dropLast).take (n - 1 - acc.length),
          at_pos sc (sc.bytestream + tl.length)) := by
  intro tl
  induction tl with
  | nil =>
    intro fuel sc c acc hf _ _ hend
    obtain ⟨k, rfl⟩ : ∃ k, fuel = k + 1 := ⟨fuel - 1, by simp at hf; omega⟩
    unfold pnm_accum
    rw [if_neg (by simp only [List.length_nil] at hend; omega)]
    simp
    rfl
  | cons b tl ih =>
    intro fuel sc c acc hf hmem hns hend
    obtain ⟨k, rfl⟩ : ∃ k, fuel = k + 1 := ⟨fuel - 1, by simp at hf; omega⟩
    have hp := getD_of_drop_cons sc.mem sc.bytestream b (tl ++ beyond) (by simpa using hmem)
    have hpc : peek sc = b := hp.1
    have hcs : pnm_space c = false := hns c (List.mem_cons_self _ _)
    unfold pnm_accum
    rw [if_pos ⟨by simp only [List.length_cons] at hend; omega, by simp [hcs]⟩, hpc]
    rw [ih k (advance sc) b _ (by simp at hf; omega) hp.2
      (fun x hx => hns x (List.mem_cons_of_mem _ hx))
      (by simp only [advance, List.length_cons] at hend ⊢; omega)]
    rw [accum_step_last n c acc (b :: tl) (by simp)]
    simp only [advance, List.length_cons]
    rw [at_pos_congr _ (sc.bytestream + 1 + tl.length) (sc.bytestream + (tl.length + 1))
      (by omega)]
    rfl

theorem pnm_token_length_lt (sc sc' : PNMContext) (n : Nat) (tok : List Nat)
    (h : pnm_token sc n = some (sc', tok)) :
    tok.length ≤ sc.bytestream_end - (sc.bytestream + 1) := by
  unfold pnm_token at h
  obtain ⟨c, p, h1, h2⟩ := pnm_skip_total (sc.mem.length - sc.bytestream + 1) sc (by omega)
  rw [h1] at h
  simp only [] at h
  cases ha : pnm_accum ((at_pos sc p).bytestream_end - (at_pos sc p).bytestream + 1)
      (at_pos sc p) c [] n with
  | none => rw [ha] at h; cases h
  | some r =>
    obtain ⟨tok2, sc2⟩ := r
    rw [ha] at h
    simp only [Option.some.injEq, Prod.mk.injEq] at h
    have := pnm_accum_length n _ _ _ _ _ _ ha
    simp only [at_pos_end, at_pos_bytestream, List.length_nil] at this
    rw [← h.2]
    omega

/-- C20: last-byte drop.  When the unread part of the buffer (the declared
end lying inside the memory) is a run `skip` of white space and complete
comments followed by a non-empty run `tok` of bytes without white space that
does not begin with `#` and reaches the last byte of the buffer, the
tokenizer returns `tok` without its final byte (cut to the capacity) and
leaves the cursor at the declared end.  For every call, the number of
characters stored is at most the number of bytes between the cursor and the
declared end minus one: a character is stored only if one more byte lies
before the declared end after it. -/
theorem last_byte_dropped (sc : PNMContext) (n : Nat) (skip tok : List Nat)
    (hun : unread sc = skip ++ tok) (hin : sc.bytestream_end ≤ sc.mem.length)
    (hskip : SkipRun skip) (hne : tok ≠ [])
    (hns : ∀ b ∈ tok, pnm_space b = false) (hhd : tok.head? ≠ some 35) :
    pnm_token sc n = some (at_pos sc sc.bytestream_end, (tok.dropLast).take (n - 1)) ∧
      (∀ (sc0 sc1 : PNMContext) (m : Nat) (t : List Nat),
        pnm_token sc0 m = some (sc1, t) →
          t.length ≤ sc0.bytestream_end - (sc0.bytestream + 1)) := by
  refine ⟨?_, fun sc0 sc1 m t ht => pnm_token_length_lt sc0 sc1 m t ht⟩
  obtain ⟨hmem, _⟩ := unread_split sc _ hun
  have hlen : (skip ++ tok).length = sc.bytestream_end - sc.bytestream := by
    rw [← hun]
    unfold unread
    rw [List.length_take, List.length_drop]
    omega
  generalize (sc.mem.drop sc.bytestream).drop (sc.bytestream_end - sc.bytestream) = beyond
    at hmem
  cases tok with
  | nil => exact absurd rfl hne
  | cons c tl =>
    simp only [List.length_append, List.length_cons] at hlen
    have hml : (sc.mem.drop sc.bytestream).length
        = skip.length + (tl.length + 1) + beyond.length := by
      rw [hmem]; simp; omega
    rw [List.length_drop] at hml
    have hc : pnm_space c = false := hns c (List.mem_cons_self _ _)
    have h35 : c ≠ 35 := by
      intro h
      apply hhd
      simp [h]
    unfold pnm_token
    rw [pnm_skip_run c hc h35 skip hskip _ sc (tl ++ beyond) (by omega)
      (hmem.trans (by simp)) (by omega)]
    dsimp only
    have hmem2 : (at_pos sc (sc.bytestream + skip.length + 1)).mem.drop
        (at_pos sc (sc.bytestream + skip.length + 1)).bytestream = tl ++ beyond := by
      have := drop_add_of_append sc.mem sc.bytestream (skip ++ [c]) (tl ++ beyond)
        (hmem.trans (by simp))
      simp only [List.length_append, List.length_singleton] at this
      simpa [Nat.add_assoc] using this
    rw [pnm_accum_last n beyond tl _ _ c []
      (by simp only [at_pos_end, at_pos_bytestream]; omega) hmem2 hns
      (by simp only [at_pos_end, at_pos_bytestream]; omega)]
    simp only [List.length_nil, Nat.sub_zero, List.nil_append, at_pos_at_pos, at_pos_bytestream]
    rw [at_pos_congr _ (sc.bytestream + skip.length + 1 + tl.length) sc.bytestream_end
      (by omega)]

/-- C20, witness: the buffer that is exactly `P5` yields the token `P`, and
the buffer that is exactly `P5 4 10 255` decodes with maxval 25. -/
theorem last_byte_dropped_witness :
    pnm_token (packet [80, 53]) 32 = some (at_pos (packet [80, 53]) 2, [80]) ∧
      ff_pnm_decode_header ext_accept (ctx0 CodecID.PGM)
          (packet [80, 53, 32, 52, 32, 49, 48, 32, 50, 53, 53]) buf0 =
        some (0, { codec_id := CodecID.PGM, pix_fmt := PixelFormat.GRAY8, width := 4,
                   height := 10 },
          { mem := [80, 53, 32, 52, 32, 49, 48, 32, 50, 53, 53], bytestream := 11,
            bytestream_end := 11, type := 5, maxval := 25 }) :=
  ⟨(last_byte_dropped (packet [80, 53]) 32 [] [80, 53] (by decide) (by decide) SkipRun.nil
      (by decide) (by decide) (by decide)).1,
    by decide⟩

/-! ## Claims about the cursor -/

/-- C16, the code at the failing input: on the packet `P5 ` (three bytes) the
call of `pnm_get` that reads the width starts with the cursor at the declared
end, 3, and leaves it at 4; the decoder returns with the cursor beyond the
end. -/
theorem cursor_exceeds_end :
    (at_pos (packet [80, 53, 32]) 3).bytestream ≤ (at_pos (packet [80, 53, 32]) 3).bytestream_end ∧
      pnm_get (at_pos (packet [80, 53, 32]) 3) buf0 32
        = some (at_pos (packet [80, 53, 32]) 4, store buf0 []) ∧
      ff_pnm_decode_header ext_accept (ctx0 CodecID.PGM) (packet [80, 53, 32]) buf0 =
        some (-1, { codec_id := CodecID.PGM, pix_fmt := PixelFormat.GRAY8, width := 0,
                    height := 0 },
          { mem := [80, 53, 32], bytestream := 4, bytestream_end := 3, type := 5,
            maxval := 0 }) := by
  decide

/-- C17, the code at the failing input: on the packet `P5 #` (four bytes, the
last one `#`) the call of `pnm_get` that reads the width starts with the
cursor at 3 and leaves it at 6.  Each step of the cursor is one read, so the
bytes at the indices 3, 4 and 5 were read: the byte at the declared end and
the byte after it. -/
theorem read_beyond_end :
    (packet [80, 53, 32, 35]).bytestream_end = 4 ∧
      pnm_get (at_pos (packet [80, 53, 32, 35]) 3) buf0 32
        = some (at_pos (packet [80, 53, 32, 35]) 6, store buf0 []) ∧
      ff_pnm_decode_header ext_accept (ctx0 CodecID.PGM) (packet [80, 53, 32, 35]) buf0 =
        some (-1, { codec_id := CodecID.PGM, pix_fmt := PixelFormat.GRAY8, width := 0,
                    height := 0 },
          { mem := [80, 53, 32, 35], bytestream := 6, bytestream_end := 4, type := 5,
            maxval := 0 }) := by
  decide

theorem pnm_get_run (sc : PNMContext) (str : List Nat) (n : Nat) (skip tok : List Nat) (w : Nat)
    (rest : List Nat) (hmem : sc.mem.drop sc.bytestream = skip ++ tok ++ w :: rest)
    (hskip : SkipRun skip) (htok : IsToken tok) (hw : pnm_space w = true)
    (hend : sc.bytestream + skip.length + tok.length < sc.bytestream_end) :
    pnm_get sc str n =
      some (at_pos sc (sc.bytestream + skip.length + tok.length + 1),
        store str (tok.take (n - 1))) :=
  pnm_get_of_token sc _ str _ n
    (pnm_token_run sc n skip tok w rest hmem hskip htok.1 htok.2.1 htok.2.2 hw hend)

/-- The cursor after the width and height tokens of a classic header when the
decoder goes on to return 0. -/
theorem classic_cursor (ext : Externals) (avctx avctx' : AVCodecContext) (sc s' : PNMContext)
    (b skip1 wtok skip2 htok rest : List Nat) (w1 w2 : Nat)
    (hmem : sc.mem.drop sc.bytestream = skip1 ++ wtok ++ w1 :: (skip2 ++ htok ++ w2 :: rest))
    (hs1 : SkipRun skip1) (hs2 : SkipRun skip2) (hwt : IsToken wtok) (hht : IsToken htok)
    (hw1 : pnm_space w1 = true) (hw2 : pnm_space w2 = true)
    (hend : sc.bytestream + skip1.length + wtok.length + 1 + skip2.length + htok.length
      < sc.bytestream_end)
    (hok : classic ext avctx sc b = some (0, avctx', s')) :
    ∃ a2 b2, a2.pix_fmt = avctx.pix_fmt ∧
      classic_maxval ext a2
        (at_pos sc (sc.bytestream + skip1.length + wtok.length + 1 + skip2.length
          + htok.length + 1)) b2 = some (0, avctx', s') := by
  have g1 := pnm_get_run sc b 32 skip1 wtok w1 _ hmem hs1 hwt hw1 (by omega)
  have hmem2 : (at_pos sc (sc.bytestream + skip1.length + wtok.length + 1)).mem.drop
      (at_pos sc (sc.bytestream + skip1.length + wtok.length + 1)).bytestream
        = skip2 ++ htok ++ w2 :: rest := by
    have := drop_add_of_append sc.mem sc.bytestream (skip1 ++ wtok ++ [w1])
      (skip2 ++ htok ++ w2 :: rest) (by rw [hmem]; simp)
    simp only [List.length_append, List.length_singleton] at this
    simpa [Nat.add_assoc] using this
  have g2 := pnm_get_run (at_pos sc (sc.bytestream + skip1.length + wtok.length + 1))
    (store b (wtok.take (32 - 1))) 32 skip2 htok w2 rest hmem2 hs2 hht hw2
    (by simp only [at_pos_bytestream, at_pos_end]; omega)
  unfold classic at hok
  rw [g1] at hok
  simp only [] at hok
  split at hok
  · simp at hok
  · rw [g2] at hok
    simp only [] at hok
    split at hok
    · simp at hok
    · simp only [at_pos_bytestream, at_pos_at_pos] at hok
      exact ⟨{ avctx with
          width := atoi (cstr (store b (wtok.take (32 - 1)))),
          height := atoi (cstr (store (store b (wtok.take (32 - 1))) (htok.take (32 - 1)))) },
        _, rfl, hok⟩

/-- The cursor after the maxval part of a classic header. -/
theorem classic_maxval_cursor (ext : Externals) (avctx avctx' : AVCodecContext)
    (sc s' : PNMContext) (b skip3 mtok rest : List Nat) (w3 : Nat) (r : Int)
    (hpf : avctx.pix_fmt ≠ PixelFormat.MONOWHITE ∧ avctx.pix_fmt ≠ PixelFormat.MONOBLACK)
    (hmem : sc.mem.drop sc.bytestream = skip3 ++ mtok ++ w3 :: rest)
    (hs3 : SkipRun skip3) (hmt : IsToken mtok) (hw3 : pnm_space w3 = true)
    (hend : sc.bytestream + skip3.length + mtok.length < sc.bytestream_end)
    (hok : classic_maxval ext avctx sc b = some (r, avctx', s')) :
    s'.bytestream = sc.bytestream + skip3.length + mtok.length + 1 ∧ s'.mem = sc.mem ∧
      s'.bytestream_end = sc.bytestream_end := by
  unfold classic_maxval at hok
  rw [if_pos hpf, pnm_get_run sc b 32 skip3 mtok w3 rest hmem hs3 hmt hw3 hend] at hok
  simp only [Option.some.injEq] at hok
  rw [maxval_resolve_state ext avctx _ sc] at hok
  simp only [Prod.mk.injEq] at hok
  rw [← hok.2.2]
  exact ⟨rfl, rfl, rfl⟩

theorem unread_of_frame (s s' : PNMContext) (a : Nat) (hb : s'.bytestream = s.bytestream + a)
    (hm : s'.mem = s.mem) (he : s'.bytestream_end = s.bytestream_end) :
    unread s' = (unread s).drop a := by
  rw [← unread_at_pos]
  unfold unread
  rw [hb, hm, he]
  rfl

/-- C19: header/data boundary.  For every classic header `P<d>`, width token,
height token and (unless d is 1 or 4) maxval token, separated by gaps (a
white-space byte, then white space and comments), whose last token is
followed by a white-space byte `w` inside the buffer: when the decoder returns
0 the cursor stands immediately after `w` and the unread part is exactly what
follows `w`, whatever it begins with; for P1/P4 the last token is the height
and maxval is 1. -/
theorem header_data_boundary (ext : Externals) (avctx avctx' : AVCodecContext)
    (s s' : PNMContext) (buf1 hdr gap1 wtok gap2 htok gap3 mtok rest : List Nat) (d w : Nat)
    (hd : 49 ≤ d ∧ d ≤ 54)
    (hhdr : hdr = 80 :: d :: (gap1 ++ wtok ++ gap2 ++ htok ++
      (if d = 49 ∨ d = 52 then [] else gap3 ++ mtok)))
    (hun : unread s = hdr ++ [w] ++ rest)
    (hg1 : IsGap gap1) (hg2 : IsGap gap2) (hg3 : IsGap gap3)
    (hwt : IsToken wtok) (hht : IsToken htok) (hmt : IsToken mtok) (hw : pnm_space w = true)
    (hok : ff_pnm_decode_header ext avctx s buf1 = some (0, avctx', s')) :
    s'.bytestream = s.bytestream + hdr.length + 1 ∧ unread s' = rest ∧
      (d = 49 ∨ d = 52 → s'.maxval = 1) := by
  obtain ⟨hmem, hlen⟩ := unread_split s _ hun
  generalize (s.mem.drop s.bytestream).drop (s.bytestream_end - s.bytestream) = beyond at hmem
  obtain ⟨w0, skip1, rfl, hw0, hs1⟩ := hg1
  obtain ⟨w1, skip2, rfl, hw1, hs2⟩ := hg2
  obtain ⟨w2, skip3, rfl, hw2, hs3⟩ := hg3
  have hdns : ∀ b ∈ [80, d], pnm_space b = false := by
    intro b hb
    simp only [List.mem_cons, List.mem_singleton, List.not_mem_nil, or_false] at hb
    simp only [pnm_space, Bool.or_eq_false_iff, beq_eq_false_iff_ne, ne_eq]
    omega
  have hfin : ∀ a : Nat, s'.bytestream = s.bytestream + a → s'.mem = s.mem →
      s'.bytestream_end = s.bytestream_end → a = hdr.length + 1 →
      s'.bytestream = s.bytestream + hdr.length + 1 ∧ unread s' = rest := by
    intro a hb hm he ha
    refine ⟨by omega, ?_⟩
    rw [unread_of_frame s s' a hb hm he, hun, ha]
    have e : hdr ++ [w] ++ rest = (hdr ++ [w]) ++ rest := rfl
    rw [e, List.drop_left' (by simp)]
  have hgetd : (store buf1 [80, d]).getD 1 0 = d := rfl
  by_cases hmono : d = 49 ∨ d = 52
  · rw [if_pos hmono, List.append_nil] at hhdr
    subst hhdr
    simp only [List.length_append, List.length_cons, List.length_nil] at hlen
    have hmemA : s.mem.drop s.bytestream = [] ++ [80, d] ++ w0 ::
        (skip1 ++ wtok ++ w1 :: (skip2 ++ htok ++ w :: (rest ++ beyond))) :=
      hmem.trans (by simp)
    have g0 : pnm_get s buf1 32 = some (at_pos s (s.bytestream + 3), store buf1 [80, d]) :=
      (pnm_get_token s buf1 32 [] [80, d] w0 _ hmemA (by simp) (by simp) hdns (by simp)
        hw0 (by simp only [List.length_cons, List.length_nil]; omega)).trans rfl
    rw [decode_magic_classic ext avctx s _ buf1 _ g0 rfl hd, hgetd] at hok
    have hmem1 : s.mem.drop (s.bytestream + 3) =
        skip1 ++ wtok ++ w1 :: (skip2 ++ htok ++ w :: (rest ++ beyond)) := by
      have := drop_add_of_append s.mem s.bytestream [80, d, w0]
        (skip1 ++ wtok ++ w1 :: (skip2 ++ htok ++ w :: (rest ++ beyond)))
        (hmemA.trans (by simp))
      simpa using this
    obtain ⟨a2, b2, hpf, hcm⟩ := classic_cursor ext _ avctx' _ s' _ skip1 wtok skip2 htok
      (rest ++ beyond) w1 w hmem1 hs1 hs2 hwt hht hw1 hw
      (by
        show s.bytestream + 3 + skip1.length + wtok.length + 1 + skip2.length + htok.length
          < s.bytestream_end
        omega) hok
    have hpf2 : a2.pix_fmt = PixelFormat.MONOWHITE := by
      rw [hpf]
      show classic_default avctx.codec_id d = PixelFormat.MONOWHITE
      unfold classic_default
      rw [if_pos hmono]
    rw [classic_maxval_mono ext a2 _ b2 hpf2] at hcm
    simp only [Option.some.injEq, Prod.mk.injEq, true_and] at hcm
    have hs' := hcm.2
    have hres := hfin (3 + skip1.length + wtok.length + 1 + skip2.length + htok.length + 1)
      (by
        rw [← hs']
        show s.bytestream + 3 + skip1.length + wtok.length + 1 + skip2.length + htok.length + 1
          = _
        omega)
      (by rw [← hs']; rfl) (by rw [← hs']; rfl)
      (by simp only [List.length_append, List.length_cons]; omega)
    exact ⟨hres.1, hres.2, fun _ => by rw [← hs']⟩
  · rw [if_neg hmono] at hhdr
    subst hhdr
    simp only [List.length_append, List.length_cons, List.length_nil] at hlen
    have hmemA : s.mem.drop s.bytestream = [] ++ [80, d] ++ w0 ::
        (skip1 ++ wtok ++ w1 :: (skip2 ++ htok ++ w2 ::
          (skip3 ++ mtok ++ w :: (rest ++ beyond)))) :=
      hmem.trans (by simp)
    have g0 : pnm_get s buf1 32 = some (at_pos s (s.bytestream + 3), store buf1 [80, d]) :=
      (pnm_get_token s buf1 32 [] [80, d] w0 _ hmemA (by simp) (by simp) hdns (by simp)
        hw0 (by simp only [List.length_cons, List.length_nil]; omega)).trans rfl
    rw [decode_magic_classic ext avctx s _ buf1 _ g0 rfl hd, hgetd] at hok
    have hmem1 : s.mem.drop (s.bytestream + 3) =
        skip1 ++ wtok ++ w1 :: (skip2 ++ htok ++ w2 ::
          (skip3 ++ mtok ++ w :: (rest ++ beyond))) := by
      have := drop_add_of_append s.mem s.bytestream [80, d, w0]
        (skip1 ++ wtok ++ w1 :: (skip2 ++ htok ++ w2 ::
          (skip3 ++ mtok ++ w :: (rest ++ beyond))))
        (hmemA.trans (by simp))
      simpa using this
    obtain ⟨a2, b2, hpf, hcm⟩ := classic_cursor ext _ avctx' _ s' _ skip1 wtok skip2 htok
      (skip3 ++ mtok ++ w :: (rest ++ beyond)) w1 w2 hmem1 hs1 hs2 hwt hht hw1 hw2
      (by
        show s.bytestream + 3 + skip1.length + wtok.length + 1 + skip2.length + htok.length
          < s.bytestream_end
        omega) hok
    have hpf2 : a2.pix_fmt ≠ PixelFormat.MONOWHITE ∧ a2.pix_fmt ≠ PixelFormat.MONOBLACK := by
      rw [hpf]
      show classic_default avctx.codec_id d ≠ PixelFormat.MONOWHITE ∧
        classic_default avctx.codec_id d ≠ PixelFormat.MONOBLACK
      unfold classic_default
      rw [if_neg hmono]
      constructor <;> split_ifs <;> simp
    have hmem3 : s.mem.drop (s.bytestream + 3 + skip1.length + wtok.length + 1 + skip2.length
        + htok.length + 1) = skip3 ++ mtok ++ w :: (rest ++ beyond) := by
      have := drop_add_of_append s.mem (s.bytestream + 3)
        (skip1 ++ wtok ++ [w1] ++ skip2 ++ htok ++ [w2])
        (skip3 ++ mtok ++ w :: (rest ++ beyond)) (hmem1.trans (by simp))
      simp only [List.length_append, List.length_singleton] at this
      rw [← this]
      congr 1
      omega
    obtain ⟨hb, hm, he⟩ := classic_maxval_cursor ext a2 avctx' _ s' b2 skip3 mtok
      (rest ++ beyond) w 0 hpf2 hmem3 hs3 hmt hw
      (by
        show s.bytestream + 3 + skip1.length + wtok.length + 1 + skip2.length + htok.length + 1
          + skip3.length + mtok.length < s.bytestream_end
        omega) hcm
    have hres := hfin (3 + skip1.length + wtok.length + 1 + skip2.length + htok.length + 1
        + skip3.length + mtok.length + 1)
      (by
        rw [hb]
        show s.bytestream + 3 + skip1.length + wtok.length + 1 + skip2.length + htok.length + 1
          + skip3.length + mtok.length + 1 = _
        omega)
      (by rw [hm]; rfl) (by rw [he]; rfl)
      (by simp only [List.length_append, List.length_cons]; omega)
    exact ⟨hres.1, hres.2, fun h => absurd h hmono⟩


set_option maxRecDepth 8000 in
/-- C19, witness: after the header `P5 4 10 255` and a line feed, followed by
a space, `#` and `x`, the decoder leaves the cursor at 12, directly after the
line feed, and the three bytes after it are unread. -/
theorem header_data_boundary_witness :
    ff_pnm_decode_header ext_accept (ctx0 CodecID.PGM)
        (packet [80, 53, 32, 52, 32, 49, 48, 32, 50, 53, 53, 10, 32, 35, 120]) buf0 =
      some (0, { codec_id := CodecID.PGM, pix_fmt := PixelFormat.GRAY8, width := 4,
                 height := 10 },
        { mem := [80, 53, 32, 52, 32, 49, 48, 32, 50, 53, 53, 10, 32, 35, 120],
          bytestream := 12, bytestream_end := 15, type := 5, maxval := 255 }) ∧
      (12 = 0 + [80, 53, 32, 52, 32, 49, 48, 32, 50, 53, 53].length + 1 ∧
        unread { mem := [80, 53, 32, 52, 32, 49, 48, 32, 50, 53, 53, 10, 32, 35, 120],
                 bytestream := 12, bytestream_end := 15, type := 5, maxval := 255 }
          = [32, 35, 120] ∧
        (53 = 49 ∨ 53 = 52 → (255 : Int) = 1)) :=
  ⟨by decide,
    header_data_boundary ext_accept (ctx0 CodecID.PGM)
      { codec_id := CodecID.PGM, pix_fmt := PixelFormat.GRAY8, width := 4, height := 10 }
      (packet [80, 53, 32, 52, 32, 49, 48, 32, 50, 53, 53, 10, 32, 35, 120])
      { mem := [80, 53, 32, 52, 32, 49, 48, 32, 50, 53, 53, 10, 32, 35, 120],
        bytestream := 12, bytestream_end := 15, type := 5, maxval := 255 }
      buf0 [80, 53, 32, 52, 32, 49, 48, 32, 50, 53, 53] [32] [52] [32] [49, 48] [32]
      [50, 53, 53] [32, 35, 120] 53 10 (by decide) (by decide) (by decide)
      ⟨32, [], rfl, by decide, SkipRun.nil⟩ ⟨32, [], rfl, by decide, SkipRun.nil⟩
      ⟨32, [], rfl, by decide, SkipRun.nil⟩
      ⟨by decide, by decide, by decide⟩ ⟨by decide, by decide, by decide⟩
      ⟨by decide, by decide, by decide⟩ (by decide) (by decide)⟩

/-! ## Claims about duplicate keys and the tuple type -/

/-- The function `pnm_get` on a cursor that stands before white space `ws` and
a token `tok` that reaches the last byte of the buffer: the last byte of the
token is not stored. -/
theorem pnm_get_last (sc : PNMContext) (str : List Nat) (n : Nat) (ws tok beyond : List Nat)
    (hmem : sc.mem.drop sc.bytestream = ws ++ tok ++ beyond)
    (hws : ∀ b ∈ ws, pnm_space b = true) (hne : tok ≠ [])
    (hns : ∀ b ∈ tok, pnm_space b = false) (hhd : tok.head? ≠ some 35)
    (hend : sc.bytestream + ws.length + tok.length = sc.bytestream_end) :
    pnm_get sc str n =
      some (at_pos sc sc.bytestream_end, store str ((tok.dropLast).take (n - 1))) := by
  cases tok with
  | nil => exact absurd rfl hne
  | cons c tl =>
    simp only [List.length_cons] at hend
    have hml : (sc.mem.drop sc.bytestream).length
        = ws.length + (tl.length + 1) + beyond.length := by
      rw [hmem]; simp; omega
    rw [List.length_drop] at hml
    have hc : pnm_space c = false := hns c (List.mem_cons_self _ _)
    have h35 : c ≠ 35 := by
      intro h
      apply hhd
      simp [h]
    unfold pnm_get pnm_token
    rw [pnm_skip_ws c (tl ++ beyond) hc h35 ws _ sc hws (by omega) (hmem.trans (by simp))]
    dsimp only
    have hmem2 : (at_pos sc (sc.bytestream + ws.length + 1)).mem.drop
        (at_pos sc (sc.bytestream + ws.length + 1)).bytestream = tl ++ beyond := by
      have := drop_add_of_append sc.mem sc.bytestream (ws ++ [c]) (tl ++ beyond)
        (hmem.trans (by simp))
      simp only [List.length_append, List.length_singleton] at this
      simpa [Nat.add_assoc] using this
    rw [pnm_accum_last n beyond tl _ _ c []
      (by simp only [at_pos_end, at_pos_bytestream]; omega) hmem2 hns
      (by simp only [at_pos_end, at_pos_bytestream]; omega)]
    simp only [List.length_nil, Nat.sub_zero, List.nil_append, at_pos_at_pos, at_pos_bytestream]
    rw [at_pos_congr _ (sc.bytestream + ws.length + 1 + tl.length) sc.bytestream_end
      (by omega)]

/-- The loop on a well-formed run of key/value lines followed by `ENDHDR` that
reaches the last byte of the buffer: the keyword is read as `ENDHD` and the
loop leaves by `return -1`. -/
theorem pam_loop_entries_end (beyond : List Nat) :
    ∀ (es : List PamEntry) (fuel : Nat) (s : PNMContext) (buf1 : List Nat) (t : PamTags)
      (ws : List Nat),
      (∀ e ∈ es, ValidEntry e) → es.length < fuel →
      s.mem.drop s.bytestream = ws ++ render_all es ++ kw_ENDHDR ++ beyond →
      (∀ b ∈ ws, pnm_space b = true) →
      s.bytestream + ws.length + (render_all es).length + 6 = s.bytestream_end →
      pam_loop fuel s buf1 t =
        some (false, at_pos s s.bytestream_end, es.foldl pam_apply t) := by
  intro es
  induction es with
  | nil =>
    intro fuel s buf1 t ws _ hf hmem hws hend
    obtain ⟨k, rfl⟩ : ∃ k, fuel = k + 1 := ⟨fuel - 1, by simp at hf; omega⟩
    obtain ⟨h1, h2, h3, _⟩ := keyword_facts kw_ENDHDR (by simp)
    have g := pnm_get_last s buf1 32 ws kw_ENDHDR beyond
      (by rw [hmem]; simp [render_all]) hws h1 h2 h3
      (by simp only [render_all, List.length_nil, kw_ENDHDR, List.length_cons] at hend ⊢; omega)
    unfold pam_loop
    rw [g]
    have h4 : cstr ((kw_ENDHDR.dropLast).take (32 - 1)) = [69, 78, 68, 72, 68] := by decide
    simp only [cstr_store, h4]
    simp only [render_all, List.length_nil, List.foldl_nil]
    simp [kw_ENDHDR, kw_WIDTH, kw_HEIGHT, kw_DEPTH, kw_MAXVAL, kw_TUPLTYPE, kw_TUPLETYPE]
  | cons e es ih =>
    intro fuel s buf1 t ws hval hf hmem hws hend
    obtain ⟨k, rfl⟩ : ∃ k, fuel = k + 1 := ⟨fuel - 1, by simp at hf; omega⟩
    obtain ⟨hkey, hsep, hsep2, hvne, hvns, hvhd⟩ := hval e (List.mem_cons_self _ _)
    obtain ⟨w1, ws1, hs1, hw1, hws1⟩ := isSep_cons e.sep hsep
    obtain ⟨w2, ws2, hs2, hw2, hws2⟩ := isSep_cons e.sep2 hsep2
    obtain ⟨h1, h2, h3, h4⟩ := keyword_facts e.key
      (by rcases hkey with h | h | h | h | h | h <;> simp [h])
    have hlen : (render_all (e :: es)).length = e.key.length + (ws1.length + 1) + e.val.length
        + (ws2.length + 1) + (render_all es).length := by
      simp only [render_all, List.length_append, hs1, hs2, List.length_cons]
    rw [hlen] at hend
    have hmemA : s.mem.drop s.bytestream = ws ++ e.key ++ w1 ::
        (ws1 ++ e.val ++ w2 :: (ws2 ++ render_all es ++ kw_ENDHDR ++ beyond)) := by
      rw [hmem]
      simp [render_all, hs1, hs2]
    have g1 : ∀ str, pnm_get s str 32 =
        some (at_pos s (s.bytestream + ws.length + e.key.length + 1),
          store str (e.key.take (32 - 1))) := fun str =>
      pnm_get_token s str 32 ws e.key w1 _ hmemA hws h1 h2 h3 hw1 (by omega)
    have hmemB : (at_pos s (s.bytestream + ws.length + e.key.length + 1)).mem.drop
        (at_pos s (s.bytestream + ws.length + e.key.length + 1)).bytestream =
          ws1 ++ e.val ++ w2 :: (ws2 ++ render_all es ++ kw_ENDHDR ++ beyond) := by
      have := drop_add_of_append s.mem s.bytestream (ws ++ e.key ++ [w1])
        (ws1 ++ e.val ++ w2 :: (ws2 ++ render_all es ++ kw_ENDHDR ++ beyond))
        (by rw [hmemA]; simp)
      simp only [List.length_append, List.length_singleton] at this
      simpa [Nat.add_assoc] using this
    have g2 : ∀ str, pnm_get (at_pos s (s.bytestream + ws.length + e.key.length + 1)) str 32 =
        some (at_pos s (s.bytestream + ws.length + e.key.length + 1 + ws1.length
            + e.val.length + 1), store str (e.val.take (32 - 1))) := fun str =>
      pnm_get_token _ str 32 ws1 e.val w2 _ hmemB hws1 hvne hvns hvhd hw2
        (by simp only [at_pos_bytestream, at_pos_end]; omega)
    have hmemC : (at_pos s (s.bytestream + ws.length + e.key.length + 1 + ws1.length
        + e.val.length + 1)).mem.drop
        (at_pos s (s.bytestream + ws.length + e.key.length + 1 + ws1.length
        + e.val.length + 1)).bytestream =
          ws2 ++ render_all es ++ kw_ENDHDR ++ beyond := by
      have := drop_add_of_append s.mem s.bytestream
        (ws ++ e.key ++ [w1] ++ ws1 ++ e.val ++ [w2])
        (ws2 ++ render_all es ++ kw_ENDHDR ++ beyond) (by rw [hmemA]; simp)
      simp only [List.length_append, List.length_singleton] at this
      simpa [Nat.add_assoc] using this
    have hrec : ∀ b t', pam_loop k (at_pos s (s.bytestream + ws.length + e.key.length + 1
        + ws1.length + e.val.length + 1)) b t' =
        some (false, at_pos s s.bytestream_end, es.foldl pam_apply t') := by
      intro b t'
      rw [ih k _ b t' ws2 (fun x hx => hval x (List.mem_cons_of_mem _ hx))
        (by simp at hf; omega) hmemC hws2
        (by simp only [at_pos_bytestream, at_pos_end]; omega)]
      simp only [at_pos_end, at_pos_at_pos]
    unfold pam_loop
    rw [g1]
    simp only [cstr_store, h4, g2, hrec, List.foldl_cons]
    rcases hkey with h | h | h | h | h | h <;>
      simp [h, pam_apply, kw_WIDTH, kw_HEIGHT, kw_DEPTH, kw_MAXVAL, kw_TUPLTYPE, kw_TUPLETYPE]

/-- The magic token `P7` followed by a well-formed run of key/value lines and
`ENDHDR` that reaches the last byte of the buffer: the decoder returns -1. -/
theorem decode_pam_end (ext : Externals) (avctx : AVCodecContext) (s : PNMContext)
    (buf1 sep0 beyond : List Nat) (es : List PamEntry)
    (hmem : s.mem.drop s.bytestream =
      80 :: 55 :: (sep0 ++ render_all es ++ kw_ENDHDR ++ beyond))
    (hend : s.bytestream + 2 + sep0.length + (render_all es).length + 6 = s.bytestream_end)
    (hsep0 : IsSep sep0) (hval : ∀ e ∈ es, ValidEntry e) :
    ff_pnm_decode_header ext avctx s buf1 =
      some (-1, avctx, at_pos { s with type := 7 } s.bytestream_end) := by
  obtain ⟨w0, ws0, rfl, hw0, hws0⟩ := isSep_cons sep0 hsep0
  simp only [List.length_cons] at hend
  have g0 : pnm_get s buf1 32 = some (at_pos s (s.bytestream + 3), store buf1 [80, 55]) :=
    (pnm_get_token s buf1 32 [] [80, 55] w0
      (ws0 ++ render_all es ++ kw_ENDHDR ++ beyond)
      (by rw [hmem]; simp) (by simp) (by simp) (by decide) (by simp) hw0
      (by simp only [List.length_cons, List.length_nil]; omega)).trans rfl
  have hmem1 : s.mem.drop (s.bytestream + 3) =
      ws0 ++ render_all es ++ kw_ENDHDR ++ beyond := by
    have := drop_add_of_append s.mem s.bytestream [80, 55, w0]
      (ws0 ++ render_all es ++ kw_ENDHDR ++ beyond) (by rw [hmem]; simp)
    simpa using this
  have hlen := render_all_length es hval
  refine decode_magic_pam_false ext avctx s _ _ buf1 _ (es.foldl pam_apply pam_init) g0 rfl rfl ?_
  exact pam_loop_entries_end beyond es _ _ _ _ ws0 hval
    (by
      show es.length < s.bytestream_end - (s.bytestream + 3) + 1
      omega) hmem1 hws0
    (by
      show s.bytestream + 3 + ws0.length + (render_all es).length + 6 = s.bytestream_end
      omega)

theorem outcome_some (r : Int) (a : AVCodecContext) (s : PNMContext) :
    outcome (some (r, a, s)) = some (r, a, s.maxval) := rfl

/-- The decoder on `P7`, a well-formed run of key/value lines and `ENDHDR`
that either reaches the last byte of the buffer or is followed by a
white-space byte: -1 in the first case, the check after the loop in the
second. -/
theorem decode_pam_outcome (ext : Externals) (avctx : AVCodecContext) (s : PNMContext)
    (buf1 sep0 tail : List Nat) (es : List PamEntry)
    (hun : unread s = 80 :: 55 :: (sep0 ++ render_all es ++ kw_ENDHDR ++ tail))
    (hin : s.bytestream_end ≤ s.mem.length)
    (hsep0 : IsSep sep0) (hval : ∀ e ∈ es, ValidEntry e) (htail : IsEnd tail) :
    ∃ s2, s2.maxval = s.maxval ∧
      ff_pnm_decode_header ext avctx s buf1 =
        some (if tail = [] then (-1, avctx, s2)
          else pam_finish ext avctx s2 (es.foldl pam_apply pam_init)) := by
  obtain ⟨hmem, hlen⟩ := unread_split s _ hun
  have hlen2 : (unread s).length = min (s.bytestream_end - s.bytestream)
      (s.mem.length - s.bytestream) := by
    unfold unread
    rw [List.length_take, List.length_drop]
  rw [hun] at hlen2
  generalize (s.mem.drop s.bytestream).drop (s.bytestream_end - s.bytestream) = beyond at hmem
  simp only [List.length_cons, List.length_append] at hlen hlen2
  have hk : kw_ENDHDR.length = 6 := rfl
  rw [hk] at hlen hlen2
  rcases htail with rfl | ⟨w, rest, rfl, hw⟩
  · refine ⟨at_pos { s with type := 7 } s.bytestream_end, rfl, ?_⟩
    rw [if_pos rfl]
    exact decode_pam_end ext avctx s buf1 sep0 beyond es (hmem.trans (by simp))
      (by simp only [List.length_nil] at hlen2; omega) hsep0 hval
  · refine ⟨at_pos { s with type := 7 }
      (s.bytestream + 2 + sep0.length + (render_all es).length + 7), rfl, ?_⟩
    rw [if_neg (List.cons_ne_nil _ _)]
    exact decode_pam ext avctx s buf1 sep0 (rest ++ beyond) es w (hmem.trans (by simp))
      (by simp only [List.length_cons] at hlen; omega) hsep0 hw hval

/-- The check after the loop and the depth/maxval table read the tag
variables only through `w`, `h`, `maxval`, `depth` and whether the tuple-type
string is empty. -/
theorem pam_finish_congr (ext : Externals) (avctx : AVCodecContext) (s s2 : PNMContext)
    (t t2 : PamTags) (hs : s.maxval = s2.maxval) (ht : TagsAgree t t2) :
    outcome (some (pam_finish ext avctx s t)) = outcome (some (pam_finish ext avctx s2 t2)) := by
  obtain ⟨hw, hh, hm, hd, htt⟩ := ht
  unfold pam_finish
  rw [hw, hh, hm, hd]
  simp only [htt]
  split_ifs <;> simp [outcome, hs]

theorem tagsAgree_refl (t : PamTags) : TagsAgree t t := ⟨rfl, rfl, rfl, rfl, Iff.rfl⟩

theorem key_slot_eq_iff (key k : List Nat) (h1 : k ≠ kw_TUPLTYPE) (h2 : k ≠ kw_TUPLETYPE) :
    key_slot key = k ↔ key = k := by
  unfold key_slot
  by_cases h : key = kw_TUPLETYPE
  · rw [if_pos h]
    constructor
    · intro h3; exact absurd h3.symm h1
    · intro h3; exact absurd (h3.symm.trans h) h2
  · rw [if_neg h]

theorem key_slot_tuple (key : List Nat) :
    key_slot key = kw_TUPLTYPE ↔ (key = kw_TUPLTYPE ∨ key = kw_TUPLETYPE) := by
  unfold key_slot
  by_cases h : key = kw_TUPLETYPE
  · rw [if_pos h]
    exact ⟨fun _ => Or.inr h, fun _ => rfl⟩
  · rw [if_neg h]
    exact ⟨fun h3 => Or.inl h3, fun h3 => h3.resolve_right h⟩

theorem keep_last_mem : ∀ (es : List PamEntry) (e : PamEntry), e ∈ keep_last es → e ∈ es := by
  intro es
  induction es with
  | nil => intro e h; exact h
  | cons x es ih =>
    intro e h
    unfold keep_last at h
    split_ifs at h
    · exact List.mem_cons_of_mem _ (ih e h)
    · rcases List.mem_cons.1 h with rfl | h
      · exact List.mem_cons_self _ _
      · exact List.mem_cons_of_mem _ (ih e h)

theorem filter_cons_pos (P : PamEntry → Bool) (x : PamEntry) (l : List PamEntry)
    (h : P x = true) : (x :: l).filter P = x :: l.filter P := by
  simp [List.filter_cons, h]

theorem filter_cons_neg (P : PamEntry → Bool) (x : PamEntry) (l : List PamEntry)
    (h : P x = false) : (x :: l).filter P = l.filter P := by
  simp [List.filter_cons, h]

/-- The last line that writes a given variable is the same in `es` and in
`keep_last es`. -/
theorem keep_last_filter (k : List Nat) : ∀ (es : List PamEntry),
    ((keep_last es).filter (fun e => decide (key_slot e.key = k))).getLast? =
      (es.filter (fun e => decide (key_slot e.key = k))).getLast? := by
  intro es
  induction es with
  | nil => rfl
  | cons x es ih =>
    unfold keep_last
    by_cases hany : es.any (fun y => decide (key_slot y.key = key_slot x.key)) = true
    · rw [if_pos hany, ih]
      by_cases hx : key_slot x.key = k
      · obtain ⟨y, hy, hyk⟩ := List.any_eq_true.1 hany
        have hyk2 : key_slot y.key = k := (of_decide_eq_true hyk).trans hx
        have hne : es.filter (fun e => decide (key_slot e.key = k)) ≠ [] := by
          intro h0
          have : y ∈ es.filter (fun e => decide (key_slot e.key = k)) :=
            List.mem_filter.2 ⟨hy, decide_eq_true hyk2⟩
          rw [h0] at this
          cases this
        rw [filter_cons_pos (fun e => decide (key_slot e.key = k)) x es (decide_eq_true hx)]
        cases hl : es.filter (fun e => decide (key_slot e.key = k)) with
        | nil => exact absurd hl hne
        | cons a l => rw [List.getLast?_cons_cons]
      · rw [filter_cons_neg (fun e => decide (key_slot e.key = k)) x es (decide_eq_false hx)]
    · rw [if_neg hany]
      by_cases hx : key_slot x.key = k
      · have hnone : ∀ (l : List PamEntry), (∀ y ∈ l, y ∈ es) →
            l.filter (fun e => decide (key_slot e.key = k)) = [] := by
          intro l hl
          apply List.filter_eq_nil_iff.2
          intro y hy hyk
          apply hany
          exact List.any_eq_true.2 ⟨y, hl y hy,
            decide_eq_true ((of_decide_eq_true hyk).trans hx.symm)⟩
        rw [filter_cons_pos (fun e => decide (key_slot e.key = k)) x _ (decide_eq_true hx),
          filter_cons_pos (fun e => decide (key_slot e.key = k)) x _ (decide_eq_true hx),
          hnone es (fun _ h => h), hnone (keep_last es) (keep_last_mem es)]
      · rw [filter_cons_neg (fun e => decide (key_slot e.key = k)) x _ (decide_eq_false hx),
          filter_cons_neg (fun e => decide (key_slot e.key = k)) x _ (decide_eq_false hx), ih]

theorem has_key_slot (k : List Nat) (h1 : k ≠ kw_TUPLTYPE) (h2 : k ≠ kw_TUPLETYPE) :
    has_key k = fun e => decide (key_slot e.key = k) := by
  funext e
  unfold has_key
  exact decide_eq_decide.2 (key_slot_eq_iff e.key k h1 h2).symm

theorem has_tuple_key_slot : has_tuple_key = fun e => decide (key_slot e.key = kw_TUPLTYPE) := by
  funext e
  unfold has_tuple_key
  exact decide_eq_decide.2 (key_slot_tuple e.key).symm

theorem last_val_keep_last (es : List PamEntry) :
    last_val (has_key kw_WIDTH) (keep_last es) = last_val (has_key kw_WIDTH) es ∧
    last_val (has_key kw_HEIGHT) (keep_last es) = last_val (has_key kw_HEIGHT) es ∧
    last_val (has_key kw_DEPTH) (keep_last es) = last_val (has_key kw_DEPTH) es ∧
    last_val (has_key kw_MAXVAL) (keep_last es) = last_val (has_key kw_MAXVAL) es ∧
    last_val has_tuple_key (keep_last es) = last_val has_tuple_key es := by
  unfold last_val
  rw [has_key_slot kw_WIDTH (by decide) (by decide),
    has_key_slot kw_HEIGHT (by decide) (by decide),
    has_key_slot kw_DEPTH (by decide) (by decide),
    has_key_slot kw_MAXVAL (by decide) (by decide), has_tuple_key_slot,
    keep_last_filter, keep_last_filter, keep_last_filter, keep_last_filter, keep_last_filter]
  exact ⟨rfl, rfl, rfl, rfl, rfl⟩

/-- The tag variables after the lines `es` and after the lines `keep_last es`
agree. -/
theorem tags_keep_last (es : List PamEntry) :
    TagsAgree (es.foldl pam_apply pam_init) ((keep_last es).foldl pam_apply pam_init) := by
  obtain ⟨h1, h2, h3, h4, h5⟩ := last_val_keep_last es
  refine ⟨?_, ?_, ?_, ?_, ?_⟩
  · rw [tags_w, tags_w, h1]
  · rw [tags_h, tags_h, h2]
  · rw [tags_maxval, tags_maxval, h4]
  · rw [tags_depth, tags_depth, h3]
  · rw [tags_tuple, tags_tuple, h5]

theorem headD_take (v : List Nat) : (v.take 31).headD 0 = v.headD 0 := by
  cases v <;> rfl

theorem pam_apply_agree (t t2 : PamTags) (a b : PamEntry) (hab : SameButTuple a b)
    (h : TagsAgree t t2) : TagsAgree (pam_apply t a) (pam_apply t2 b) := by
  obtain ⟨hk, _, _, hv⟩ := hab
  obtain ⟨hw, hh, hm, hd, htt⟩ := h
  have hkey : ∀ k, (b.key = k) = (a.key = k) := fun k => by rw [hk]
  by_cases htk : a.key = kw_TUPLTYPE ∨ a.key = kw_TUPLETYPE
  · have htk2 : b.key = kw_TUPLTYPE ∨ b.key = kw_TUPLETYPE := by rw [← hk]; exact htk
    have hne : ∀ k, k ≠ kw_TUPLTYPE → k ≠ kw_TUPLETYPE → ¬ a.key = k := by
      intro k h1 h2 h3
      rcases htk with h | h
      · exact h1 (h3.symm.trans h)
      · exact h2 (h3.symm.trans h)
    have hne2 : ∀ k, k ≠ kw_TUPLTYPE → k ≠ kw_TUPLETYPE → ¬ b.key = k := by
      rw [← hk]; exact hne
    refine ⟨?_, ?_, ?_, ?_, ?_⟩
    · rw [pam_apply_w_keep t a (hne _ (by decide) (by decide)),
        pam_apply_w_keep t2 b (hne2 _ (by decide) (by decide)), hw]
    · rw [pam_apply_h_keep t a (hne _ (by decide) (by decide)),
        pam_apply_h_keep t2 b (hne2 _ (by decide) (by decide)), hh]
    · rw [pam_apply_maxval_keep t a (hne _ (by decide) (by decide)),
        pam_apply_maxval_keep t2 b (hne2 _ (by decide) (by decide)), hm]
    · rw [pam_apply_depth_keep t a (hne _ (by decide) (by decide)),
        pam_apply_depth_keep t2 b (hne2 _ (by decide) (by decide)), hd]
    · rw [pam_apply_tuple t a htk, pam_apply_tuple t2 b htk2, headD_take, headD_take]
      rcases hv with hv | ⟨_, ha, hb⟩
      · rw [hv]
      · exact ⟨fun h0 => absurd h0 ha, fun h0 => absurd h0 hb⟩
  · have hv2 : a.val = b.val := by
      rcases hv with hv | ⟨hv, _, _⟩
      · exact hv
      · exact absurd (by simpa [has_tuple_key] using hv) htk
    have htk2 : ¬ (b.key = kw_TUPLTYPE ∨ b.key = kw_TUPLETYPE) := by rw [← hk]; exact htk
    refine ⟨?_, ?_, ?_, ?_, ?_⟩
    · by_cases hc : a.key = kw_WIDTH
      · rw [pam_apply_w t a hc, pam_apply_w t2 b (hk ▸ hc), hv2]
      · rw [pam_apply_w_keep t a hc, pam_apply_w_keep t2 b (hk ▸ hc), hw]
    · by_cases hc : a.key = kw_HEIGHT
      · rw [pam_apply_h t a hc, pam_apply_h t2 b (hk ▸ hc), hv2]
      · rw [pam_apply_h_keep t a hc, pam_apply_h_keep t2 b (hk ▸ hc), hh]
    · by_cases hc : a.key = kw_MAXVAL
      · rw [pam_apply_maxval t a hc, pam_apply_maxval t2 b (hk ▸ hc), hv2]
      · rw [pam_apply_maxval_keep t a hc, pam_apply_maxval_keep t2 b (hk ▸ hc), hm]
    · by_cases hc : a.key = kw_DEPTH
      · rw [pam_apply_depth t a hc, pam_apply_depth t2 b (hk ▸ hc), hv2]
      · rw [pam_apply_depth_keep t a hc, pam_apply_depth_keep t2 b (hk ▸ hc), hd]
    · rw [pam_apply_tuple_keep t a htk, pam_apply_tuple_keep t2 b htk2]
      exact htt

theorem fold_agree : ∀ (es es2 : List PamEntry) (t t2 : PamTags),
    List.Forall₂ SameButTuple es es2 → TagsAgree t t2 →
      TagsAgree (es.foldl pam_apply t) (es2.foldl pam_apply t2) := by
  intro es es2 t t2 h
  induction h generalizing t t2 with
  | nil => intro ht; exact ht
  | cons hab _ ih =>
    intro ht
    rw [List.foldl_cons, List.foldl_cons]
    exact ih _ _ (pam_apply_agree _ _ _ _ hab ht)

/-- Two headers whose tag variables agree after the key/value lines decode to
the same return code, codec context and maxval. -/
theorem decode_pam_agree (ext : Externals) (avctx : AVCodecContext) (sA sB : PNMContext)
    (bufA bufB sepA sepB tail : List Nat) (esA esB : List PamEntry)
    (hunA : unread sA = 80 :: 55 :: (sepA ++ render_all esA ++ kw_ENDHDR ++ tail))
    (hunB : unread sB = 80 :: 55 :: (sepB ++ render_all esB ++ kw_ENDHDR ++ tail))
    (hinA : sA.bytestream_end ≤ sA.mem.length) (hinB : sB.bytestream_end ≤ sB.mem.length)
    (hmax : sA.maxval = sB.maxval)
    (hsepA : IsSep sepA) (hsepB : IsSep sepB) (htail : IsEnd tail)
    (hvalA : ∀ e ∈ esA, ValidEntry e) (hvalB : ∀ e ∈ esB, ValidEntry e)
    (hag : TagsAgree (esA.foldl pam_apply pam_init) (esB.foldl pam_apply pam_init)) :
    ∃ r a m, outcome (ff_pnm_decode_header ext avctx sA bufA) = some (r, a, m) ∧
      outcome (ff_pnm_decode_header ext avctx sB bufB) = some (r, a, m) := by
  obtain ⟨sA2, hA2, hdA⟩ := decode_pam_outcome ext avctx sA bufA sepA tail esA hunA hinA hsepA
    hvalA htail
  obtain ⟨sB2, hB2, hdB⟩ := decode_pam_outcome ext avctx sB bufB sepB tail esB hunB hinB hsepB
    hvalB htail
  rw [hdA, hdB]
  by_cases ht : tail = []
  · rw [if_pos ht, if_pos ht]
    exact ⟨-1, avctx, sA2.maxval, rfl, by rw [outcome_some, hB2, ← hmax, hA2]⟩
  · rw [if_neg ht, if_neg ht]
    have h := pam_finish_congr ext avctx sA2 sB2 _ _ (by rw [hA2, hB2, hmax]) hag
    rw [← h]
    exact ⟨_, _, _, rfl, rfl⟩

theorem unread_packet (l : List Nat) : unread (packet l) = l := by
  simp [unread, packet]

/-- C12: last write wins.  Take a P7 header made of `P7`, white space, a run
of well-formed key/value lines `es` (keys among WIDTH, HEIGHT, DEPTH, MAXVAL,
TUPLTYPE/TUPLETYPE, in any order and any number of times), and `ENDHDR`
followed by a white-space byte or by the end of the buffer, and the header
that differs from it only in that each key keeps its last line.  On the two
buffers (same codec context, same maxval on entry) the decoder returns the
same return code, the same codec context (width, height, pix_fmt) and the same
maxval: a repeated key is not an error, only its last value counts. -/
theorem last_write_wins (ext : Externals) (avctx : AVCodecContext) (sA sB : PNMContext)
    (bufA bufB sep0 tail : List Nat) (es : List PamEntry)
    (hunA : unread sA = 80 :: 55 :: (sep0 ++ render_all es ++ kw_ENDHDR ++ tail))
    (hunB : unread sB = 80 :: 55 :: (sep0 ++ render_all (keep_last es) ++ kw_ENDHDR ++ tail))
    (hinA : sA.bytestream_end ≤ sA.mem.length) (hinB : sB.bytestream_end ≤ sB.mem.length)
    (hmax : sA.maxval = sB.maxval)
    (hsep0 : IsSep sep0) (htail : IsEnd tail) (hval : ∀ e ∈ es, ValidEntry e) :
    ∃ r a m, outcome (ff_pnm_decode_header ext avctx sA bufA) = some (r, a, m) ∧
      outcome (ff_pnm_decode_header ext avctx sB bufB) = some (r, a, m) :=
  decode_pam_agree ext avctx sA sB bufA bufB sep0 sep0 tail es (keep_last es) hunA hunB hinA
    hinB hmax hsep0 hsep0 htail hval (fun e he => hval e (keep_last_mem es e he))
    (tags_keep_last es)

set_option maxRecDepth 8000 in
/-- C12, witness: the header with the lines `dup_lines` (two `WIDTH` lines,
a `TUPLETYPE` and a `TUPLTYPE` line) and the header that keeps the last line
of each key both decode to return code 0, width 4, height 4, RGB24 and
maxval 255. -/
theorem last_write_wins_witness :
    keep_last dup_lines =
        [{ key := kw_WIDTH, sep := [32], val := [52], sep2 := [10] },
         { key := kw_HEIGHT, sep := [32], val := [52], sep2 := [10] },
         { key := kw_DEPTH, sep := [32], val := [51], sep2 := [10] },
         { key := kw_MAXVAL, sep := [32], val := [50, 53, 53], sep2 := [10] },
         { key := kw_TUPLTYPE, sep := [32], val := [82, 71, 66], sep2 := [10] }] ∧
      outcome (ff_pnm_decode_header ext_accept (ctx0 CodecID.PAM)
        (packet (80 :: 55 :: ([10] ++ render_all dup_lines ++ kw_ENDHDR ++ [10]))) buf0)
        = some (0, { codec_id := CodecID.PAM, pix_fmt := PixelFormat.RGB24, width := 4,
                     height := 4 }, 255) ∧
      ∃ r a m, outcome (ff_pnm_decode_header ext_accept (ctx0 CodecID.PAM)
          (packet (80 :: 55 :: ([10] ++ render_all dup_lines ++ kw_ENDHDR ++ [10]))) buf0)
          = some (r, a, m) ∧
        outcome (ff_pnm_decode_header ext_accept (ctx0 CodecID.PAM)
          (packet (80 :: 55 :: ([10] ++ render_all (keep_last dup_lines) ++ kw_ENDHDR
            ++ [10]))) buf0) = some (r, a, m) :=
  ⟨by decide, by decide,
    last_write_wins ext_accept (ctx0 CodecID.PAM) _ _ buf0 buf0 [10] [10] dup_lines
      (unread_packet _) (unread_packet _) (le_refl _) (le_refl _) rfl
      (by simp [IsSep, pnm_space]) (Or.inr ⟨10, [], rfl, by decide⟩)
      (by simp [dup_lines, ValidEntry, IsSep, pnm_space, kw_HEIGHT, kw_WIDTH, kw_DEPTH,
        kw_MAXVAL, kw_TUPLTYPE, kw_TUPLETYPE])⟩

/-- C18: the tuple type is ignored.  Take two P7 headers made of `P7`, white
space, well-formed key/value lines and `ENDHDR` followed by a white-space byte
or by the end of the buffer, that differ only in the value tokens of their
`TUPLTYPE`/`TUPLETYPE` lines, these values being non-empty strings.  On the
two buffers (same codec context, same maxval on entry) the decoder returns
the same return code, the same codec context (width, height, pix_fmt) and the
same maxval.  The check after the loop reads the tuple-type string only
through its being empty or not: two states of the tag variables that agree
on `w`, `h`, `maxval`, `depth` and on whether the string is empty give the
same result. -/
theorem tuple_type_ignored (ext : Externals) (avctx : AVCodecContext) (sA sB : PNMContext)
    (bufA bufB sep0 tail : List Nat) (esA esB : List PamEntry)
    (hunA : unread sA = 80 :: 55 :: (sep0 ++ render_all esA ++ kw_ENDHDR ++ tail))
    (hunB : unread sB = 80 :: 55 :: (sep0 ++ render_all esB ++ kw_ENDHDR ++ tail))
    (hinA : sA.bytestream_end ≤ sA.mem.length) (hinB : sB.bytestream_end ≤ sB.mem.length)
    (hmax : sA.maxval = sB.maxval)
    (hsep0 : IsSep sep0) (htail : IsEnd tail)
    (hvalA : ∀ e ∈ esA, ValidEntry e) (hvalB : ∀ e ∈ esB, ValidEntry e)
    (hsame : List.Forall₂ SameButTuple esA esB) :
    (∃ r a m, outcome (ff_pnm_decode_header ext avctx sA bufA) = some (r, a, m) ∧
      outcome (ff_pnm_decode_header ext avctx sB bufB) = some (r, a, m)) ∧
    (∀ (s s2 : PNMContext) (t t2 : PamTags), s.maxval = s2.maxval → TagsAgree t t2 →
      outcome (some (pam_finish ext avctx s t)) = outcome (some (pam_finish ext avctx s2 t2))) :=
  ⟨decode_pam_agree ext avctx sA sB bufA bufB sep0 sep0 tail esA esB hunA hunB hinA hinB hmax
      hsep0 hsep0 htail hvalA hvalB (fold_agree esA esB _ _ hsame (tagsAgree_refl _)),
    fun s s2 t t2 hs ht => pam_finish_congr ext avctx s s2 t t2 hs ht⟩

set_option maxRecDepth 8000 in
/-- C18, witness: the header with the lines `rgb_lines` and the header with
`TUPLTYPE GRAYSCALE` in the place of `TUPLTYPE RGB` (depth 3, maxval 255) both
decode to return code 0, width 4, height 4, RGB24 and maxval 255. -/
theorem tuple_type_ignored_witness :
    outcome (ff_pnm_decode_header ext_accept (ctx0 CodecID.PAM)
        (packet (80 :: 55 :: ([10] ++ render_all gray_tuple_lines ++ kw_ENDHDR ++ [10]))) buf0)
        = some (0, { codec_id := CodecID.PAM, pix_fmt := PixelFormat.RGB24, width := 4,
                     height := 4 }, 255) ∧
      ∃ r a m, outcome (ff_pnm_decode_header ext_accept (ctx0 CodecID.PAM)
          (packet (80 :: 55 :: ([10] ++ render_all rgb_lines ++ kw_ENDHDR ++ [10]))) buf0)
          = some (r, a, m) ∧
        outcome (ff_pnm_decode_header ext_accept (ctx0 CodecID.PAM)
          (packet (80 :: 55 :: ([10] ++ render_all gray_tuple_lines ++ kw_ENDHDR ++ [10])))
          buf0) = some (r, a, m) :=
  ⟨by decide,
    (tuple_type_ignored ext_accept (ctx0 CodecID.PAM) _ _ buf0 buf0 [10] [10] rgb_lines
      gray_tuple_lines (unread_packet _) (unread_packet _) (le_refl _) (le_refl _) rfl
      (by simp [IsSep, pnm_space]) (Or.inr ⟨10, [], rfl, by decide⟩)
      (by simp [rgb_lines, ValidEntry, IsSep, pnm_space, kw_HEIGHT, kw_WIDTH, kw_DEPTH,
        kw_MAXVAL, kw_TUPLTYPE, kw_TUPLETYPE])
      (by simp [gray_tuple_lines, ValidEntry, IsSep, pnm_space, kw_HEIGHT, kw_WIDTH, kw_DEPTH,
        kw_MAXVAL, kw_TUPLTYPE, kw_TUPLETYPE])
      (List.Forall₂.cons ⟨rfl, rfl, rfl, Or.inl rfl⟩
        (List.Forall₂.cons ⟨rfl, rfl, rfl, Or.inl rfl⟩
          (List.Forall₂.cons ⟨rfl, rfl, rfl, Or.inl rfl⟩
            (List.Forall₂.cons ⟨rfl, rfl, rfl, Or.inl rfl⟩
              (List.Forall₂.cons ⟨rfl, rfl, rfl, Or.inr ⟨by decide, by decide, by decide⟩⟩
                List.Forall₂.nil)))))).1⟩

end PNM
